import Mathlib

/-!
# StockScribe FIFO: the inventory service

A shallow embedding of `services/inventory_service.go` and of the records of
`models/`, followed by the properties of the FIFO allocation engine.

Modelling conventions.

* A `float64` quantity, price or cost is the rational number it denotes (`ℚ`);
  infinities and NaN are not numbers and are not represented.
* The operations that compute are embedded twice. In the first embedding their
  arithmetic is exact; it carries the properties in which rounding plays no
  part. In the second, the namespace `F64`, every addition, subtraction,
  multiplication and division of the source is the exact operation followed by a
  rounding `fl`, one rounding per operation, and `recalculateProductTotals`
  accumulates its sums in the order in which the `range` loop visits the map;
  it carries the properties in which rounding shows. They are proved for every
  rounding `fl`, the bounds of a lot for every rounding that is monotone, keeps
  zero and keeps the values it returns. `round64` is the rounding of IEEE 754
  binary64 arithmetic, to the nearest value with a tie going to the even one; it
  has these three laws, and is the rounding of the scenarios. A product and the
  sum it enters are rounded one after the other, as on amd64, where the compiler
  does not fuse them; a result beyond the largest `float64` is not represented.
* `time.Time` is an instant on a line (`Int`); `Before` is `<`, `After` is `>`.
* A Go `map[string]V` is an association list (`GoMap V`) whose keys are kept
  distinct by `put`; a nil pointer argument (`*string`, `*float64`) is `none`.
* What a call takes from outside the service is gathered in `Env`: the values
  `uuid.New()` yields during the call, the value of `time.Now()`, and the order
  in which a `range` loop visits the lots of the `stockEntries` map (Go leaves
  that order unspecified).
* Every operation returns the Go result together with the service after the
  call, also when the result is an error.
* `saveData` only emits a front-end event and touches no field of the service;
  it is left out.
-/

namespace StockScribe

/-! ## models -/

/-- An instant (`time.Time`). -/
abbrev Time := Int

/-- The method `Time.Before`. -/
def Before (t u : Time) : Bool := decide (t < u)

/-- The method `Time.After`. -/
def After (t u : Time) : Bool := decide (u < t)

/-- The record `models.Product`. -/
structure Product where
  ID : String
  Name : String
  SKU : String
  Description : String
  Units : Option String
  CurrentStock : ℚ
  AverageCost : ℚ
  CreatedAt : Time
  UpdatedAt : Time
deriving DecidableEq

/-- The record `models.StockEntry`: one receipt lot. -/
structure StockEntry where
  ID : String
  ProductID : String
  Quantity : ℚ
  RemainingQuantity : ℚ
  UnitPrice : ℚ
  EntryDate : Time
  Notes : Option String
deriving DecidableEq

/-- The record `models.StockOutput`: one withdrawal. -/
structure StockOutput where
  ID : String
  ProductID : String
  TotalQuantity : ℚ
  TotalCost : ℚ
  ReferenceNumber : Option String
  OutputDate : Time
  Notes : Option String
deriving DecidableEq

/-- The record `models.StockOutputLine`: one allocation line. -/
structure StockOutputLine where
  ID : String
  StockOutputID : String
  StockEntryID : String
  Quantity : ℚ
  UnitPrice : ℚ
deriving DecidableEq

/-- The constants `TransactionTypeEntry` and `TransactionTypeOutput`. -/
inductive TransactionType where
  | TransactionTypeEntry
  | TransactionTypeOutput
deriving DecidableEq

/-- The record `models.Transaction`: one log entry (`Type_` is the field `Type`). -/
structure Transaction where
  ID : String
  Type_ : TransactionType
  ProductID : String
  Quantity : ℚ
  Date : Time
  ReferenceID : String
  Notes : Option String
deriving DecidableEq

/-! ## Go maps and slices -/

/-- A Go `map[string]V`, as the list of its key/value pairs. -/
abbrev GoMap (V : Type) := List (String × V)

namespace GoMap

/-- The read `m[k]` with its `exists` flag. -/
def find {V : Type} : GoMap V → String → Option V
  | [], _ => none
  | (k', v) :: m, k => if k' = k then some v else find m k

/-- The write `m[k] = v`: replaces the value under `k`, or adds the key. -/
def put {V : Type} : GoMap V → String → V → GoMap V
  | [], k, v => [(k, v)]
  | (k', v') :: m, k, v => if k' = k then (k', v) :: m else (k', v') :: put m k v

/-- The statement `delete(m, k)`. -/
def del {V : Type} : GoMap V → String → GoMap V
  | [], _ => []
  | (k', v') :: m, k => if k' = k then del m k else (k', v') :: del m k

/-- The keys of the map. -/
def keys {V : Type} (m : GoMap V) : List String := m.map Prod.fst

/-- The values of the map. -/
def vals {V : Type} (m : GoMap V) : List V := m.map Prod.snd

end GoMap

/-- The library call `sort.Slice(x, less)`. Its contract is a permutation of `x`
in which no element is `less` than an earlier one; it does not promise
stability. Here it is insertion sort, which is what Go runs on slices shorter
than 12 and which keeps equal elements in the order in which it finds them. On
the lots of a map that order is the order of the visit, which `Env` leaves
arbitrary, so every outcome the contract allows is covered. -/
def sortSlice {α : Type} (less : α → α → Bool) (l : List α) : List α :=
  l.insertionSort (fun a b => less b a = false)

/-! ## the service -/

/-- The struct `InventoryService` (without `ctx` and `dataDirectory`, which no
operation below reads). -/
structure InventoryService where
  products : GoMap Product
  stockEntries : GoMap StockEntry
  stockOutputs : GoMap StockOutput
  outputLines : GoMap (List StockOutputLine)
  transactions : List Transaction
deriving DecidableEq

/-- The errors the operations return (`fmt.Errorf` with its arguments). -/
inductive Error where
  | productNotFound (id : String)
  | skuExists (sku : String)
  | otherSkuExists (sku : String)
  | hasTransactionHistory
  | stockEntryNotFound (id : String)
  | belowConsumed (consumedQuantity : ℚ)
  | insufficientStock (available : ℚ)
deriving DecidableEq

/-- What one call takes from outside the service. -/
structure Env where
  /-- The value of the `k`-th call of `uuid.New().String()` during the operation. -/
  uuid : Nat → String
  /-- The value of `time.Now()`. -/
  now : Time
  /-- The order in which `range s.stockEntries` visits the lots. -/
  visit : List StockEntry → List StockEntry
  /-- A `range` loop visits every element of the map exactly once. -/
  visit_perm : ∀ l, (visit l).Perm l

/-- The constructor `NewInventoryService`. -/
def NewInventoryService : InventoryService :=
  { products := [], stockEntries := [], stockOutputs := [], outputLines := [],
    transactions := [] }

/-- The method `GetProductByID`. -/
def GetProductByID (s : InventoryService) (id : String) : Except Error Product :=
  match s.products.find id with
  | none => .error (.productNotFound id)
  | some product => .ok product

/-- The method `recalculateProductTotals`. The loop adds up, over the lots of the
product with a positive remaining quantity, the remaining quantity and its
value; exact sums do not depend on the order of the visit. -/
def recalculateProductTotals (env : Env) (s : InventoryService) (productID : String) :
    InventoryService :=
  match s.products.find productID with
  | none => s
  | some product =>
    let totals : ℚ × ℚ := s.stockEntries.vals.foldl
      (fun acc entry =>
        if entry.ProductID = productID ∧ entry.RemainingQuantity > 0 then
          (acc.1 + entry.RemainingQuantity,
           acc.2 + entry.RemainingQuantity * entry.UnitPrice)
        else acc)
      (0, 0)
    let currentStock := totals.1
    let totalValue := totals.2
    let product := { product with
      CurrentStock := currentStock
      AverageCost := if currentStock > 0 then totalValue / currentStock else 0
      UpdatedAt := env.now }
    { s with products := s.products.put productID product }

/-- The method `CreateProduct`. -/
def CreateProduct (env : Env) (s : InventoryService) (name sku description : String)
    (units : Option String) : Except Error Product × InventoryService :=
  if s.products.vals.any (fun p => p.SKU = sku) then
    (.error (.skuExists sku), s)
  else
    let product : Product :=
      { ID := env.uuid 0, Name := name, SKU := sku, Description := description,
        Units := units, CurrentStock := 0, AverageCost := 0,
        CreatedAt := env.now, UpdatedAt := env.now }
    (.ok product, { s with products := s.products.put product.ID product })

/-- The method `UpdateProduct`. -/
def UpdateProduct (env : Env) (s : InventoryService) (id name sku description : String)
    (units : Option String) : Except Error Product × InventoryService :=
  match s.products.find id with
  | none => (.error (.productNotFound id), s)
  | some product =>
    if s.products.any (fun kv => kv.2.SKU = sku ∧ kv.1 ≠ id) then
      (.error (.otherSkuExists sku), s)
    else
      let product := { product with
        Name := name, SKU := sku, Description := description, Units := units,
        UpdatedAt := env.now }
      (.ok product, { s with products := s.products.put id product })

/-- The method `DeleteProduct`. -/
def DeleteProduct (s : InventoryService) (id : String) :
    Except Error Unit × InventoryService :=
  match s.products.find id with
  | none => (.error (.productNotFound id), s)
  | some _ =>
    if s.transactions.any (fun t => t.ProductID = id) then
      (.error .hasTransactionHistory, s)
    else
      (.ok (), { s with products := s.products.del id })

/-- The method `AddStockEntry`. -/
def AddStockEntry (env : Env) (s : InventoryService) (productID : String)
    (quantity unitPrice : ℚ) (entryDate : Time) (notes : Option String) :
    Except Error StockEntry × InventoryService :=
  match s.products.find productID with
  | none => (.error (.productNotFound productID), s)
  | some _ =>
    let entry : StockEntry :=
      { ID := env.uuid 0, ProductID := productID, Quantity := quantity,
        RemainingQuantity := quantity, UnitPrice := unitPrice,
        EntryDate := entryDate, Notes := notes }
    let transaction : Transaction :=
      { ID := env.uuid 1, Type_ := .TransactionTypeEntry, ProductID := productID,
        Quantity := quantity, Date := entryDate, ReferenceID := entry.ID,
        Notes := notes }
    let s1 := { s with
      stockEntries := s.stockEntries.put entry.ID entry
      transactions := s.transactions ++ [transaction] }
    (.ok entry, recalculateProductTotals env s1 productID)

/-- The method `GetStockEntriesForProduct`. -/
def GetStockEntriesForProduct (env : Env) (s : InventoryService) (productID : String) :
    List StockEntry :=
  sortSlice (fun a b => Before a.EntryDate b.EntryDate)
    ((env.visit s.stockEntries.vals).filter (fun entry => entry.ProductID = productID))

/-- The method `UpdateStockEntry`. -/
def UpdateStockEntry (env : Env) (s : InventoryService) (id : String) (unitPrice : ℚ)
    (entryDate : Time) (notes : Option String) (quantity : Option ℚ) :
    Except Error StockEntry × InventoryService :=
  match s.stockEntries.find id with
  | none => (.error (.stockEntryNotFound id), s)
  | some entry =>
    let checked : Except Error StockEntry :=
      match quantity with
      | none => .ok entry
      | some q =>
        let consumedQuantity := entry.Quantity - entry.RemainingQuantity
        if q < consumedQuantity then .error (.belowConsumed consumedQuantity)
        else
          let remainingDiff := q - entry.Quantity
          .ok { entry with
            Quantity := q
            RemainingQuantity := entry.RemainingQuantity + remainingDiff }
    match checked with
    | .error e => (.error e, s)
    | .ok entry =>
      let entry := { entry with
        UnitPrice := unitPrice, EntryDate := entryDate, Notes := notes }
      let s1 := { s with stockEntries := s.stockEntries.put id entry }
      (.ok entry, recalculateProductTotals env s1 entry.ProductID)

/-- The variables the allocation loop of `CreateStockOutput` updates. -/
structure Allocation where
  stockEntries : GoMap StockEntry
  remainingToFulfill : ℚ
  totalCost : ℚ
  outputLines : List StockOutputLine

/-- The body of the allocation loop of `CreateStockOutput`, at iteration `i`
with lot `entry`. The line takes the `i + 1`-st identifier of the call; the
write-back `availableEntries[i] = entry` is not read again and is left out. -/
def allocateStep (env : Env) (outputID : String) (entry : StockEntry) (i : Nat)
    (a : Allocation) : Allocation :=
  let qtyFromThisEntry :=
    if a.remainingToFulfill > entry.RemainingQuantity then entry.RemainingQuantity
    else a.remainingToFulfill
  let outputLine : StockOutputLine :=
    { ID := env.uuid (i + 1), StockOutputID := outputID, StockEntryID := entry.ID,
      Quantity := qtyFromThisEntry, UnitPrice := entry.UnitPrice }
  let entry := { entry with
    RemainingQuantity := entry.RemainingQuantity - qtyFromThisEntry }
  { stockEntries := a.stockEntries.put entry.ID entry
    remainingToFulfill := a.remainingToFulfill - qtyFromThisEntry
    totalCost := a.totalCost + qtyFromThisEntry * entry.UnitPrice
    outputLines := a.outputLines ++ [outputLine] }

/-- The allocation loop of `CreateStockOutput` (`for i, entry := range
availableEntries`), from iteration `i` on; it breaks once nothing remains to
fulfil. -/
def allocate (env : Env) (outputID : String) :
    List StockEntry → Nat → Allocation → Allocation
  | [], _, a => a
  | entry :: rest, i, a =>
    if a.remainingToFulfill ≤ 0 then a
    else allocate env outputID rest (i + 1) (allocateStep env outputID entry i a)

/-- The slice `availableEntries` of `CreateStockOutput`: the lots of the product
with a positive remaining quantity, sorted by entry date. -/
def availableEntries (env : Env) (s : InventoryService) (productID : String) :
    List StockEntry :=
  sortSlice (fun a b => Before a.EntryDate b.EntryDate)
    ((env.visit s.stockEntries.vals).filter
      (fun entry => entry.ProductID = productID ∧ entry.RemainingQuantity > 0))

/-- The method `CreateStockOutput`. -/
def CreateStockOutput (env : Env) (s : InventoryService) (productID : String)
    (quantity : ℚ) (outputDate : Time) (referenceNumber notes : Option String) :
    Except Error StockOutput × InventoryService :=
  match s.products.find productID with
  | none => (.error (.productNotFound productID), s)
  | some product =>
    if product.CurrentStock < quantity then
      (.error (.insufficientStock product.CurrentStock), s)
    else
      let output : StockOutput :=
        { ID := env.uuid 0, ProductID := productID, TotalQuantity := quantity,
          TotalCost := 0, ReferenceNumber := referenceNumber,
          OutputDate := outputDate, Notes := notes }
      let a := allocate env output.ID (availableEntries env s productID) 0
        { stockEntries := s.stockEntries, remainingToFulfill := quantity,
          totalCost := 0, outputLines := [] }
      let output := { output with TotalCost := a.totalCost }
      let transaction : Transaction :=
        { ID := env.uuid (a.outputLines.length + 1), Type_ := .TransactionTypeOutput,
          ProductID := productID, Quantity := quantity, Date := outputDate,
          ReferenceID := output.ID, Notes := notes }
      let s1 : InventoryService :=
        { products := s.products
          stockEntries := a.stockEntries
          stockOutputs := s.stockOutputs.put output.ID output
          outputLines := s.outputLines.put output.ID a.outputLines
          transactions := s.transactions ++ [transaction] }
      (.ok output, recalculateProductTotals env s1 productID)

/-- The method `GetStockOutputLines` (a missing key reads as the nil slice). -/
def GetStockOutputLines (s : InventoryService) (outputID : String) : List StockOutputLine :=
  (s.outputLines.find outputID).getD []

/-- The method `GetTransactionsForProduct`. -/
def GetTransactionsForProduct (s : InventoryService) (productID : String) :
    List Transaction :=
  sortSlice (fun a b => After a.Date b.Date)
    (s.transactions.filter (fun transaction => transaction.ProductID = productID))

/-- The method `GetAllTransactions`. -/
def GetAllTransactions (s : InventoryService) : List Transaction :=
  sortSlice (fun a b => After a.Date b.Date) s.transactions

/-! ## calls and reachable states -/

/-- A call of one of the six mutating operations, with its arguments. -/
inductive Op where
  | createProduct (name sku description : String) (units : Option String)
  | updateProduct (id name sku description : String) (units : Option String)
  | deleteProduct (id : String)
  | addStockEntry (productID : String) (quantity unitPrice : ℚ) (entryDate : Time)
      (notes : Option String)
  | updateStockEntry (id : String) (unitPrice : ℚ) (entryDate : Time)
      (notes : Option String) (quantity : Option ℚ)
  | createStockOutput (productID : String) (quantity : ℚ) (outputDate : Time)
      (referenceNumber notes : Option String)

/-- The `error` a Go call returns: `none` is `nil`. -/
def errorOf {α : Type} : Except Error α → Option Error
  | .error e => some e
  | .ok _ => none

/-- Runs a call: the error it returns, and the service after it. -/
def Op.run (env : Env) (s : InventoryService) : Op → Option Error × InventoryService
  | .createProduct name sku description units =>
    let r := CreateProduct env s name sku description units
    (errorOf r.1, r.2)
  | .updateProduct id name sku description units =>
    let r := UpdateProduct env s id name sku description units
    (errorOf r.1, r.2)
  | .deleteProduct id =>
    let r := DeleteProduct s id
    (errorOf r.1, r.2)
  | .addStockEntry productID quantity unitPrice entryDate notes =>
    let r := AddStockEntry env s productID quantity unitPrice entryDate notes
    (errorOf r.1, r.2)
  | .updateStockEntry id unitPrice entryDate notes quantity =>
    let r := UpdateStockEntry env s id unitPrice entryDate notes quantity
    (errorOf r.1, r.2)
  | .createStockOutput productID quantity outputDate referenceNumber notes =>
    let r := CreateStockOutput env s productID quantity outputDate referenceNumber notes
    (errorOf r.1, r.2)

/-- The identity generator yields identifiers that are globally unique: the
first identifier of a call, the one that becomes a map key, is the key of no
stored product, lot or withdrawal. -/
def Env.Fresh (env : Env) (s : InventoryService) : Prop :=
  env.uuid 0 ∉ s.products.keys ∧ env.uuid 0 ∉ s.stockEntries.keys ∧
    env.uuid 0 ∉ s.stockOutputs.keys

/-- The states the public operations reach from `NewInventoryService`, by calls
that succeed or fail. -/
inductive Reachable : InventoryService → Prop
  | init : Reachable NewInventoryService
  | step {s : InventoryService} (env : Env) (op : Op) :
      Reachable s → env.Fresh s → Reachable (op.run env s).2

/-! ## the worked scenario -/

/-- An environment with the given identifiers, clock at `0`, and lots visited in
the order in which the map stores them. -/
def envOf (uuid : Nat → String) : Env :=
  { uuid := uuid, now := 0, visit := id, visit_perm := fun _ => List.Perm.refl _ }

/-- As `envOf`, with the lots visited in the opposite order. -/
def envRev (uuid : Nat → String) : Env :=
  { uuid := uuid, now := 0, visit := List.reverse, visit_perm := fun l => List.reverse_perm l }

/-- Identifiers of a call: `first`, then `other` for every later one. -/
def ids (first other : String) (k : Nat) : String :=
  if k = 0 then first else other

/-- The identifiers of the withdrawal of the scenario. -/
def scenarioIds (k : Nat) : String :=
  if k = 0 then "W" else if k = 1 then "l1" else if k = 2 then "l2" else "tW"

/-- Product P with the given aggregate fields. -/
def productP (stock cost : ℚ) : Product :=
  { ID := "P", Name := "Widget", SKU := "W-1", Description := "", Units := none,
    CurrentStock := stock, AverageCost := cost, CreatedAt := 0, UpdatedAt := 0 }

/-- Lot A (day 1, 10 units at price 5) with the given remaining quantity. -/
def lotA (remaining : ℚ) : StockEntry :=
  { ID := "A", ProductID := "P", Quantity := 10, RemainingQuantity := remaining,
    UnitPrice := 5, EntryDate := 1, Notes := none }

/-- Lot B (day 5, 10 units at price 7) with the given remaining quantity. -/
def lotB (remaining : ℚ) : StockEntry :=
  { ID := "B", ProductID := "P", Quantity := 10, RemainingQuantity := remaining,
    UnitPrice := 7, EntryDate := 5, Notes := none }

/-- Lot N: a receipt of minus 5 units at price 7 on day 5. -/
def lotN : StockEntry :=
  { ID := "N", ProductID := "P", Quantity := -5, RemainingQuantity := -5,
    UnitPrice := 7, EntryDate := 5, Notes := none }

/-- The log entry of a receipt of product P. -/
def logEntry (id ref : String) (quantity : ℚ) (date : Time) : Transaction :=
  { ID := id, Type_ := .TransactionTypeEntry, ProductID := "P", Quantity := quantity,
    Date := date, ReferenceID := ref, Notes := none }

/-- The log entry of a withdrawal of product P. -/
def logOutput (id ref : String) (quantity : ℚ) (date : Time) : Transaction :=
  { ID := id, Type_ := .TransactionTypeOutput, ProductID := "P", Quantity := quantity,
    Date := date, ReferenceID := ref, Notes := none }

/-- The withdrawal of the scenario: 15 units, at a cost of 85. -/
def outputW : StockOutput :=
  { ID := "W", ProductID := "P", TotalQuantity := 15, TotalCost := 85,
    ReferenceNumber := none, OutputDate := 9, Notes := none }

/-- An allocation line of withdrawal W. -/
def lineW (id lot : String) (quantity unitPrice : ℚ) : StockOutputLine :=
  { ID := id, StockOutputID := "W", StockEntryID := lot, Quantity := quantity,
    UnitPrice := unitPrice }

/-- Product P exists and has no lots yet. -/
def scenarioP : InventoryService :=
  (CreateProduct (envOf (ids "P" "")) NewInventoryService "Widget" "W-1" "" none).2

/-- Lot A has been received. -/
def scenarioA : InventoryService :=
  (AddStockEntry (envOf (ids "A" "tA")) scenarioP "P" 10 5 1 none).2

/-- Lot B has been received after lot A. -/
def scenarioB : InventoryService :=
  (AddStockEntry (envOf (ids "B" "tB")) scenarioA "P" 10 7 5 none).2

/-- The service after 15 units have been withdrawn. -/
def scenarioW : InventoryService :=
  (CreateStockOutput (envOf scenarioIds) scenarioB "P" 15 9 none none).2

/-- Lot N has been received after lot A: a receipt with a negative quantity. -/
def scenarioN : InventoryService :=
  (AddStockEntry (envOf (ids "N" "tN")) scenarioA "P" (-5) 7 5 none).2

/-- The variables of the allocation loop when `CreateStockOutput` leaves it. -/
def allocation (env : Env) (s : InventoryService) (productID : String) (quantity : ℚ) :
    Allocation :=
  allocate env (env.uuid 0) (availableEntries env s productID) 0
    { stockEntries := s.stockEntries, remainingToFulfill := quantity,
      totalCost := 0, outputLines := [] }

/-! ## the quantities the properties speak of -/

/-- The lots of a product in the ledger, in the order the map stores them. -/
def lotsOf (m : GoMap StockEntry) (productID : String) : List StockEntry :=
  m.vals.filter (fun e => e.ProductID = productID)

/-- The lots of a product that have a positive remaining quantity. -/
def positiveLots (m : GoMap StockEntry) (productID : String) : List StockEntry :=
  m.vals.filter (fun e => e.ProductID = productID ∧ e.RemainingQuantity > 0)

/-- The sum of the remaining quantities of the given lots. -/
def totalRemaining (lots : List StockEntry) : ℚ :=
  (lots.map (fun e => e.RemainingQuantity)).sum

/-- The sum of remaining quantity times unit price over the given lots. -/
def totalValue (lots : List StockEntry) : ℚ :=
  (lots.map (fun e => e.RemainingQuantity * e.UnitPrice)).sum

/-- The aggregate fields of product `p` agree with the ledger `m`. -/
def AggregateOK (m : GoMap StockEntry) (p : Product) : Prop :=
  p.CurrentStock = totalRemaining (positiveLots m p.ID) ∧
  p.AverageCost =
    if p.CurrentStock > 0 then totalValue (positiveLots m p.ID) / p.CurrentStock else 0

/-- The sum of the quantities of the given allocation lines. -/
def totalQuantity (lines : List StockOutputLine) : ℚ :=
  (lines.map (fun l => l.Quantity)).sum

/-- The sum of quantity times unit price over the given allocation lines. -/
def totalLineCost (lines : List StockOutputLine) : ℚ :=
  (lines.map (fun l => l.Quantity * l.UnitPrice)).sum

/-- The product record with its aggregate fields set from the given lots. -/
def withTotals (p : Product) (lots : List StockEntry) (now : Time) : Product :=
  { p with
    CurrentStock := totalRemaining lots
    AverageCost := if totalRemaining lots > 0 then totalValue lots / totalRemaining lots else 0
    UpdatedAt := now }

/-- Facts that hold in every reachable state and on which the properties rest:
map keys are the identifiers of the records stored under them, every logged
product is present, every lot is logged, and the aggregates and lot bounds
hold. -/
structure Inv (s : InventoryService) : Prop where
  productKeys : s.products.keys.Nodup
  productID : ∀ k p, s.products.find k = some p → p.ID = k
  lotKeys : s.stockEntries.keys.Nodup
  lotID : ∀ k e, s.stockEntries.find k = some e → e.ID = k
  logged : ∀ t ∈ s.transactions, s.products.find t.ProductID ≠ none
  lotLogged : ∀ k e, s.stockEntries.find k = some e →
    ∃ t ∈ s.transactions, t.ProductID = e.ProductID
  aggregate : ∀ k p, s.products.find k = some p → AggregateOK s.stockEntries p
  bounds : ∀ k e, s.stockEntries.find k = some e →
    e.RemainingQuantity ≤ e.Quantity ∧ (0 ≤ e.RemainingQuantity ∨ e.RemainingQuantity = e.Quantity)

/-- What the loop needs of the lots it walks: each is the lot the ledger stores
under its identifier, identifiers differ, and each has stock left. -/
structure Walkable (L : List StockEntry) (m : GoMap StockEntry) : Prop where
  stored : ∀ e ∈ L, m.find e.ID = some e
  distinct : (L.map (fun e => e.ID)).Nodup
  positive : ∀ e ∈ L, 0 < e.RemainingQuantity
  keys : m.keys.Nodup

/-- Line `l` draws on lot `e`: it names the withdrawal and the lot, carries the
lot's unit price, takes a positive quantity no larger than what the lot had, and
the ledger `m` holds the lot with that quantity taken off. -/
def Draws (outputID : String) (m : GoMap StockEntry) (l : StockOutputLine)
    (e : StockEntry) : Prop :=
  l.StockOutputID = outputID ∧ l.StockEntryID = e.ID ∧ l.UnitPrice = e.UnitPrice ∧
  0 < l.Quantity ∧ l.Quantity ≤ e.RemainingQuantity ∧
  m.find e.ID = some { e with RemainingQuantity := e.RemainingQuantity - l.Quantity }

/-- Lot C (day 1, 10 units at price 7) with the given remaining quantity: a lot
with the date of lot A. -/
def lotC (remaining : ℚ) : StockEntry :=
  { ID := "C", ProductID := "P", Quantity := 10, RemainingQuantity := remaining,
    UnitPrice := 7, EntryDate := 1, Notes := none }

/-- Lot C has been received after lot A, with the same date. -/
def scenarioT : InventoryService :=
  (AddStockEntry (envOf (ids "C" "tC")) scenarioA "P" 10 7 1 none).2

/-- The withdrawal of 5 units from `scenarioT` when lot C is visited first. -/
def outputT : StockOutput :=
  { ID := "W", ProductID := "P", TotalQuantity := 5, TotalCost := 35,
    ReferenceNumber := none, OutputDate := 9, Notes := none }

/-- All stored allocation lines, of all withdrawals. -/
def allLines (s : InventoryService) : List StockOutputLine :=
  s.outputLines.vals.flatten

/-- The lines among `lines` that name the lot `lotID`. -/
def linesOf (lines : List StockOutputLine) (lotID : String) : List StockOutputLine :=
  lines.filter (fun l => l.StockEntryID = lotID)

/-- Facts about withdrawals, lines and log that hold in every reachable state. -/
structure Ledger (s : InventoryService) : Prop where
  linesKeys : s.outputLines.keys = s.stockOutputs.keys
  outputID : ∀ k o, s.stockOutputs.find k = some o → o.ID = k
  outputLogged : ∀ k o, s.stockOutputs.find k = some o →
    ∃ t ∈ s.transactions, t.ProductID = o.ProductID
  entryRef : ∀ t ∈ s.transactions, t.Type_ = .TransactionTypeEntry →
    s.stockEntries.find t.ReferenceID ≠ none
  outputRef : ∀ t ∈ s.transactions, t.Type_ = .TransactionTypeOutput →
    s.stockOutputs.find t.ReferenceID ≠ none
  lineRef : ∀ kv ∈ s.outputLines, ∀ l ∈ kv.2, l.StockOutputID = kv.1 ∧
    ∃ o e, s.stockOutputs.find kv.1 = some o ∧
      s.stockEntries.find l.StockEntryID = some e ∧ e.ProductID = o.ProductID
  reconciled : ∀ k e, s.stockEntries.find k = some e →
    e.Quantity - e.RemainingQuantity = totalQuantity (linesOf (allLines s) k)

/-- Referential integrity: every lot, withdrawal and transaction has a stored
product; a transaction of type entry refers to a stored lot and one of type
output to a stored withdrawal; an allocation line is stored under the id of its
withdrawal, which is stored, and names a stored lot of that withdrawal's
product. -/
def ReferentialIntegrity (s : InventoryService) : Prop :=
  (∀ k e, s.stockEntries.find k = some e → s.products.find e.ProductID ≠ none) ∧
  (∀ k o, s.stockOutputs.find k = some o → s.products.find o.ProductID ≠ none) ∧
  (∀ t ∈ s.transactions, s.products.find t.ProductID ≠ none ∧
    (t.Type_ = .TransactionTypeEntry → s.stockEntries.find t.ReferenceID ≠ none) ∧
    (t.Type_ = .TransactionTypeOutput → s.stockOutputs.find t.ReferenceID ≠ none)) ∧
  (∀ k lines, s.outputLines.find k = some lines → ∀ l ∈ lines,
    l.StockOutputID = k ∧
    ∃ o e, s.stockOutputs.find l.StockOutputID = some o ∧
      s.stockEntries.find l.StockEntryID = some e ∧ e.ProductID = o.ProductID)

/-! ## float64 arithmetic -/

/-- The integer nearest to `y`; of two equally near integers, the even one. -/
def roundHalfEven (y : ℚ) : Int :=
  let f := ⌊y⌋
  if y - f < 1 / 2 then f
  else if 1 / 2 < y - f then f + 1
  else if f % 2 = 0 then f else f + 1

/-- Halves `n` until it is below 2, at most `fuel` times, and counts the
halvings. -/
def halvings : Nat → Nat → Nat
  | 0, _ => 0
  | fuel + 1, n => if n < 2 then 0 else halvings fuel (n / 2) + 1

/-- The number `k` with `2 ^ k ≤ n < 2 ^ (k + 1)`, for `n` other than 0. -/
def floorLog2 (n : Nat) : Nat := halvings n n

/-- The binary exponent of a number `x` other than 0: the integer `e` with
`2 ^ e ≤ |x| < 2 ^ (e + 1)`. It is `k` or `k - 1`, for `k` the difference of
`floorLog2` of the numerator and of the denominator. -/
def exponent (x : ℚ) : Int :=
  let k : Int := (floorLog2 x.num.natAbs : Int) - (floorLog2 x.den : Int)
  if (2 : ℚ) ^ k ≤ |x| then k else k - 1

/-- The `float64` nearest to the number `x`, as the number it denotes: `x`
rounded to 53 significant binary digits (to a multiple of `2 ^ (-1074)` below
`2 ^ (-1022)`), a tie going to the even significand. This is the rounding of
IEEE 754 binary64 arithmetic in its default mode, on results of magnitude below
`2 ^ 1024`; infinities and NaN are not numbers and are left out. -/
def round64 (x : ℚ) : ℚ :=
  if x = 0 then 0
  else
    let e := max (exponent x) (-1022)
    let ulp : ℚ := 2 ^ (e - 52)
    roundHalfEven (x / ulp) * ulp

namespace F64

/-- The method `recalculateProductTotals` in `float64` arithmetic: `fl` rounds
the result of each operation, and the sums are accumulated in the order in
which the `range` loop visits the map. -/
def recalculateProductTotals (fl : ℚ → ℚ) (env : Env) (s : InventoryService)
    (productID : String) : InventoryService :=
  match s.products.find productID with
  | none => s
  | some product =>
    let totals : ℚ × ℚ := (env.visit s.stockEntries.vals).foldl
      (fun acc entry =>
        if entry.ProductID = productID ∧ entry.RemainingQuantity > 0 then
          (fl (acc.1 + entry.RemainingQuantity),
           fl (acc.2 + fl (entry.RemainingQuantity * entry.UnitPrice)))
        else acc)
      (0, 0)
    let currentStock := totals.1
    let totalValue := totals.2
    let product := { product with
      CurrentStock := currentStock
      AverageCost := if currentStock > 0 then fl (totalValue / currentStock) else 0
      UpdatedAt := env.now }
    { s with products := s.products.put productID product }

/-- The method `AddStockEntry` in `float64` arithmetic. -/
def AddStockEntry (fl : ℚ → ℚ) (env : Env) (s : InventoryService) (productID : String)
    (quantity unitPrice : ℚ) (entryDate : Time) (notes : Option String) :
    Except Error StockEntry × InventoryService :=
  match s.products.find productID with
  | none => (.error (.productNotFound productID), s)
  | some _ =>
    let entry : StockEntry :=
      { ID := env.uuid 0, ProductID := productID, Quantity := quantity,
        RemainingQuantity := quantity, UnitPrice := unitPrice,
        EntryDate := entryDate, Notes := notes }
    let transaction : Transaction :=
      { ID := env.uuid 1, Type_ := .TransactionTypeEntry, ProductID := productID,
        Quantity := quantity, Date := entryDate, ReferenceID := entry.ID,
        Notes := notes }
    let s1 := { s with
      stockEntries := s.stockEntries.put entry.ID entry
      transactions := s.transactions ++ [transaction] }
    (.ok entry, recalculateProductTotals fl env s1 productID)

/-- The method `UpdateStockEntry` in `float64` arithmetic. -/
def UpdateStockEntry (fl : ℚ → ℚ) (env : Env) (s : InventoryService) (id : String)
    (unitPrice : ℚ) (entryDate : Time) (notes : Option String) (quantity : Option ℚ) :
    Except Error StockEntry × InventoryService :=
  match s.stockEntries.find id with
  | none => (.error (.stockEntryNotFound id), s)
  | some entry =>
    let checked : Except Error StockEntry :=
      match quantity with
      | none => .ok entry
      | some q =>
        let consumedQuantity := fl (entry.Quantity - entry.RemainingQuantity)
        if q < consumedQuantity then .error (.belowConsumed consumedQuantity)
        else
          let remainingDiff := fl (q - entry.Quantity)
          .ok { entry with
            Quantity := q
            RemainingQuantity := fl (entry.RemainingQuantity + remainingDiff) }
    match checked with
    | .error e => (.error e, s)
    | .ok entry =>
      let entry := { entry with
        UnitPrice := unitPrice, EntryDate := entryDate, Notes := notes }
      let s1 := { s with stockEntries := s.stockEntries.put id entry }
      (.ok entry, recalculateProductTotals fl env s1 entry.ProductID)

/-- The body of the allocation loop of `CreateStockOutput` in `float64`
arithmetic, at iteration `i` with lot `entry`. -/
def allocateStep (fl : ℚ → ℚ) (env : Env) (outputID : String) (entry : StockEntry)
    (i : Nat) (a : Allocation) : Allocation :=
  let qtyFromThisEntry :=
    if a.remainingToFulfill > entry.RemainingQuantity then entry.RemainingQuantity
    else a.remainingToFulfill
  let outputLine : StockOutputLine :=
    { ID := env.uuid (i + 1), StockOutputID := outputID, StockEntryID := entry.ID,
      Quantity := qtyFromThisEntry, UnitPrice := entry.UnitPrice }
  let entry := { entry with
    RemainingQuantity := fl (entry.RemainingQuantity - qtyFromThisEntry) }
  { stockEntries := a.stockEntries.put entry.ID entry
    remainingToFulfill := fl (a.remainingToFulfill - qtyFromThisEntry)
    totalCost := fl (a.totalCost + fl (qtyFromThisEntry * entry.UnitPrice))
    outputLines := a.outputLines ++ [outputLine] }

/-- The allocation loop of `CreateStockOutput` in `float64` arithmetic, from
iteration `i` on. -/
def allocate (fl : ℚ → ℚ) (env : Env) (outputID : String) :
    List StockEntry → Nat → Allocation → Allocation
  | [], _, a => a
  | entry :: rest, i, a =>
    if a.remainingToFulfill ≤ 0 then a
    else allocate fl env outputID rest (i + 1) (allocateStep fl env outputID entry i a)

/-- The method `CreateStockOutput` in `float64` arithmetic. -/
def CreateStockOutput (fl : ℚ → ℚ) (env : Env) (s : InventoryService) (productID : String)
    (quantity : ℚ) (outputDate : Time) (referenceNumber notes : Option String) :
    Except Error StockOutput × InventoryService :=
  match s.products.find productID with
  | none => (.error (.productNotFound productID), s)
  | some product =>
    if product.CurrentStock < quantity then
      (.error (.insufficientStock product.CurrentStock), s)
    else
      let output : StockOutput :=
        { ID := env.uuid 0, ProductID := productID, TotalQuantity := quantity,
          TotalCost := 0, ReferenceNumber := referenceNumber,
          OutputDate := outputDate, Notes := notes }
      let a := allocate fl env output.ID (availableEntries env s productID) 0
        { stockEntries := s.stockEntries, remainingToFulfill := quantity,
          totalCost := 0, outputLines := [] }
      let output := { output with TotalCost := a.totalCost }
      let transaction : Transaction :=
        { ID := env.uuid (a.outputLines.length + 1), Type_ := .TransactionTypeOutput,
          ProductID := productID, Quantity := quantity, Date := outputDate,
          ReferenceID := output.ID, Notes := notes }
      let s1 : InventoryService :=
        { products := s.products
          stockEntries := a.stockEntries
          stockOutputs := s.stockOutputs.put output.ID output
          outputLines := s.outputLines.put output.ID a.outputLines
          transactions := s.transactions ++ [transaction] }
      (.ok output, recalculateProductTotals fl env s1 productID)

/-- Runs a call in `float64` arithmetic: the error it returns, and the service
after it. The three operations on products do no arithmetic. -/
def run (fl : ℚ → ℚ) (env : Env) (s : InventoryService) : Op → Option Error × InventoryService
  | .createProduct name sku description units =>
    let r := StockScribe.CreateProduct env s name sku description units
    (errorOf r.1, r.2)
  | .updateProduct id name sku description units =>
    let r := StockScribe.UpdateProduct env s id name sku description units
    (errorOf r.1, r.2)
  | .deleteProduct id =>
    let r := StockScribe.DeleteProduct s id
    (errorOf r.1, r.2)
  | .addStockEntry productID quantity unitPrice entryDate notes =>
    let r := AddStockEntry fl env s productID quantity unitPrice entryDate notes
    (errorOf r.1, r.2)
  | .updateStockEntry id unitPrice entryDate notes quantity =>
    let r := UpdateStockEntry fl env s id unitPrice entryDate notes quantity
    (errorOf r.1, r.2)
  | .createStockOutput productID quantity outputDate referenceNumber notes =>
    let r := CreateStockOutput fl env s productID quantity outputDate referenceNumber notes
    (errorOf r.1, r.2)

/-- The states the public operations reach from `NewInventoryService` in
`float64` arithmetic, by calls that succeed or fail. -/
inductive Reachable (fl : ℚ → ℚ) : InventoryService → Prop
  | init : Reachable fl NewInventoryService
  | step {s : InventoryService} (env : Env) (op : Op) :
      Reachable fl s → env.Fresh s → Reachable fl (run fl env s op).2

/-- The `float64` sum of `xs`, accumulated from `0` in the order of the list. -/
def accumulate (fl : ℚ → ℚ) (xs : List ℚ) : ℚ :=
  xs.foldl (fun acc x => fl (acc + x)) 0

end F64

/-! ## the quantities of the float64 properties -/

namespace F64

/-- The product record `F64.recalculateProductTotals` stores when the loop
meets the positive lots of the product in the order `lots`. -/
def withTotals (fl : ℚ → ℚ) (p : Product) (lots : List StockEntry) (now : Time) : Product :=
  { p with
    CurrentStock := accumulate fl (lots.map (fun e => e.RemainingQuantity))
    AverageCost :=
      if accumulate fl (lots.map (fun e => e.RemainingQuantity)) > 0 then
        fl (accumulate fl (lots.map (fun e => fl (e.RemainingQuantity * e.UnitPrice))) /
          accumulate fl (lots.map (fun e => e.RemainingQuantity)))
      else 0
    UpdatedAt := now }

/-- The aggregate fields of product `p` are those a recalculation computes from
the ledger `m`, for some order `lots` of visiting the product's positive lots. -/
def Aggregated (fl : ℚ → ℚ) (m : GoMap StockEntry) (p : Product) : Prop :=
  ∃ lots : List StockEntry, lots.Perm (positiveLots m p.ID) ∧
    p.CurrentStock = accumulate fl (lots.map (fun e => e.RemainingQuantity)) ∧
    p.AverageCost =
      if p.CurrentStock > 0 then
        fl (accumulate fl (lots.map (fun e => fl (e.RemainingQuantity * e.UnitPrice))) /
          p.CurrentStock)
      else 0

/-- Facts that hold in every state reachable in `float64` arithmetic: map keys
are the identifiers of the records stored under them, every logged product is
present, every lot is logged, and every product carries the aggregates of a
recalculation. -/
structure Inv (fl : ℚ → ℚ) (s : InventoryService) : Prop where
  productKeys : s.products.keys.Nodup
  productID : ∀ k p, s.products.find k = some p → p.ID = k
  lotKeys : s.stockEntries.keys.Nodup
  lotID : ∀ k e, s.stockEntries.find k = some e → e.ID = k
  logged : ∀ t ∈ s.transactions, s.products.find t.ProductID ≠ none
  lotLogged : ∀ k e, s.stockEntries.find k = some e →
    ∃ t ∈ s.transactions, t.ProductID = e.ProductID
  aggregate : ∀ k p, s.products.find k = some p → Aggregated fl s.stockEntries p

/-- Line `l` draws on lot `e` in `float64` arithmetic: it names the withdrawal
and the lot, carries the lot's unit price, takes a positive quantity no larger
than what the lot had, and the ledger `m` holds the lot with the rounded
difference as its remaining quantity. -/
def Draws (fl : ℚ → ℚ) (outputID : String) (m : GoMap StockEntry) (l : StockOutputLine)
    (e : StockEntry) : Prop :=
  l.StockOutputID = outputID ∧ l.StockEntryID = e.ID ∧ l.UnitPrice = e.UnitPrice ∧
  0 < l.Quantity ∧ l.Quantity ≤ e.RemainingQuantity ∧
  m.find e.ID = some { e with RemainingQuantity := fl (e.RemainingQuantity - l.Quantity) }

/-- What is left of a request of `quantity` when the quantities of `lines` are
subtracted from it one after another in `float64` arithmetic. -/
def unallocated (fl : ℚ → ℚ) (quantity : ℚ) (lines : List StockOutputLine) : ℚ :=
  lines.foldl (fun r l => fl (r - l.Quantity)) quantity

/-- The cost of `lines`, accumulated line by line in `float64` arithmetic. -/
def lineCost (fl : ℚ → ℚ) (lines : List StockOutputLine) : ℚ :=
  accumulate fl (lines.map (fun l => fl (l.Quantity * l.UnitPrice)))

/-- The variables of the allocation loop when `F64.CreateStockOutput` leaves it. -/
def allocation (fl : ℚ → ℚ) (env : Env) (s : InventoryService) (productID : String)
    (quantity : ℚ) : Allocation :=
  allocate fl env (env.uuid 0) (availableEntries env s productID) 0
    { stockEntries := s.stockEntries, remainingToFulfill := quantity,
      totalCost := 0, outputLines := [] }

/-- The lines take, lot by lot, the smaller of what remains to fulfil and what
the lot holds, while something remains to fulfil; what remains to fulfil is
`r` at first and is lowered in `float64` arithmetic by each quantity taken. -/
def Takes (fl : ℚ → ℚ) : ℚ → List StockOutputLine → List StockEntry → Prop
  | _, [], [] => True
  | r, l :: lines, e :: lots =>
    0 < r ∧ l.Quantity = min r e.RemainingQuantity ∧ Takes fl (fl (r - l.Quantity)) lines lots
  | _, _, _ => False

/-- No subtraction of a line quantity from what remains to fulfil, `r` at
first, rounds. -/
def ExactChain (fl : ℚ → ℚ) : ℚ → List StockOutputLine → Prop
  | _, [] => True
  | r, l :: lines =>
    fl (r - l.Quantity) = r - l.Quantity ∧ ExactChain fl (r - l.Quantity) lines

instance decidableExactChain (fl : ℚ → ℚ) :
    (r : ℚ) → (lines : List StockOutputLine) → Decidable (ExactChain fl r lines)
  | _, [] => isTrue trivial
  | r, l :: lines =>
    @instDecidableAnd _ _ inferInstance (decidableExactChain fl (r - l.Quantity) lines)

/-- No subtraction of a line quantity from the remaining quantity of its lot
rounds; the `i`-th line draws on the `i`-th lot. -/
def ExactDraws (fl : ℚ → ℚ) (lines : List StockOutputLine) (lots : List StockEntry) : Prop :=
  ∀ p ∈ lines.zip lots,
    fl (p.2.RemainingQuantity - p.1.Quantity) = p.2.RemainingQuantity - p.1.Quantity

instance decidableExactDraws (fl : ℚ → ℚ) (lines : List StockOutputLine)
    (lots : List StockEntry) : Decidable (ExactDraws fl lines lots) :=
  inferInstanceAs (Decidable (∀ p ∈ lines.zip lots,
    fl (p.2.RemainingQuantity - p.1.Quantity) = p.2.RemainingQuantity - p.1.Quantity))

/-- The laws of rounding on which the bounds of a lot rest: rounding is
monotone, keeps zero, and keeps the values it returns. -/
structure Rounding (fl : ℚ → ℚ) : Prop where
  mono : ∀ x y, x ≤ y → fl x ≤ fl y
  zero : fl 0 = 0
  idem : ∀ x, fl (fl x) = fl x

/-- The quantity the call is given for a lot is a `float64` value, and a
quantity edit computes the consumed quantity `Quantity - RemainingQuantity` and
the difference `quantity - Quantity` without rounding. -/
def ExactEdit (fl : ℚ → ℚ) (_env : Env) (s : InventoryService) : Op → Prop
  | .addStockEntry _ quantity _ _ _ => fl quantity = quantity
  | .updateStockEntry id _ _ _ (some q) =>
    fl q = q ∧
    match s.stockEntries.find id with
    | none => True
    | some e =>
      fl (e.Quantity - e.RemainingQuantity) = e.Quantity - e.RemainingQuantity ∧
      fl (q - e.Quantity) = q - e.Quantity
  | _ => True

instance decidableExactEdit (fl : ℚ → ℚ) (env : Env) (s : InventoryService) :
    (op : Op) → Decidable (ExactEdit fl env s op)
  | .createProduct _ _ _ _ => isTrue trivial
  | .updateProduct _ _ _ _ _ => isTrue trivial
  | .deleteProduct _ => isTrue trivial
  | .addStockEntry _ quantity _ _ _ => inferInstanceAs (Decidable (fl quantity = quantity))
  | .updateStockEntry _ _ _ _ none => isTrue trivial
  | .updateStockEntry id _ _ _ (some q) =>
    match h : s.stockEntries.find id with
    | none => decidable_of_iff (fl q = q) (by simp [ExactEdit, h])
    | some e =>
      decidable_of_iff
        (fl q = q ∧
          fl (e.Quantity - e.RemainingQuantity) = e.Quantity - e.RemainingQuantity ∧
          fl (q - e.Quantity) = q - e.Quantity)
        (by simp [ExactEdit, h])
  | .createStockOutput _ _ _ _ _ => isTrue trivial

/-- The call leaves to every lot the exact remaining quantity: a quantity edit
stores `RemainingQuantity + (quantity - Quantity)`, and a withdrawal subtracts
each line quantity from its lot without rounding. -/
def ExactRemaining (fl : ℚ → ℚ) (env : Env) (s : InventoryService) : Op → Prop
  | .updateStockEntry id _ _ _ (some q) =>
    match s.stockEntries.find id with
    | none => True
    | some e =>
      fl (e.RemainingQuantity + fl (q - e.Quantity)) = e.RemainingQuantity + (q - e.Quantity)
  | .createStockOutput productID quantity _ _ _ =>
    ExactDraws fl (allocation fl env s productID quantity).outputLines
      (availableEntries env s productID)
  | _ => True

instance decidableExactRemaining (fl : ℚ → ℚ) (env : Env) (s : InventoryService) :
    (op : Op) → Decidable (ExactRemaining fl env s op)
  | .createProduct _ _ _ _ => isTrue trivial
  | .updateProduct _ _ _ _ _ => isTrue trivial
  | .deleteProduct _ => isTrue trivial
  | .addStockEntry _ _ _ _ _ => isTrue trivial
  | .updateStockEntry _ _ _ _ none => isTrue trivial
  | .updateStockEntry id _ _ _ (some q) =>
    match h : s.stockEntries.find id with
    | none => isTrue (by simp [ExactRemaining, h])
    | some e =>
      decidable_of_iff
        (fl (e.RemainingQuantity + fl (q - e.Quantity))
          = e.RemainingQuantity + (q - e.Quantity))
        (by simp [ExactRemaining, h])
  | .createStockOutput productID quantity _ _ _ =>
    decidableExactDraws fl (allocation fl env s productID quantity).outputLines
      (availableEntries env s productID)

/-- The states the public operations reach from `NewInventoryService` in
`float64` arithmetic by calls of which each satisfies `ok`, in the state in
which it is made. -/
inductive ReachableBy (fl : ℚ → ℚ) (ok : Env → InventoryService → Op → Prop) :
    InventoryService → Prop
  | init : ReachableBy fl ok NewInventoryService
  | step {s : InventoryService} (env : Env) (op : Op) :
      ReachableBy fl ok s → env.Fresh s → ok env s op →
      ReachableBy fl ok (run fl env s op).2

/-- Facts about lots and allocation lines on which the reconciliation rests:
lines are stored under the keys of the withdrawals, every line names a stored
lot, and the consumed amount of every lot is the sum of the quantities of the
lines that name it. -/
structure Reconciled (s : InventoryService) : Prop where
  linesKeys : s.outputLines.keys = s.stockOutputs.keys
  lineRef : ∀ kv ∈ s.outputLines, ∀ l ∈ kv.2, s.stockEntries.find l.StockEntryID ≠ none
  reconciled : ∀ k e, s.stockEntries.find k = some e →
    e.Quantity - e.RemainingQuantity = totalQuantity (linesOf (allLines s) k)

/-- The bounds of a lot: the remaining quantity is at most the quantity, and is
not negative unless the lot has a negative quantity of which nothing has been
consumed. -/
def Bounded (e : StockEntry) : Prop :=
  e.RemainingQuantity ≤ e.Quantity ∧
  (0 ≤ e.RemainingQuantity ∨ (e.RemainingQuantity = e.Quantity ∧ e.Quantity < 0))

instance decidableBounded (e : StockEntry) : Decidable (Bounded e) :=
  inferInstanceAs (Decidable (e.RemainingQuantity ≤ e.Quantity ∧
    (0 ≤ e.RemainingQuantity ∨ (e.RemainingQuantity = e.Quantity ∧ e.Quantity < 0))))

end F64

/-! ## float64 scenarios -/

/-- The `float64` value of the decimal literal with `n` tenths (`tenths 1` is
the constant `0.1`). -/
def tenths (n : Nat) : ℚ := round64 (n / 10)

/-- Product P holds lot A: 0.1 units at price 5, received on day 1. -/
def scenarioF1 : InventoryService :=
  (F64.AddStockEntry round64 (envOf (ids "A" "tA")) scenarioP "P" (tenths 1) 5 1 none).2

/-- Lot B, 0.2 units at price 7, has been received after lot A on day 5. -/
def scenarioF12 : InventoryService :=
  (F64.AddStockEntry round64 (envOf (ids "B" "tB")) scenarioF1 "P" (tenths 2) 7 5 none).2

/-- Lot C, 0.3 units at price 7, has been received after lots A and B on day 6. -/
def scenarioF123 : InventoryService :=
  (F64.AddStockEntry round64 (envOf (ids "C" "tC")) scenarioF12 "P" (tenths 3) 7 6 none).2

/-- The whole of lot A, 0.1 units, has been withdrawn from `scenarioF1`. -/
def scenarioF1W : InventoryService :=
  (F64.CreateStockOutput round64 (envOf scenarioIds) scenarioF1 "P" (tenths 1) 9 none none).2

/-- Product P holds lot A: 0.4 units at price 5, received on day 1. -/
def scenarioF4 : InventoryService :=
  (F64.AddStockEntry round64 (envOf (ids "A" "tA")) scenarioP "P" (tenths 4) 5 1 none).2

/-- Of the 0.4 units of lot A, 0.1 units have been withdrawn. -/
def scenarioF4W : InventoryService :=
  (F64.CreateStockOutput round64 (envOf scenarioIds) scenarioF4 "P" (tenths 1) 9 none none).2

/-- Lot A of `scenarioF4W`, of which 0.30000000000000004 of 0.4 units are left,
has been edited to a quantity of 0.5 units. -/
def scenarioF4E : InventoryService :=
  (F64.UpdateStockEntry round64 (envOf (ids "X" "tX")) scenarioF4W "A" 5 1 none
    (some (tenths 5))).2

/-- Lot A of `scenarioF1W`, of which nothing is left, has been edited to a
quantity of 0.4 units. -/
def scenarioF1E : InventoryService :=
  (F64.UpdateStockEntry round64 (envOf (ids "X" "tX")) scenarioF1W "A" 5 1 none
    (some (tenths 4))).2

/-- Product P holds lot A: 0.3 units at price 5, received on day 1. -/
def scenarioF3 : InventoryService :=
  (F64.AddStockEntry round64 (envOf (ids "A" "tA")) scenarioP "P" (tenths 3) 5 1 none).2

/-- A lot of product P with the given identifier, quantity and remaining
quantity, at price 5 on day 1. -/
def lotF (id : String) (quantity remaining : ℚ) : StockEntry :=
  { ID := id, ProductID := "P", Quantity := quantity, RemainingQuantity := remaining,
    UnitPrice := 5, EntryDate := 1, Notes := none }

/-- The lot of `scenarioF3` has been edited to a quantity of 0.9 units. -/
def scenarioF3E : InventoryService :=
  (F64.UpdateStockEntry round64 (envOf (ids "X" "tX")) scenarioF3 "A" 5 1 none
    (some (tenths 9))).2

/-- Lot B of the worked scenario, of which 5 of 10 units are left, has been
edited to a quantity of 7 units at price 8. -/
def scenarioE : InventoryService :=
  (F64.UpdateStockEntry round64 (envOf (ids "X" "tX")) scenarioW "B" 8 6 none (some 7)).2

/-- Product P holds lot A: 4 units at price 5, received on day 1. -/
def scenarioG1 : InventoryService :=
  (F64.AddStockEntry round64 (envOf (ids "A" "tA")) scenarioP "P" 4 5 1 none).2

/-- Lot A has been edited to a quantity of 7.8 units. -/
def scenarioG2 : InventoryService :=
  (F64.UpdateStockEntry round64 (envOf (ids "X" "tX")) scenarioG1 "A" 5 1 none
    (some (tenths 78))).2

/-- Then 4 units have been withdrawn. -/
def scenarioG3 : InventoryService :=
  (F64.CreateStockOutput round64 (envOf scenarioIds) scenarioG2 "P" 4 9 none none).2

/-- Then 3.6 units have been withdrawn. -/
def scenarioG4 : InventoryService :=
  (F64.CreateStockOutput round64 (envOf (ids "V" "lV")) scenarioG3 "P" (tenths 36) 9 none
    none).2

/-- Then lot A has been edited to a quantity of 7.6 units. -/
def scenarioG5 : InventoryService :=
  (F64.UpdateStockEntry round64 (envOf (ids "X" "tX")) scenarioG4 "A" 5 1 none
    (some (tenths 76))).2

/-! ## lemmas on maps -/

namespace GoMap

variable {V : Type}

theorem find_put_self (m : GoMap V) (k : String) (v : V) : (m.put k v).find k = some v := by
  induction m with
  | nil => simp [put, find]
  | cons kv m ih =>
    obtain ⟨k', v'⟩ := kv
    by_cases h : k' = k <;> simp [put, find, h, ih]

theorem find_put_ne (m : GoMap V) {k j : String} (v : V) (h : k ≠ j) :
    (m.put k v).find j = m.find j := by
  induction m with
  | nil => simp [put, find, h]
  | cons kv m ih =>
    obtain ⟨k', v'⟩ := kv
    by_cases h1 : k' = k
    · subst h1; simp [put, find, h]
    · by_cases h2 : k' = j
      · subst h2; simp [put, find, h1]
      · simp [put, find, h1, h2, ih]

theorem find_eq_none_iff (m : GoMap V) (k : String) : m.find k = none ↔ k ∉ m.keys := by
  induction m with
  | nil => simp [find, keys]
  | cons kv m ih =>
    obtain ⟨k', v'⟩ := kv
    by_cases h : k' = k
    · simp [find, keys, h]
    · have h' : ¬ k = k' := fun e => h e.symm
      simpa [find, keys, h, h'] using ih

theorem mem_of_find {m : GoMap V} {k : String} {v : V} (h : m.find k = some v) :
    (k, v) ∈ m := by
  induction m with
  | nil => simp [find] at h
  | cons kv m ih =>
    obtain ⟨k', v'⟩ := kv
    by_cases h1 : k' = k
    · simp [find, h1] at h; simp [h1, h]
    · simp [find, h1] at h; exact List.mem_cons_of_mem _ (ih h)

theorem find_of_mem {m : GoMap V} {k : String} {v : V} (hn : m.keys.Nodup)
    (h : (k, v) ∈ m) : m.find k = some v := by
  induction m with
  | nil => simp at h
  | cons kv m ih =>
    obtain ⟨k', v'⟩ := kv
    simp only [keys, List.map_cons, List.nodup_cons] at hn
    rcases List.mem_cons.1 h with h1 | h1
    · cases h1; simp [find]
    · have : k' ≠ k := by
        rintro rfl
        exact hn.1 (List.mem_map_of_mem Prod.fst h1)
      simp only [find, this, if_false]
      exact ih hn.2 h1

theorem keys_put (m : GoMap V) (k : String) (v : V) :
    (m.put k v).keys = if k ∈ m.keys then m.keys else m.keys ++ [k] := by
  induction m with
  | nil => simp [put, keys]
  | cons kv m ih =>
    obtain ⟨k', v'⟩ := kv
    by_cases h : k' = k
    · simp [put, keys, h]
    · have h' : ¬ k = k' := fun e => h e.symm
      simp only [keys] at ih
      by_cases hk : k ∈ List.map Prod.fst m <;> simp [put, keys, h, h', ih, hk]

theorem nodup_keys_put {m : GoMap V} (hn : m.keys.Nodup) (k : String) (v : V) :
    (m.put k v).keys.Nodup := by
  rw [keys_put]
  split
  · exact hn
  · rename_i h
    exact List.Nodup.append hn (List.nodup_singleton k) (by simpa using h)

theorem mem_vals_iff {m : GoMap V} (hn : m.keys.Nodup) (v : V) :
    v ∈ m.vals ↔ ∃ k, m.find k = some v := by
  constructor
  · intro h
    obtain ⟨⟨k, w⟩, hm, rfl⟩ := List.mem_map.1 h
    exact ⟨k, find_of_mem hn hm⟩
  · rintro ⟨k, h⟩
    exact List.mem_map.2 ⟨(k, v), mem_of_find h, rfl⟩

theorem mem_keys_of_find {m : GoMap V} {k : String} {v : V} (h : m.find k = some v) :
    k ∈ m.keys :=
  List.mem_map.2 ⟨(k, v), mem_of_find h, rfl⟩

theorem find_del_self (m : GoMap V) (k : String) : (m.del k).find k = none := by
  induction m with
  | nil => simp [del, find]
  | cons kv m ih =>
    obtain ⟨k', v'⟩ := kv
    by_cases h : k' = k <;> simp [del, find, h, ih]

theorem find_del_ne (m : GoMap V) {k j : String} (h : k ≠ j) :
    (m.del k).find j = m.find j := by
  induction m with
  | nil => simp [del, find]
  | cons kv m ih =>
    obtain ⟨k', v'⟩ := kv
    by_cases h1 : k' = k
    · subst h1; simp [del, find, h, ih]
    · by_cases h2 : k' = j
      · subst h2; simp [del, find, h1]
      · simp [del, find, h1, h2, ih]

theorem keys_del_sublist (m : GoMap V) (k : String) : (m.del k).keys.Sublist m.keys := by
  induction m with
  | nil => simp [del, keys]
  | cons kv m ih =>
    obtain ⟨k', v'⟩ := kv
    by_cases h : k' = k
    · simpa [del, keys, h] using List.Sublist.cons _ ih
    · simpa [del, keys, h] using ih

theorem nodup_keys_del {m : GoMap V} (hn : m.keys.Nodup) (k : String) :
    (m.del k).keys.Nodup :=
  hn.sublist (keys_del_sublist m k)

/-- The sum of `g` over the values of a map after a write. -/
theorem sum_put (g : V → ℚ) {m : GoMap V} (hn : m.keys.Nodup) (k : String) (v : V) :
    (((m.put k v).vals.map g).sum : ℚ)
      = (m.vals.map g).sum - ((m.find k).map g).getD 0 + g v := by
  induction m with
  | nil => simp [put, find, vals]
  | cons kv m ih =>
    obtain ⟨k', v'⟩ := kv
    simp only [keys, List.map_cons, List.nodup_cons] at hn
    by_cases h : k' = k
    · subst h
      simp [put, find, vals]
      ring
    · have := ih hn.2
      simp only [vals, List.map_map] at this
      simp only [put, find, vals, h, if_false, List.map_cons, List.map_map, List.sum_cons, this]
      ring

end GoMap

/-! ## lemmas on the aggregate recalculation -/

theorem sum_filter_map (p : StockEntry → Prop) [DecidablePred p] (f : StockEntry → ℚ)
    (l : List StockEntry) :
    ((l.filter (fun e => decide (p e))).map f).sum
      = (l.map (fun e => if p e then f e else 0)).sum := by
  induction l with
  | nil => simp
  | cons e l ih =>
    by_cases h : p e <;> simp [List.filter_cons, h, ih]

theorem foldl_totals (pid : String) (l : List StockEntry) (acc : ℚ × ℚ) :
    l.foldl
      (fun acc entry =>
        if entry.ProductID = pid ∧ entry.RemainingQuantity > 0 then
          (acc.1 + entry.RemainingQuantity,
           acc.2 + entry.RemainingQuantity * entry.UnitPrice)
        else acc) acc
      = (acc.1 + totalRemaining
            (l.filter (fun e => e.ProductID = pid ∧ e.RemainingQuantity > 0)),
         acc.2 + totalValue
            (l.filter (fun e => e.ProductID = pid ∧ e.RemainingQuantity > 0))) := by
  induction l generalizing acc with
  | nil => simp [totalRemaining, totalValue]
  | cons e l ih =>
    by_cases h : e.ProductID = pid ∧ e.RemainingQuantity > 0
    · simp only [List.foldl_cons, h, and_self, if_true, ih, List.filter_cons, decide_True,
        totalRemaining, totalValue, List.map_cons, List.sum_cons]
      ext <;> simp <;> ring
    · simp only [List.foldl_cons, h, if_false, ih, List.filter_cons, decide_False]
      simp

/-- The product record `recalculateProductTotals` stores. -/
theorem recalculate_eq (env : Env) (s : InventoryService) (pid : String) :
    recalculateProductTotals env s pid =
      match s.products.find pid with
      | none => s
      | some p =>
        { s with products :=
            s.products.put pid (withTotals p (positiveLots s.stockEntries pid) env.now) } := by
  unfold recalculateProductTotals
  cases h : s.products.find pid with
  | none => rfl
  | some p => simp [foldl_totals, positiveLots, withTotals]

theorem recalculate_stockEntries (env : Env) (s : InventoryService) (pid : String) :
    (recalculateProductTotals env s pid).stockEntries = s.stockEntries := by
  rw [recalculate_eq]; cases s.products.find pid <;> rfl

theorem recalculate_stockOutputs (env : Env) (s : InventoryService) (pid : String) :
    (recalculateProductTotals env s pid).stockOutputs = s.stockOutputs := by
  rw [recalculate_eq]; cases s.products.find pid <;> rfl

theorem recalculate_outputLines (env : Env) (s : InventoryService) (pid : String) :
    (recalculateProductTotals env s pid).outputLines = s.outputLines := by
  rw [recalculate_eq]; cases s.products.find pid <;> rfl

theorem recalculate_transactions (env : Env) (s : InventoryService) (pid : String) :
    (recalculateProductTotals env s pid).transactions = s.transactions := by
  rw [recalculate_eq]; cases s.products.find pid <;> rfl

theorem recalculate_find_ne (env : Env) (s : InventoryService) {pid k : String}
    (h : pid ≠ k) :
    (recalculateProductTotals env s pid).products.find k = s.products.find k := by
  rw [recalculate_eq]
  cases s.products.find pid with
  | none => rfl
  | some p => exact GoMap.find_put_ne _ _ h

theorem recalculate_find_self (env : Env) (s : InventoryService) (pid : String) :
    (recalculateProductTotals env s pid).products.find pid =
      (s.products.find pid).map fun p =>
        withTotals p (positiveLots s.stockEntries pid) env.now := by
  rw [recalculate_eq]
  cases h : s.products.find pid with
  | none => simpa using h
  | some p => simpa using GoMap.find_put_self _ _ _

theorem recalculate_keys (env : Env) (s : InventoryService) (pid : String) :
    (recalculateProductTotals env s pid).products.keys = s.products.keys := by
  rw [recalculate_eq]
  cases h : s.products.find pid with
  | none => rfl
  | some p =>
    show (s.products.put pid _).keys = _
    rw [GoMap.keys_put, if_pos (GoMap.mem_keys_of_find h)]

/-- Writing a lot of another product leaves the sums over a product's positive
lots as they were. -/
theorem positiveLots_put_other (f : StockEntry → ℚ) {m : GoMap StockEntry}
    (hn : m.keys.Nodup) (id : String) (e' : StockEntry) (k : String)
    (hold : ∀ e, m.find id = some e → e.ProductID ≠ k) (hnew : e'.ProductID ≠ k) :
    ((positiveLots (m.put id e') k).map f).sum = ((positiveLots m k).map f).sum := by
  unfold positiveLots
  rw [sum_filter_map (fun e => e.ProductID = k ∧ e.RemainingQuantity > 0),
    sum_filter_map (fun e => e.ProductID = k ∧ e.RemainingQuantity > 0),
    GoMap.sum_put _ hn]
  cases h : m.find id with
  | none => simp [hnew]
  | some e => simp [hnew, hold e h]

theorem aggregateOK_congr {m m' : GoMap StockEntry} {p : Product}
    (h : ∀ f : StockEntry → ℚ,
      ((positiveLots m' p.ID).map f).sum = ((positiveLots m p.ID).map f).sum)
    (hp : AggregateOK m p) : AggregateOK m' p := by
  unfold AggregateOK totalRemaining totalValue at *
  rw [h, h]; exact hp

/-! ## lemmas on sorting -/

theorem sortSlice_perm {α : Type} (less : α → α → Bool) (l : List α) :
    (sortSlice less l).Perm l :=
  List.perm_insertionSort _ l

theorem sortSlice_byDate_eq (l : List StockEntry) :
    sortSlice (fun a b => Before a.EntryDate b.EntryDate) l
      = l.insertionSort (fun a b => a.EntryDate ≤ b.EntryDate) := by
  unfold sortSlice
  congr 1
  funext a b
  simp [Before]

theorem sortSlice_byDate_sorted (l : List StockEntry) :
    (sortSlice (fun a b => Before a.EntryDate b.EntryDate) l).Sorted
      (fun a b => a.EntryDate ≤ b.EntryDate) := by
  rw [sortSlice_byDate_eq]
  haveI : IsTotal StockEntry (fun a b => a.EntryDate ≤ b.EntryDate) :=
    ⟨fun a b => le_total a.EntryDate b.EntryDate⟩
  haveI : IsTrans StockEntry (fun a b => a.EntryDate ≤ b.EntryDate) :=
    ⟨fun a b c h1 h2 => le_trans h1 h2⟩
  exact List.sorted_insertionSort _ l

/-! ## lemmas on the available lots -/

theorem availableEntries_perm (env : Env) (s : InventoryService) (pid : String) :
    (availableEntries env s pid).Perm (positiveLots s.stockEntries pid) :=
  (sortSlice_perm _ _).trans ((env.visit_perm _).filter _)

theorem availableEntries_sorted (env : Env) (s : InventoryService) (pid : String) :
    (availableEntries env s pid).Sorted (fun a b => a.EntryDate ≤ b.EntryDate) :=
  sortSlice_byDate_sorted _

theorem vals_map_ID {m : GoMap StockEntry} (hn : m.keys.Nodup)
    (hid : ∀ k e, m.find k = some e → e.ID = k) :
    m.vals.map (fun e => e.ID) = m.keys := by
  unfold GoMap.vals GoMap.keys
  rw [List.map_map]
  apply List.map_congr_left
  rintro ⟨k, e⟩ hm
  exact hid k e (GoMap.find_of_mem hn hm)

theorem mem_positiveLots {m : GoMap StockEntry} (hn : m.keys.Nodup)
    (hid : ∀ k e, m.find k = some e → e.ID = k) {pid : String} {e : StockEntry}
    (h : e ∈ positiveLots m pid) :
    m.find e.ID = some e ∧ e.ProductID = pid ∧ 0 < e.RemainingQuantity := by
  unfold positiveLots at h
  obtain ⟨hv, hc⟩ := List.mem_filter.1 h
  obtain ⟨k, hk⟩ := (GoMap.mem_vals_iff hn e).1 hv
  have := hid k e hk
  subst this
  simpa [hk] using hc

theorem positiveLots_nodup {m : GoMap StockEntry} (hn : m.keys.Nodup)
    (hid : ∀ k e, m.find k = some e → e.ID = k) (pid : String) :
    ((positiveLots m pid).map (fun e => e.ID)).Nodup := by
  have h : (m.vals.map (fun e => e.ID)).Nodup := by rw [vals_map_ID hn hid]; exact hn
  exact h.sublist ((List.filter_sublist _).map _)

theorem mem_availableEntries {env : Env} {s : InventoryService} (hi : Inv s) {pid : String}
    {e : StockEntry} (h : e ∈ availableEntries env s pid) :
    s.stockEntries.find e.ID = some e ∧ e.ProductID = pid ∧ 0 < e.RemainingQuantity :=
  mem_positiveLots hi.lotKeys hi.lotID ((availableEntries_perm env s pid).mem_iff.1 h)

theorem availableEntries_nodup (env : Env) {s : InventoryService} (hi : Inv s)
    (pid : String) : ((availableEntries env s pid).map (fun e => e.ID)).Nodup :=
  ((availableEntries_perm env s pid).map _).nodup_iff.2
    (positiveLots_nodup hi.lotKeys hi.lotID pid)

/-! ## lemmas on the allocation loop -/

theorem Walkable.tail {e : StockEntry} {L : List StockEntry} {m : GoMap StockEntry}
    (h : Walkable (e :: L) m) (e' : StockEntry) : Walkable L (m.put e.ID e') where
  stored := by
    intro x hx
    have hne : e.ID ≠ x.ID := by
      have := h.distinct
      simp only [List.map_cons, List.nodup_cons, List.mem_map, not_exists, not_and] at this
      exact fun heq => this.1 x hx heq.symm
    rw [GoMap.find_put_ne _ _ hne]
    exact h.stored x (List.mem_cons_of_mem _ hx)
  distinct := by
    have := h.distinct
    simp only [List.map_cons, List.nodup_cons] at this
    exact this.2
  positive := fun x hx => h.positive x (List.mem_cons_of_mem _ hx)
  keys := GoMap.nodup_keys_put h.keys _ _

theorem allocate_nil (env : Env) (oid : String) (i : Nat) (a : Allocation) :
    allocate env oid [] i a = a := rfl

theorem allocate_done (env : Env) (oid : String) (L : List StockEntry) (i : Nat)
    (a : Allocation) (h : a.remainingToFulfill ≤ 0) : allocate env oid L i a = a := by
  cases L with
  | nil => rfl
  | cons e L => simp [allocate, h]

theorem allocate_cons (env : Env) (oid : String) (e : StockEntry) (L : List StockEntry)
    (i : Nat) (a : Allocation) (h : 0 < a.remainingToFulfill) :
    allocate env oid (e :: L) i a = allocate env oid L (i + 1) (allocateStep env oid e i a) := by
  simp [allocate, not_le.2 h]

theorem allocateStep_eq (env : Env) (oid : String) (e : StockEntry) (i : Nat)
    (a : Allocation) :
    allocateStep env oid e i a =
      { stockEntries := a.stockEntries.put e.ID
          { e with RemainingQuantity :=
              e.RemainingQuantity - min a.remainingToFulfill e.RemainingQuantity }
        remainingToFulfill :=
          a.remainingToFulfill - min a.remainingToFulfill e.RemainingQuantity
        totalCost :=
          a.totalCost + min a.remainingToFulfill e.RemainingQuantity * e.UnitPrice
        outputLines := a.outputLines ++
          [{ ID := env.uuid (i + 1), StockOutputID := oid, StockEntryID := e.ID,
             Quantity := min a.remainingToFulfill e.RemainingQuantity,
             UnitPrice := e.UnitPrice }] } := by
  unfold allocateStep
  by_cases h : a.remainingToFulfill > e.RemainingQuantity
  · simp [h, min_eq_right (le_of_lt h)]
  · simp [h, min_eq_left (not_lt.1 h)]

/-- The loop leaves the keys of the ledger as they are. -/
theorem allocate_keys (env : Env) (oid : String) (L : List StockEntry) (i : Nat)
    (a : Allocation) (hw : Walkable L a.stockEntries) :
    (allocate env oid L i a).stockEntries.keys = a.stockEntries.keys := by
  induction L generalizing i a with
  | nil => rfl
  | cons e L ih =>
    by_cases hr : a.remainingToFulfill ≤ 0
    · rw [allocate_done _ _ _ _ _ hr]
    · rw [allocate_cons _ _ _ _ _ _ (not_le.1 hr), ih]
      · rw [allocateStep_eq]
        show (a.stockEntries.put e.ID _).keys = _
        rw [GoMap.keys_put,
          if_pos (GoMap.mem_keys_of_find (hw.stored e (List.mem_cons_self _ _)))]
      · rw [allocateStep_eq]; exact hw.tail _

/-- The sum of `g` over the ledger after the loop, when taking `r` units from a
walked lot lowers `g` by `c * r`. -/
theorem allocate_sum (g : StockEntry → ℚ) (c : ℚ) (env : Env) (oid : String)
    (L : List StockEntry) (i : Nat) (a : Allocation) (hw : Walkable L a.stockEntries)
    (hg : ∀ e ∈ L, ∀ r : ℚ,
      g { e with RemainingQuantity := e.RemainingQuantity - r } = g e - c * r) :
    (((allocate env oid L i a).stockEntries.vals.map g).sum : ℚ)
      = (a.stockEntries.vals.map g).sum
        - c * (a.remainingToFulfill - (allocate env oid L i a).remainingToFulfill) := by
  induction L generalizing i a with
  | nil => simp [allocate_nil]
  | cons e L ih =>
    by_cases hr : a.remainingToFulfill ≤ 0
    · rw [allocate_done _ _ _ _ _ hr]; simp
    · rw [allocate_cons _ _ _ _ _ _ (not_le.1 hr)]
      have hw' : Walkable L (allocateStep env oid e i a).stockEntries := by
        rw [allocateStep_eq]; exact hw.tail _
      rw [ih _ _ hw' (fun x hx => hg x (List.mem_cons_of_mem _ hx))]
      rw [allocateStep_eq]
      simp only
      rw [GoMap.sum_put g hw.keys, hw.stored e (List.mem_cons_self _ _),
        hg e (List.mem_cons_self _ _)]
      simp only [Option.map_some', Option.getD_some]
      ring

/-- What the allocation loop does: the lines it adds draw, in order, on a
prefix `taken` of the walked lots; every line but the last takes all its lot
had; no other stored lot changes; the quantities of the lines add up to what was
fulfilled and their costs to what was added to the total cost. -/
theorem allocate_spec (env : Env) (oid : String) (L : List StockEntry) (i : Nat)
    (a : Allocation) (hw : Walkable L a.stockEntries) :
    ∃ (new : List StockOutputLine) (taken rest : List StockEntry),
      L = taken ++ rest ∧
      (allocate env oid L i a).outputLines = a.outputLines ++ new ∧
      List.Forall₂ (Draws oid (allocate env oid L i a).stockEntries) new taken ∧
      List.Forall₂ (fun l e => l.Quantity = e.RemainingQuantity ∧
          (allocate env oid L i a).stockEntries.find e.ID
            = some { e with RemainingQuantity := 0 })
        new.dropLast taken.dropLast ∧
      (∀ k, k ∉ taken.map (fun e => e.ID) →
        (allocate env oid L i a).stockEntries.find k = a.stockEntries.find k) ∧
      totalQuantity new
        = a.remainingToFulfill - (allocate env oid L i a).remainingToFulfill ∧
      (allocate env oid L i a).totalCost = a.totalCost + totalLineCost new ∧
      (new ≠ [] → 0 < a.remainingToFulfill) := by
  induction L generalizing i a with
  | nil =>
    exact ⟨[], [], [], rfl, by simp [allocate_nil], List.Forall₂.nil, List.Forall₂.nil,
      fun _ _ => rfl, by simp [allocate_nil, totalQuantity],
      by simp [allocate_nil, totalLineCost], fun h => absurd rfl h⟩
  | cons e L ih =>
    by_cases hr : a.remainingToFulfill ≤ 0
    · rw [allocate_done _ _ _ _ _ hr]
      exact ⟨[], [], e :: L, rfl, by simp, List.Forall₂.nil, List.Forall₂.nil,
        fun _ _ => rfl, by simp [totalQuantity], by simp [totalLineCost],
        fun h => absurd rfl h⟩
    · have hpos : 0 < a.remainingToFulfill := not_le.1 hr
      have he := hw.stored e (List.mem_cons_self _ _)
      have hepos := hw.positive e (List.mem_cons_self _ _)
      have hw' : Walkable L (allocateStep env oid e i a).stockEntries := by
        rw [allocateStep_eq]; exact hw.tail _
      rw [allocate_cons _ _ _ _ _ _ hpos]
      obtain ⟨new, taken, rest, hL, hlines, hdraw, hfull, hframe, hqty, hcost, hne⟩ :=
        ih (i + 1) (allocateStep env oid e i a) hw'
      have hnotin : e.ID ∉ taken.map (fun e => e.ID) := by
        have := hw.distinct
        simp only [List.map_cons, List.nodup_cons, hL, List.map_append, List.mem_append,
          not_or] at this
        exact this.1.1
      have hq0 : 0 < min a.remainingToFulfill e.RemainingQuantity := lt_min hpos hepos
      refine ⟨{ ID := env.uuid (i + 1), StockOutputID := oid, StockEntryID := e.ID,
                Quantity := min a.remainingToFulfill e.RemainingQuantity,
                UnitPrice := e.UnitPrice } :: new, e :: taken, rest, by simp [hL], ?_,
              List.Forall₂.cons ⟨rfl, rfl, rfl, hq0, min_le_right _ _, ?_⟩ hdraw, ?_, ?_, ?_,
              ?_, fun _ => hpos⟩
      · rw [hlines, allocateStep_eq]; simp
      · rw [hframe _ hnotin, allocateStep_eq]
        exact GoMap.find_put_self _ _ _
      · cases new with
        | nil =>
          cases hdraw
          exact List.Forall₂.nil
        | cons l new =>
          cases hdraw with
          | cons hd htl =>
            rename_i e2 taken2
            have h1 : 0 < (allocateStep env oid e i a).remainingToFulfill :=
              hne (List.cons_ne_nil _ _)
            rw [allocateStep_eq] at h1
            simp only at h1
            have h2 : min a.remainingToFulfill e.RemainingQuantity = e.RemainingQuantity := by
              rcases min_choice a.remainingToFulfill e.RemainingQuantity with h | h
              · rw [h] at h1; simp at h1
              · exact h
            rw [List.dropLast_cons₂, List.dropLast_cons₂]
            refine List.Forall₂.cons ⟨h2, ?_⟩ hfull
            rw [hframe _ hnotin, allocateStep_eq]
            simp only
            rw [GoMap.find_put_self, h2, sub_self]
      · intro k hk
        simp only [List.map_cons, List.mem_cons, not_or] at hk
        rw [hframe k hk.2, allocateStep_eq]
        exact GoMap.find_put_ne _ _ (fun h => hk.1 h.symm)
      · have h3 : (allocateStep env oid e i a).remainingToFulfill
            = a.remainingToFulfill - min a.remainingToFulfill e.RemainingQuantity := by
          rw [allocateStep_eq]
        simp only [totalQuantity, List.map_cons, List.sum_cons] at hqty ⊢
        rw [hqty, h3]; ring
      · rw [hcost, allocateStep_eq]
        simp only [totalLineCost, List.map_cons, List.sum_cons]
        ring

/-- The loop fulfils the whole request when the walked lots hold enough. -/
theorem allocate_fulfilled (env : Env) (oid : String) (L : List StockEntry) (i : Nat)
    (a : Allocation) (hpos : ∀ e ∈ L, 0 < e.RemainingQuantity)
    (h0 : 0 ≤ a.remainingToFulfill) (hle : a.remainingToFulfill ≤ totalRemaining L) :
    (allocate env oid L i a).remainingToFulfill = 0 := by
  induction L generalizing i a with
  | nil =>
    simp only [totalRemaining, List.map_nil, List.sum_nil] at hle
    rw [allocate_nil]; exact le_antisymm hle h0
  | cons e L ih =>
    by_cases hr : a.remainingToFulfill ≤ 0
    · rw [allocate_done _ _ _ _ _ hr]; exact le_antisymm hr h0
    · rw [allocate_cons _ _ _ _ _ _ (not_le.1 hr)]
      have h3 : (allocateStep env oid e i a).remainingToFulfill
          = a.remainingToFulfill - min a.remainingToFulfill e.RemainingQuantity := by
        rw [allocateStep_eq]
      have hsum : 0 ≤ totalRemaining L := by
        unfold totalRemaining
        apply List.sum_nonneg
        intro x hx
        obtain ⟨y, hy, rfl⟩ := List.mem_map.1 hx
        exact le_of_lt (hpos y (List.mem_cons_of_mem _ hy))
      simp only [totalRemaining, List.map_cons, List.sum_cons] at hle
      apply ih _ _ (fun x hx => hpos x (List.mem_cons_of_mem _ hx))
      · rw [h3]; exact sub_nonneg.2 (min_le_left _ _)
      · rw [h3]
        rcases le_total a.remainingToFulfill e.RemainingQuantity with h | h
        · rw [min_eq_left h]; simpa using hsum
        · rw [min_eq_right h]; unfold totalRemaining; linarith

/-- A lot stored after the loop is a lot stored before it, with at most its
remaining quantity changed; if that changed, the lot was walked and its
remaining quantity went down, not below zero. -/
theorem allocate_find (env : Env) (oid : String) (L : List StockEntry) (i : Nat)
    (a : Allocation) (hw : Walkable L a.stockEntries) (k : String) (e' : StockEntry)
    (h : (allocate env oid L i a).stockEntries.find k = some e') :
    ∃ e, a.stockEntries.find k = some e ∧
      e' = { e with RemainingQuantity := e'.RemainingQuantity } ∧
      (e'.RemainingQuantity = e.RemainingQuantity ∨
        (k ∈ L.map (fun x => x.ID) ∧ 0 ≤ e'.RemainingQuantity ∧
          e'.RemainingQuantity < e.RemainingQuantity)) := by
  induction L generalizing i a with
  | nil => exact ⟨e', h, rfl, Or.inl rfl⟩
  | cons e0 L ih =>
    by_cases hr : a.remainingToFulfill ≤ 0
    · rw [allocate_done _ _ _ _ _ hr] at h
      exact ⟨e', h, rfl, Or.inl rfl⟩
    · have hpos : 0 < a.remainingToFulfill := not_le.1 hr
      have he0 := hw.stored e0 (List.mem_cons_self _ _)
      have he0pos := hw.positive e0 (List.mem_cons_self _ _)
      have hw' : Walkable L (allocateStep env oid e0 i a).stockEntries := by
        rw [allocateStep_eq]; exact hw.tail _
      rw [allocate_cons _ _ _ _ _ _ hpos] at h
      obtain ⟨e1, h1, h2, h3⟩ := ih (i + 1) _ hw' h
      rw [allocateStep_eq] at h1
      simp only at h1
      by_cases hk : e0.ID = k
      · subst hk
        rw [GoMap.find_put_self] at h1
        have h1' := (Option.some.inj h1).symm
        have hnot : e0.ID ∉ L.map (fun x => x.ID) := by
          have := hw.distinct
          simp only [List.map_cons, List.nodup_cons] at this
          exact this.1
        have hrem : e'.RemainingQuantity
            = e0.RemainingQuantity - min a.remainingToFulfill e0.RemainingQuantity := by
          rcases h3 with h3 | h3
          · rw [h3, h1']
          · exact absurd h3.1 hnot
        refine ⟨e0, he0, ?_, Or.inr ⟨List.mem_cons_self _ _, ?_, ?_⟩⟩
        · rw [h2, h1']
        · rw [hrem]; exact sub_nonneg.2 (min_le_right _ _)
        · rw [hrem]; exact sub_lt_self _ (lt_min hpos he0pos)
      · rw [GoMap.find_put_ne _ _ hk] at h1
        refine ⟨e1, h1, h2, ?_⟩
        rcases h3 with h3 | h3
        · exact Or.inl h3
        · exact Or.inr ⟨List.mem_cons_of_mem _ h3.1, h3.2⟩

/-- The loop leaves the sums over the positive lots of any other product as
they were. -/
theorem allocate_positiveLots_other (f : StockEntry → ℚ) (env : Env) (oid : String)
    (L : List StockEntry) (i : Nat) (a : Allocation) (hw : Walkable L a.stockEntries)
    {pid k : String} (hL : ∀ e ∈ L, e.ProductID = pid) (hk : pid ≠ k) :
    ((positiveLots (allocate env oid L i a).stockEntries k).map f).sum
      = ((positiveLots a.stockEntries k).map f).sum := by
  unfold positiveLots
  rw [sum_filter_map (fun e => e.ProductID = k ∧ e.RemainingQuantity > 0),
    sum_filter_map (fun e => e.ProductID = k ∧ e.RemainingQuantity > 0),
    allocate_sum _ 0 env oid L i a hw]
  · simp
  · intro e he r
    have : e.ProductID ≠ k := by rw [hL e he]; exact hk
    simp [this]

/-! ## the invariant -/

theorem inv_init : Inv NewInventoryService where
  productKeys := List.nodup_nil
  productID := by intro k p h; simp [NewInventoryService, GoMap.find] at h
  lotKeys := List.nodup_nil
  lotID := by intro k p h; simp [NewInventoryService, GoMap.find] at h
  logged := by intro t h; simp [NewInventoryService] at h
  lotLogged := by intro k p h; simp [NewInventoryService, GoMap.find] at h
  aggregate := by intro k p h; simp [NewInventoryService, GoMap.find] at h
  bounds := by intro k p h; simp [NewInventoryService, GoMap.find] at h

theorem aggregateOK_withTotals (m : GoMap StockEntry) (p : Product) (now : Time) :
    AggregateOK m (withTotals p (positiveLots m p.ID) now) := by
  unfold AggregateOK withTotals
  exact ⟨rfl, rfl⟩

/-- Recalculating the totals of `pid` establishes the invariant when all of it
but the aggregate of `pid` holds already. -/
theorem inv_recalculate (env : Env) {s : InventoryService} (pid : String)
    (h1 : s.products.keys.Nodup)
    (h2 : ∀ k p, s.products.find k = some p → p.ID = k)
    (h3 : s.stockEntries.keys.Nodup)
    (h4 : ∀ k e, s.stockEntries.find k = some e → e.ID = k)
    (h5 : ∀ t ∈ s.transactions, s.products.find t.ProductID ≠ none)
    (h6 : ∀ k e, s.stockEntries.find k = some e →
      ∃ t ∈ s.transactions, t.ProductID = e.ProductID)
    (h7 : ∀ k p, pid ≠ k → s.products.find k = some p → AggregateOK s.stockEntries p)
    (h8 : ∀ k e, s.stockEntries.find k = some e →
      e.RemainingQuantity ≤ e.Quantity ∧
        (0 ≤ e.RemainingQuantity ∨ e.RemainingQuantity = e.Quantity)) :
    Inv (recalculateProductTotals env s pid) where
  productKeys := by rw [recalculate_keys]; exact h1
  productID := by
    intro k p h
    by_cases hk : pid = k
    · subst hk
      rw [recalculate_find_self] at h
      cases hp : s.products.find pid with
      | none => rw [hp] at h; simp at h
      | some p0 =>
        rw [hp] at h
        simp only [Option.map_some', Option.some.injEq] at h
        rw [← h]
        exact h2 pid p0 hp
    · rw [recalculate_find_ne _ _ hk] at h
      exact h2 _ _ h
  lotKeys := by rw [recalculate_stockEntries]; exact h3
  lotID := by rw [recalculate_stockEntries]; exact h4
  logged := by
    rw [recalculate_transactions]
    intro t ht
    by_cases hk : pid = t.ProductID
    · rw [← hk, recalculate_find_self]
      have := h5 t ht
      rw [← hk] at this
      cases hp : s.products.find pid with
      | none => exact absurd hp this
      | some p0 => simp
    · rw [recalculate_find_ne _ _ hk]; exact h5 t ht
  lotLogged := by
    rw [recalculate_stockEntries, recalculate_transactions]; exact h6
  aggregate := by
    rw [recalculate_stockEntries]
    intro k p h
    by_cases hk : pid = k
    · subst hk
      rw [recalculate_find_self] at h
      cases hp : s.products.find pid with
      | none => rw [hp] at h; simp at h
      | some p0 =>
        rw [hp] at h
        simp only [Option.map_some', Option.some.injEq] at h
        rw [← h]
        have := aggregateOK_withTotals s.stockEntries p0 env.now
        rw [h2 _ _ hp] at this
        exact this
    · rw [recalculate_find_ne _ _ hk] at h
      exact h7 k p hk h
  bounds := by rw [recalculate_stockEntries]; exact h8

theorem GoMap.find_put_cases {V : Type} {m : GoMap V} {k j : String} {v w : V}
    (h : (m.put k v).find j = some w) :
    (j = k ∧ w = v) ∨ (j ≠ k ∧ m.find j = some w) := by
  by_cases hk : k = j
  · subst hk
    rw [GoMap.find_put_self] at h
    exact Or.inl ⟨rfl, (Option.some.inj h).symm⟩
  · rw [GoMap.find_put_ne _ _ hk] at h
    exact Or.inr ⟨fun e => hk e.symm, h⟩

theorem positiveLots_eq_nil {m : GoMap StockEntry} (hn : m.keys.Nodup) (pid : String)
    (h : ∀ k e, m.find k = some e → e.ProductID ≠ pid) : positiveLots m pid = [] := by
  unfold positiveLots
  rw [List.filter_eq_nil_iff]
  intro e he
  obtain ⟨k, hk⟩ := (GoMap.mem_vals_iff hn e).1 he
  simp [h k e hk]

theorem inv_createProduct (env : Env) {s : InventoryService} (hi : Inv s)
    (hf : env.uuid 0 ∉ s.products.keys) (name sku description : String)
    (units : Option String) :
    Inv (CreateProduct env s name sku description units).2 := by
  unfold CreateProduct
  split
  · exact hi
  · have hnone : s.products.find (env.uuid 0) = none := (GoMap.find_eq_none_iff _ _).2 hf
    dsimp only
    exact
      { productKeys := GoMap.nodup_keys_put hi.productKeys _ _
        productID := by
          intro k p h
          rcases GoMap.find_put_cases h with ⟨rfl, rfl⟩ | ⟨_, h'⟩
          · rfl
          · exact hi.productID k p h'
        lotKeys := hi.lotKeys
        lotID := hi.lotID
        logged := by
          intro t ht
          show (s.products.put _ _).find t.ProductID ≠ none
          by_cases hk : env.uuid 0 = t.ProductID
          · rw [← hk, GoMap.find_put_self]; simp
          · rw [GoMap.find_put_ne _ _ hk]; exact hi.logged t ht
        lotLogged := hi.lotLogged
        aggregate := by
          intro k p h
          rcases GoMap.find_put_cases h with ⟨rfl, rfl⟩ | ⟨_, h'⟩
          · have hnil : positiveLots s.stockEntries (env.uuid 0) = [] := by
              apply positiveLots_eq_nil hi.lotKeys
              intro k e hk heq
              obtain ⟨t, ht, hte⟩ := hi.lotLogged k e hk
              apply hi.logged t ht
              rw [hte, heq]; exact hnone
            show AggregateOK s.stockEntries _
            unfold AggregateOK
            simp [hnil, totalRemaining, totalValue]
          · exact hi.aggregate k p h'
        bounds := hi.bounds }

/-- Replacing a product record by one with the same identifier and aggregate
fields keeps the invariant. -/
theorem inv_put_product {s : InventoryService} (hi : Inv s) {id : String} {p0 p' : Product}
    (hp : s.products.find id = some p0) (h1 : p'.ID = p0.ID)
    (h2 : p'.CurrentStock = p0.CurrentStock) (h3 : p'.AverageCost = p0.AverageCost) :
    Inv { s with products := s.products.put id p' } := by
  have hfind : ∀ k p, (s.products.put id p').find k = some p →
      ∃ p1, s.products.find k = some p1 ∧ p.ID = p1.ID ∧
        p.CurrentStock = p1.CurrentStock ∧ p.AverageCost = p1.AverageCost := by
    intro k p h
    rcases GoMap.find_put_cases h with ⟨rfl, rfl⟩ | ⟨_, h'⟩
    · exact ⟨p0, hp, h1, h2, h3⟩
    · exact ⟨p, h', rfl, rfl, rfl⟩
  exact
    { productKeys := GoMap.nodup_keys_put hi.productKeys _ _
      productID := by
        intro k p h
        obtain ⟨p1, h1, h2, _⟩ := hfind k p h
        rw [h2]; exact hi.productID k p1 h1
      lotKeys := hi.lotKeys
      lotID := hi.lotID
      logged := by
        intro t ht
        show (s.products.put _ _).find t.ProductID ≠ none
        by_cases hk : id = t.ProductID
        · rw [← hk, GoMap.find_put_self]; simp
        · rw [GoMap.find_put_ne _ _ hk]; exact hi.logged t ht
      lotLogged := hi.lotLogged
      aggregate := by
        intro k p h
        obtain ⟨p1, h1, h2, h3, h4⟩ := hfind k p h
        have := hi.aggregate k p1 h1
        unfold AggregateOK at this ⊢
        rw [h2, h3, h4]; exact this
      bounds := hi.bounds }

theorem inv_updateProduct (env : Env) {s : InventoryService} (hi : Inv s)
    (id name sku description : String) (units : Option String) :
    Inv (UpdateProduct env s id name sku description units).2 := by
  unfold UpdateProduct
  cases hp : s.products.find id with
  | none => exact hi
  | some p0 =>
    simp only
    split
    · exact hi
    · exact inv_put_product hi hp rfl rfl rfl

theorem inv_deleteProduct {s : InventoryService} (hi : Inv s) (id : String) :
    Inv (DeleteProduct s id).2 := by
  unfold DeleteProduct
  cases hp : s.products.find id with
  | none => exact hi
  | some p0 =>
    simp only
    split
    · exact hi
    · rename_i hany
      have hfind : ∀ k p, (s.products.del id).find k = some p → s.products.find k = some p := by
        intro k p h
        by_cases hk : id = k
        · subst hk; rw [GoMap.find_del_self] at h; simp at h
        · rwa [GoMap.find_del_ne _ hk] at h
      exact
        { productKeys := GoMap.nodup_keys_del hi.productKeys _
          productID := fun k p h => hi.productID k p (hfind k p h)
          lotKeys := hi.lotKeys
          lotID := hi.lotID
          logged := by
            intro t ht
            show (s.products.del id).find t.ProductID ≠ none
            have hk : id ≠ t.ProductID := by
              intro heq
              apply hany
              rw [List.any_eq_true]
              exact ⟨t, ht, by simp [heq]⟩
            rw [GoMap.find_del_ne _ hk]; exact hi.logged t ht
          lotLogged := hi.lotLogged
          aggregate := fun k p h => hi.aggregate k p (hfind k p h)
          bounds := hi.bounds }

/-- Writing a lot `e'` under `id`, logging `extra` transactions of its product and
recalculating that product keeps the invariant, when `e'` carries `id`, its
product exists, a lot replaced belongs to the same product, and `e'` is within
bounds. -/
theorem inv_put_lot (env : Env) {s : InventoryService} (hi : Inv s) (id : String)
    (e' : StockEntry) (extra : List Transaction)
    (hp : s.products.find e'.ProductID ≠ none) (hID : e'.ID = id)
    (hold : ∀ e, s.stockEntries.find id = some e → e.ProductID = e'.ProductID)
    (hlog : (∃ e, s.stockEntries.find id = some e) ∨ ∃ t ∈ extra, t.ProductID = e'.ProductID)
    (hextra : ∀ t ∈ extra, t.ProductID = e'.ProductID)
    (hb : e'.RemainingQuantity ≤ e'.Quantity ∧
      (0 ≤ e'.RemainingQuantity ∨ e'.RemainingQuantity = e'.Quantity)) :
    Inv (recalculateProductTotals env
      { s with stockEntries := s.stockEntries.put id e'
               transactions := s.transactions ++ extra } e'.ProductID) := by
  apply inv_recalculate
  · exact hi.productKeys
  · exact hi.productID
  · exact GoMap.nodup_keys_put hi.lotKeys _ _
  · intro k e h
    rcases GoMap.find_put_cases h with ⟨rfl, rfl⟩ | ⟨_, h'⟩
    · exact hID
    · exact hi.lotID k e h'
  · intro t ht
    rcases List.mem_append.1 ht with h | h
    · exact hi.logged t h
    · show s.products.find t.ProductID ≠ none
      rw [hextra t h]; exact hp
  · intro k e h
    rcases GoMap.find_put_cases h with ⟨rfl, rfl⟩ | ⟨_, h'⟩
    · rcases hlog with ⟨e0, h0⟩ | ⟨t, ht, hte⟩
      · obtain ⟨t, ht, hte⟩ := hi.lotLogged k e0 h0
        exact ⟨t, List.mem_append_left _ ht, by rw [hte, hold e0 h0]⟩
      · exact ⟨t, List.mem_append_right _ ht, hte⟩
    · obtain ⟨t, ht, hte⟩ := hi.lotLogged k e h'
      exact ⟨t, List.mem_append_left _ ht, hte⟩
  · intro k p hk h
    have hpk : p.ID = k := hi.productID k p h
    apply aggregateOK_congr _ (hi.aggregate k p h)
    intro f
    rw [hpk]
    apply positiveLots_put_other f hi.lotKeys
    · intro e he; rw [hold e he]; exact hk
    · exact hk
  · intro k e h
    rcases GoMap.find_put_cases h with ⟨rfl, rfl⟩ | ⟨_, h'⟩
    · exact hb
    · exact hi.bounds k e h'

theorem inv_addStockEntry (env : Env) {s : InventoryService} (hi : Inv s)
    (hf : env.uuid 0 ∉ s.stockEntries.keys) (productID : String) (quantity unitPrice : ℚ)
    (entryDate : Time) (notes : Option String) :
    Inv (AddStockEntry env s productID quantity unitPrice entryDate notes).2 := by
  unfold AddStockEntry
  cases hp : s.products.find productID with
  | none => exact hi
  | some p0 =>
    have hnone : s.stockEntries.find (env.uuid 0) = none := (GoMap.find_eq_none_iff _ _).2 hf
    dsimp only
    refine inv_put_lot env hi (env.uuid 0) _ [_] ?_ rfl ?_ (Or.inr ⟨_, List.mem_singleton_self _, rfl⟩) ?_ ⟨le_refl _, Or.inr rfl⟩
    · show s.products.find productID ≠ none
      rw [hp]; simp
    · intro e he; rw [hnone] at he; simp at he
    · intro t ht; rw [List.mem_singleton.1 ht]

theorem inv_updateStockEntry (env : Env) {s : InventoryService} (hi : Inv s)
    (id : String) (unitPrice : ℚ) (entryDate : Time) (notes : Option String)
    (quantity : Option ℚ) :
    Inv (UpdateStockEntry env s id unitPrice entryDate notes quantity).2 := by
  unfold UpdateStockEntry
  cases he : s.stockEntries.find id with
  | none => exact hi
  | some e0 =>
    have hb0 := hi.bounds id e0 he
    have hprod : s.products.find e0.ProductID ≠ none := by
      obtain ⟨t, ht, hte⟩ := hi.lotLogged id e0 he
      rw [← hte]; exact hi.logged t ht
    have key : ∀ e' : StockEntry, e'.ID = e0.ID → e'.ProductID = e0.ProductID →
        (e'.RemainingQuantity ≤ e'.Quantity ∧
          (0 ≤ e'.RemainingQuantity ∨ e'.RemainingQuantity = e'.Quantity)) →
        Inv (recalculateProductTotals env
          { s with stockEntries := s.stockEntries.put id e' } e'.ProductID) := by
      intro e' h1 h2 h3
      have := inv_put_lot env hi id e' [] (by rw [h2]; exact hprod)
        (by rw [h1]; exact hi.lotID id e0 he)
        (fun e h => by rw [he] at h; rw [← Option.some.inj h, h2]) (Or.inl ⟨e0, he⟩)
        (fun t ht => by simp at ht) h3
      simpa using this
    cases quantity with
    | none =>
      dsimp only
      exact key _ rfl rfl hb0
    | some q =>
      dsimp only
      split
      · rename_i e herr
        split at herr
        · dsimp only; exact hi
        · simp at herr
      · rename_i e1 hok
        split at hok
        · simp at hok
        · rename_i hq
          have := Except.ok.inj hok
          subst this
          dsimp only
          refine key _ rfl rfl ⟨?_, ?_⟩
          · dsimp only; linarith [hb0.1]
          · dsimp only
            rcases hb0.2 with h | h
            · left; have := not_lt.1 hq; linarith
            · right; rw [h]; ring

theorem walkable_availableEntries (env : Env) {s : InventoryService} (hi : Inv s)
    (pid : String) : Walkable (availableEntries env s pid) s.stockEntries where
  stored := fun _ he => (mem_availableEntries hi he).1
  distinct := availableEntries_nodup env hi pid
  positive := fun _ he => (mem_availableEntries hi he).2.2
  keys := hi.lotKeys

theorem inv_createStockOutput (env : Env) {s : InventoryService} (hi : Inv s)
    (productID : String) (quantity : ℚ) (outputDate : Time)
    (referenceNumber notes : Option String) :
    Inv (CreateStockOutput env s productID quantity outputDate referenceNumber notes).2 := by
  unfold CreateStockOutput
  cases hp : s.products.find productID with
  | none => exact hi
  | some p0 =>
    dsimp only
    split
    · exact hi
    · have hw := walkable_availableEntries env hi productID
      have hfind := allocate_find env (env.uuid 0) (availableEntries env s productID) 0
        { stockEntries := s.stockEntries, remainingToFulfill := quantity,
          totalCost := 0, outputLines := [] } hw
      dsimp only
      apply inv_recalculate
      · exact hi.productKeys
      · exact hi.productID
      · show (allocate _ _ _ _ _).stockEntries.keys.Nodup
        rw [allocate_keys _ _ _ _ _ hw]; exact hi.lotKeys
      · intro k e' h
        obtain ⟨e, h1, h2, _⟩ := hfind k e' h
        rw [h2]; exact hi.lotID k e h1
      · intro t ht
        rcases List.mem_append.1 ht with h | h
        · exact hi.logged t h
        · show s.products.find t.ProductID ≠ none
          rw [List.mem_singleton.1 h, hp]; simp
      · intro k e' h
        obtain ⟨e, h1, h2, _⟩ := hfind k e' h
        obtain ⟨t, ht, hte⟩ := hi.lotLogged k e h1
        exact ⟨t, List.mem_append_left _ ht, by rw [hte, h2]⟩
      · intro k p hk h
        have hpk : p.ID = k := hi.productID k p h
        apply aggregateOK_congr _ (hi.aggregate k p h)
        intro f
        rw [hpk]
        exact allocate_positiveLots_other f env _ _ _ _ hw
          (fun e he => (mem_availableEntries hi he).2.1) hk
      · intro k e' h
        obtain ⟨e, h1, h2, h3⟩ := hfind k e' h
        have hb := hi.bounds k e h1
        have hq : e'.Quantity = e.Quantity := by rw [h2]
        rw [hq]
        rcases h3 with h3 | h3
        · rw [h3]; exact hb
        · exact ⟨by linarith [hb.1, h3.2.2], Or.inl h3.2.1⟩

/-- Every call keeps the invariant, given fresh identifiers. -/
theorem inv_run (env : Env) (op : Op) {s : InventoryService} (hi : Inv s)
    (hf : env.Fresh s) : Inv (op.run env s).2 := by
  cases op with
  | createProduct name sku description units =>
    exact inv_createProduct env hi hf.1 name sku description units
  | updateProduct id name sku description units =>
    exact inv_updateProduct env hi id name sku description units
  | deleteProduct id => exact inv_deleteProduct hi id
  | addStockEntry productID quantity unitPrice entryDate notes =>
    exact inv_addStockEntry env hi hf.2.1 productID quantity unitPrice entryDate notes
  | updateStockEntry id unitPrice entryDate notes quantity =>
    exact inv_updateStockEntry env hi id unitPrice entryDate notes quantity
  | createStockOutput productID quantity outputDate referenceNumber notes =>
    exact inv_createStockOutput env hi productID quantity outputDate referenceNumber notes

/-- The invariant holds in every reachable state. -/
theorem inv_of_reachable {s : InventoryService} (h : Reachable s) : Inv s := by
  induction h with
  | init => exact inv_init
  | step env op _ hf ih => exact inv_run env op ih hf

/-! ## withdrawals -/

/-- With pairwise distinct dates the available lots are in strictly ascending
date order, whatever the order of the visit. -/
theorem availableEntries_strict (env : Env) (s : InventoryService) (pid : String)
    (hd : (positiveLots s.stockEntries pid).Pairwise
      (fun a b => a.EntryDate ≠ b.EntryDate)) :
    (availableEntries env s pid).Pairwise (fun a b => a.EntryDate < b.EntryDate) := by
  have h1 := availableEntries_perm env s pid
  have h2 : (availableEntries env s pid).Pairwise (fun a b => a.EntryDate ≤ b.EntryDate) :=
    availableEntries_sorted env s pid
  have h3 : (availableEntries env s pid).Pairwise (fun a b => a.EntryDate ≠ b.EntryDate) :=
    (h1.pairwise_iff (fun {_ _} h => Ne.symm h)).2 hd
  exact (h2.and h3).imp (fun h => lt_of_le_of_ne h.1 h.2)

/-- A date-ascending list of the positive lots is the list the loop walks. -/
theorem availableEntries_eq (env : Env) (s : InventoryService) (pid : String)
    (L : List StockEntry) (hperm : L.Perm (positiveLots s.stockEntries pid))
    (hs : L.Pairwise (fun a b => a.EntryDate < b.EntryDate)) :
    availableEntries env s pid = L := by
  have hd : (positiveLots s.stockEntries pid).Pairwise
      (fun a b => a.EntryDate ≠ b.EntryDate) :=
    (hperm.pairwise_iff (fun {_ _} h => Ne.symm h)).1 (hs.imp (fun h => ne_of_lt h))
  haveI : IsAntisymm StockEntry (fun a b => a.EntryDate < b.EntryDate) :=
    ⟨fun a b h1 h2 => absurd h1 (not_lt_of_gt h2)⟩
  exact List.eq_of_perm_of_sorted ((availableEntries_perm env s pid).trans hperm.symm)
    (availableEntries_strict env s pid hd) hs

/-- A successful `CreateStockOutput`, spelled out. -/
theorem createStockOutput_ok {env : Env} {s : InventoryService} {pid : String} {q : ℚ}
    {date : Time} {ref notes : Option String} {out : StockOutput}
    (h : (CreateStockOutput env s pid q date ref notes).1 = .ok out) :
    (∃ p, s.products.find pid = some p ∧ q ≤ p.CurrentStock) ∧
    out.ID = env.uuid 0 ∧ out.TotalQuantity = q ∧
    out.TotalCost = (allocation env s pid q).totalCost ∧
    (CreateStockOutput env s pid q date ref notes).2.stockEntries
      = (allocation env s pid q).stockEntries ∧
    (CreateStockOutput env s pid q date ref notes).2.stockOutputs.find out.ID = some out ∧
    GetStockOutputLines (CreateStockOutput env s pid q date ref notes).2 out.ID
      = (allocation env s pid q).outputLines := by
  unfold CreateStockOutput at h ⊢
  cases hp : s.products.find pid with
  | none => rw [hp] at h; simp at h
  | some p =>
    rw [hp] at h
    dsimp only at h ⊢
    split at h
    · simp at h
    · rename_i hlt
      rw [if_neg hlt]
      have hout := (Except.ok.inj h).symm
      subst hout
      refine ⟨⟨p, rfl, not_lt.1 hlt⟩, rfl, rfl, rfl, ?_, ?_, ?_⟩
      · rw [recalculate_stockEntries]; rfl
      · rw [recalculate_stockOutputs]; exact GoMap.find_put_self _ _ _
      · unfold GetStockOutputLines
        rw [recalculate_outputLines]
        show ((s.outputLines.put _ _).find _).getD [] = _
        rw [GoMap.find_put_self]; rfl

theorem forall₂_left {α β : Type} {R : α → β → Prop} {l₁ : List α} {l₂ : List β}
    (h : List.Forall₂ R l₁ l₂) : ∀ x ∈ l₁, ∃ y ∈ l₂, R x y := by
  induction h with
  | nil => intro x hx; simp at hx
  | cons hab _ ih =>
    intro x hx
    rcases List.mem_cons.1 hx with rfl | hx
    · exact ⟨_, List.mem_cons_self _ _, hab⟩
    · obtain ⟨y, hy, hr⟩ := ih x hx
      exact ⟨y, List.mem_cons_of_mem _ hy, hr⟩

theorem forall₂_imp_mem {α β : Type} {R S : α → β → Prop} {l₁ : List α} {l₂ : List β}
    (h : List.Forall₂ R l₁ l₂) (hi : ∀ a b, a ∈ l₁ → b ∈ l₂ → R a b → S a b) :
    List.Forall₂ S l₁ l₂ := by
  induction h with
  | nil => exact List.Forall₂.nil
  | cons hab _ ih =>
    refine List.Forall₂.cons (hi _ _ (List.mem_cons_self _ _) (List.mem_cons_self _ _) hab)
      (ih fun a b ha hb => hi a b (List.mem_cons_of_mem _ ha) (List.mem_cons_of_mem _ hb))

theorem pairwise_getLast {α : Type} {r : α → α → Prop} {l : List α} {z : α}
    (h : l.Pairwise r) (hz : z ∈ l.getLast?) : ∀ x ∈ l, x = z ∨ r x z := by
  induction l with
  | nil => intro x hx; simp at hx
  | cons a l ih =>
    intro x hx
    cases l with
    | nil =>
      simp only [List.getLast?_singleton, Option.mem_def, Option.some.injEq] at hz
      simp only [List.mem_singleton] at hx
      exact Or.inl (hx.trans hz)
    | cons b l =>
      rw [List.getLast?_cons_cons] at hz
      have hzmem : z ∈ b :: l := List.mem_of_mem_getLast? hz
      rcases List.mem_cons.1 hx with rfl | hx
      · exact Or.inr (List.rel_of_pairwise_cons h hzmem)
      · exact ih (List.Pairwise.of_cons h) hz x hx

/-! ## the scenario, evaluated -/

theorem scenarioP_eq : scenarioP =
    { products := [("P", productP 0 0)], stockEntries := [], stockOutputs := [],
      outputLines := [], transactions := [] } := by
  simp [scenarioP, CreateProduct, NewInventoryService, GoMap.vals, GoMap.put, envOf, ids,
    productP]

theorem scenarioA_eq : scenarioA =
    { products := [("P", productP 10 5)], stockEntries := [("A", lotA 10)],
      stockOutputs := [], outputLines := [], transactions := [logEntry "tA" "A" 10 1] } := by
  rw [scenarioA, scenarioP_eq]
  simp [AddStockEntry, GoMap.find, GoMap.put, envOf, ids, recalculateProductTotals,
    GoMap.vals, productP, lotA, logEntry]

theorem scenarioB_eq : scenarioB =
    { products := [("P", productP 20 6)], stockEntries := [("A", lotA 10), ("B", lotB 10)],
      stockOutputs := [], outputLines := [],
      transactions := [logEntry "tA" "A" 10 1, logEntry "tB" "B" 10 5] } := by
  rw [scenarioB, scenarioA_eq]
  simp [AddStockEntry, GoMap.find, GoMap.put, envOf, ids, recalculateProductTotals,
    GoMap.vals, productP, lotA, lotB, logEntry]
  norm_num

theorem scenarioN_eq : scenarioN =
    { products := [("P", productP 10 5)], stockEntries := [("A", lotA 10), ("N", lotN)],
      stockOutputs := [], outputLines := [],
      transactions := [logEntry "tA" "A" 10 1, logEntry "tN" "N" (-5) 5] } := by
  rw [scenarioN, scenarioA_eq]
  simp [AddStockEntry, GoMap.find, GoMap.put, envOf, ids, recalculateProductTotals,
    GoMap.vals, productP, lotA, lotN, logEntry]
  norm_num

theorem createStockOutput_scenarioB :
    CreateStockOutput (envOf scenarioIds) scenarioB "P" 15 9 none none =
      (.ok outputW,
       { products := [("P", productP 5 7)],
         stockEntries := [("A", lotA 0), ("B", lotB 5)],
         stockOutputs := [("W", outputW)],
         outputLines := [("W", [lineW "l1" "A" 10 5, lineW "l2" "B" 5 7])],
         transactions :=
           [logEntry "tA" "A" 10 1, logEntry "tB" "B" 10 5, logOutput "tW" "W" 15 9] }) := by
  rw [scenarioB_eq]
  simp [CreateStockOutput, availableEntries, sortSlice, Before, GoMap.find, GoMap.put,
    GoMap.vals, envOf, scenarioIds, recalculateProductTotals, allocate, allocateStep,
    productP, lotA, lotB, logEntry, logOutput, outputW, lineW]
  norm_num
  intro h
  exact absurd h (List.cons_ne_nil _ _)

theorem scenarioW_eq : scenarioW =
    { products := [("P", productP 5 7)],
      stockEntries := [("A", lotA 0), ("B", lotB 5)],
      stockOutputs := [("W", outputW)],
      outputLines := [("W", [lineW "l1" "A" 10 5, lineW "l2" "B" 5 7])],
      transactions :=
        [logEntry "tA" "A" 10 1, logEntry "tB" "B" 10 5, logOutput "tW" "W" 15 9] } := by
  rw [scenarioW, createStockOutput_scenarioB]

theorem reachable_scenarioP : Reachable scenarioP :=
  Reachable.step (envOf (ids "P" "")) (.createProduct "Widget" "W-1" "" none) Reachable.init
    (by simp [Env.Fresh, NewInventoryService, GoMap.keys])

theorem reachable_scenarioA : Reachable scenarioA :=
  Reachable.step (envOf (ids "A" "tA")) (.addStockEntry "P" 10 5 1 none) reachable_scenarioP
    (by rw [scenarioP_eq]; simp [Env.Fresh, GoMap.keys, envOf, ids])

theorem reachable_scenarioB : Reachable scenarioB :=
  Reachable.step (envOf (ids "B" "tB")) (.addStockEntry "P" 10 7 5 none) reachable_scenarioA
    (by rw [scenarioA_eq]; simp [Env.Fresh, GoMap.keys, envOf, ids])

theorem reachable_scenarioN : Reachable scenarioN :=
  Reachable.step (envOf (ids "N" "tN")) (.addStockEntry "P" (-5) 7 5 none) reachable_scenarioA
    (by rw [scenarioA_eq]; simp [Env.Fresh, GoMap.keys, envOf, ids])

theorem reachable_scenarioW : Reachable scenarioW :=
  Reachable.step (envOf scenarioIds) (.createStockOutput "P" 15 9 none none)
    reachable_scenarioB
    (by rw [scenarioB_eq]; simp [Env.Fresh, GoMap.keys, envOf, scenarioIds])

theorem createStockOutput_scenarioW :
    CreateStockOutput (envOf scenarioIds) scenarioW "P" 10 9 none none =
      (.error (.insufficientStock 5), scenarioW) := by
  rw [scenarioW_eq]
  simp [CreateStockOutput, GoMap.find, productP]
  norm_num

theorem find_scenarioW_B : scenarioW.stockEntries.find "B" = some (lotB 5) := by
  rw [scenarioW_eq]; simp [GoMap.find]

theorem find_scenarioW_P : scenarioW.products.find "P" = some (productP 5 7) := by
  rw [scenarioW_eq]; simp [GoMap.find]

theorem positiveLots_scenarioB :
    positiveLots scenarioB.stockEntries "P" = [lotA 10, lotB 10] := by
  rw [scenarioB_eq]; simp [positiveLots, GoMap.vals, lotA, lotB]

theorem positiveLots_scenarioW : positiveLots scenarioW.stockEntries "P" = [lotB 5] := by
  rw [scenarioW_eq]; simp [positiveLots, GoMap.vals, lotA, lotB]

theorem createStockOutput_scenarioB' :
    CreateStockOutput (envOf scenarioIds) scenarioB "P" 15 9 none none
      = (.ok outputW, scenarioW) := by
  rw [scenarioW_eq]; exact createStockOutput_scenarioB

theorem distinct_scenarioB :
    (positiveLots scenarioB.stockEntries "P").Pairwise
      (fun a b => a.EntryDate ≠ b.EntryDate) := by
  rw [positiveLots_scenarioB]; simp [lotA, lotB]

theorem createStockOutput_scenarioB_rev :
    CreateStockOutput (envRev scenarioIds) scenarioB "P" 15 9 none none
      = (.ok outputW, scenarioW) := by
  rw [scenarioW_eq, scenarioB_eq]
  simp [CreateStockOutput, availableEntries, sortSlice, Before, GoMap.find, GoMap.put,
    GoMap.vals, envRev, scenarioIds, recalculateProductTotals, allocate, allocateStep,
    productP, lotA, lotB, logEntry, logOutput, outputW, lineW, List.orderedInsert]
  norm_num
  intro h
  exact absurd h (List.cons_ne_nil _ _)

/-- A call that returns an error leaves the service as it was. -/
theorem run_error (env : Env) (s : InventoryService) (op : Op)
    (h : (op.run env s).1 ≠ none) : (op.run env s).2 = s := by
  cases op with
  | createProduct name sku description units =>
    simp only [Op.run, CreateProduct] at h ⊢
    split at h
    · rename_i hc; rw [if_pos hc]
    · simp [errorOf] at h
  | updateProduct id name sku description units =>
    simp only [Op.run, UpdateProduct] at h ⊢
    cases hp : s.products.find id with
    | none => rfl
    | some p =>
      rw [hp] at h
      dsimp only at h ⊢
      split at h
      · rename_i hc; rw [if_pos hc]
      · simp [errorOf] at h
  | deleteProduct id =>
    simp only [Op.run, DeleteProduct] at h ⊢
    cases hp : s.products.find id with
    | none => rfl
    | some p =>
      rw [hp] at h
      dsimp only at h ⊢
      split at h
      · rename_i hc; rw [if_pos hc]
      · simp [errorOf] at h
  | addStockEntry productID quantity unitPrice entryDate notes =>
    simp only [Op.run, AddStockEntry] at h ⊢
    cases hp : s.products.find productID with
    | none => rfl
    | some p => rw [hp] at h; simp [errorOf] at h
  | updateStockEntry id unitPrice entryDate notes quantity =>
    simp only [Op.run, UpdateStockEntry] at h ⊢
    cases he : s.stockEntries.find id with
    | none => rfl
    | some e =>
      rw [he] at h
      dsimp only at h ⊢
      split
      · rfl
      · rename_i e1 hok
        rw [hok] at h
        simp [errorOf] at h
  | createStockOutput productID quantity outputDate referenceNumber notes =>
    simp only [Op.run, CreateStockOutput] at h ⊢
    cases hp : s.products.find productID with
    | none => rfl
    | some p =>
      rw [hp] at h
      dsimp only at h ⊢
      split at h
      · rename_i hc; rw [if_pos hc]
      · simp [errorOf] at h

theorem totalRemaining_positiveLots_nonneg (m : GoMap StockEntry) (pid : String) :
    0 ≤ totalRemaining (positiveLots m pid) := by
  unfold totalRemaining positiveLots
  apply List.sum_nonneg
  intro x hx
  obtain ⟨e, he, rfl⟩ := List.mem_map.1 hx
  have := (List.mem_filter.1 he).2
  simp only [decide_eq_true_eq] at this
  exact le_of_lt this.2

theorem createStockOutput_of_nonpos (env : Env) (s : InventoryService) (pid : String) (q : ℚ)
    (date : Time) (ref notes : Option String) (p : Product) (hr : Reachable s)
    (hp : s.products.find pid = some p) (hq : q ≤ 0) :
    (CreateStockOutput env s pid q date ref notes).1 =
      .ok { ID := env.uuid 0, ProductID := pid, TotalQuantity := q, TotalCost := 0,
            ReferenceNumber := ref, OutputDate := date, Notes := notes } ∧
    (CreateStockOutput env s pid q date ref notes).2.stockOutputs.find (env.uuid 0) =
      some { ID := env.uuid 0, ProductID := pid, TotalQuantity := q, TotalCost := 0,
             ReferenceNumber := ref, OutputDate := date, Notes := notes } ∧
    GetStockOutputLines (CreateStockOutput env s pid q date ref notes).2 (env.uuid 0) = [] ∧
    (CreateStockOutput env s pid q date ref notes).2.stockEntries = s.stockEntries ∧
    (CreateStockOutput env s pid q date ref notes).2.transactions =
      s.transactions ++
        [{ ID := env.uuid 1, Type_ := .TransactionTypeOutput, ProductID := pid,
           Quantity := q, Date := date, ReferenceID := env.uuid 0, Notes := notes }] := by
  have hi := inv_of_reachable hr
  have hstock : ¬ p.CurrentStock < q := by
    rw [(hi.aggregate pid p hp).1]
    exact not_lt.2 (le_trans hq (totalRemaining_positiveLots_nonneg _ _))
  have hal : allocate env (env.uuid 0) (availableEntries env s pid) 0
      { stockEntries := s.stockEntries, remainingToFulfill := q,
        totalCost := 0, outputLines := [] } =
      { stockEntries := s.stockEntries, remainingToFulfill := q,
        totalCost := 0, outputLines := [] } := allocate_done _ _ _ _ _ hq
  unfold CreateStockOutput
  rw [hp]
  dsimp only
  rw [if_neg hstock, hal]
  dsimp only
  refine ⟨rfl, ?_, ?_, ?_, ?_⟩
  · rw [recalculate_stockOutputs]; exact GoMap.find_put_self _ _ _
  · unfold GetStockOutputLines
    rw [recalculate_outputLines]
    show ((s.outputLines.put _ _).find _).getD [] = _
    rw [GoMap.find_put_self]; rfl
  · rw [recalculate_stockEntries]
  · rw [recalculate_transactions]; rfl

/-! ## lemmas on the log and on stored withdrawals -/

theorem sortSlice_byDateDesc_sorted (l : List Transaction) :
    (sortSlice (fun a b => After a.Date b.Date) l).Sorted (fun a b => b.Date ≤ a.Date) := by
  have h : sortSlice (fun a b => After a.Date b.Date) l
      = l.insertionSort (fun a b => b.Date ≤ a.Date) := by
    unfold sortSlice
    congr 1
    funext a b
    simp [After]
  rw [h]
  haveI : IsTotal Transaction (fun a b => b.Date ≤ a.Date) :=
    ⟨fun a b => le_total b.Date a.Date⟩
  haveI : IsTrans Transaction (fun a b => b.Date ≤ a.Date) :=
    ⟨fun a b c h1 h2 => le_trans h2 h1⟩
  exact List.sorted_insertionSort _ l

theorem GoMap.put_put {V : Type} (m : GoMap V) (k : String) (v w : V) :
    (m.put k v).put k w = m.put k w := by
  induction m with
  | nil => simp [GoMap.put]
  | cons kv m ih =>
    obtain ⟨k', v'⟩ := kv
    by_cases h : k' = k
    · simp [GoMap.put, h]
    · simp [GoMap.put, h, ih]

theorem withTotals_withTotals (p : Product) (lots : List StockEntry) (now : Time) :
    withTotals (withTotals p lots now) lots now = withTotals p lots now := rfl

/-- What a call does to the stored withdrawals and their lines: nothing, or one
write under the first identifier of the call. -/
theorem run_outputs (env : Env) (s : InventoryService) (op : Op) :
    ((op.run env s).2.stockOutputs = s.stockOutputs ∧
      (op.run env s).2.outputLines = s.outputLines) ∨
    ∃ o lines, (op.run env s).2.stockOutputs = s.stockOutputs.put (env.uuid 0) o ∧
      (op.run env s).2.outputLines = s.outputLines.put (env.uuid 0) lines := by
  cases op with
  | createProduct name sku description units =>
    left; simp only [Op.run, CreateProduct]; split <;> exact ⟨rfl, rfl⟩
  | updateProduct id name sku description units =>
    left; simp only [Op.run, UpdateProduct]
    cases s.products.find id with
    | none => exact ⟨rfl, rfl⟩
    | some p => dsimp only; split <;> exact ⟨rfl, rfl⟩
  | deleteProduct id =>
    left; simp only [Op.run, DeleteProduct]
    cases s.products.find id with
    | none => exact ⟨rfl, rfl⟩
    | some p => dsimp only; split <;> exact ⟨rfl, rfl⟩
  | addStockEntry productID quantity unitPrice entryDate notes =>
    left; simp only [Op.run, AddStockEntry]
    cases s.products.find productID with
    | none => exact ⟨rfl, rfl⟩
    | some p =>
      dsimp only
      rw [recalculate_stockOutputs, recalculate_outputLines]
      exact ⟨rfl, rfl⟩
  | updateStockEntry id unitPrice entryDate notes quantity =>
    left; simp only [Op.run, UpdateStockEntry]
    cases s.stockEntries.find id with
    | none => exact ⟨rfl, rfl⟩
    | some e =>
      dsimp only
      split
      · exact ⟨rfl, rfl⟩
      · dsimp only
        rw [recalculate_stockOutputs, recalculate_outputLines]
        exact ⟨rfl, rfl⟩
  | createStockOutput productID quantity outputDate referenceNumber notes =>
    simp only [Op.run, CreateStockOutput]
    cases s.products.find productID with
    | none => exact Or.inl ⟨rfl, rfl⟩
    | some p =>
      dsimp only
      split
      · exact Or.inl ⟨rfl, rfl⟩
      · right
        dsimp only
        rw [recalculate_stockOutputs, recalculate_outputLines]
        exact ⟨_, _, rfl, rfl⟩

theorem fresh_scenarioW : (envOf (ids "X" "tX")).Fresh scenarioW := by
  rw [scenarioW_eq]; simp [Env.Fresh, GoMap.keys, envOf, ids]

theorem find_scenarioW_W : scenarioW.stockOutputs.find "W" = some outputW := by
  rw [scenarioW_eq]; simp [GoMap.find]

theorem transactions_createProduct (env : Env) (s : InventoryService)
    (name sku description : String) (units : Option String) :
    (CreateProduct env s name sku description units).2.transactions = s.transactions := by
  unfold CreateProduct; split <;> rfl

theorem transactions_updateProduct (env : Env) (s : InventoryService)
    (id name sku description : String) (units : Option String) :
    (UpdateProduct env s id name sku description units).2.transactions = s.transactions := by
  unfold UpdateProduct
  cases s.products.find id with
  | none => rfl
  | some p => dsimp only; split <;> rfl

theorem transactions_deleteProduct (s : InventoryService) (id : String) :
    (DeleteProduct s id).2.transactions = s.transactions := by
  unfold DeleteProduct
  cases s.products.find id with
  | none => rfl
  | some p => dsimp only; split <;> rfl

theorem transactions_updateStockEntry (env : Env) (s : InventoryService) (id : String)
    (unitPrice : ℚ) (entryDate : Time) (notes : Option String) (quantity : Option ℚ) :
    (UpdateStockEntry env s id unitPrice entryDate notes quantity).2.transactions
      = s.transactions := by
  unfold UpdateStockEntry
  cases s.stockEntries.find id with
  | none => rfl
  | some e =>
    dsimp only
    split
    · rfl
    · dsimp only
      rw [recalculate_transactions]

/-- What a call does to the log: nothing, or one entry appended. -/
theorem run_transactions (env : Env) (s : InventoryService) (op : Op) :
    (op.run env s).2.transactions = s.transactions ∨
    ∃ t, (op.run env s).2.transactions = s.transactions ++ [t] := by
  cases op with
  | createProduct name sku description units =>
    exact Or.inl (transactions_createProduct env s name sku description units)
  | updateProduct id name sku description units =>
    exact Or.inl (transactions_updateProduct env s id name sku description units)
  | deleteProduct id => exact Or.inl (transactions_deleteProduct s id)
  | addStockEntry productID quantity unitPrice entryDate notes =>
    simp only [Op.run, AddStockEntry]
    cases s.products.find productID with
    | none => exact Or.inl rfl
    | some p =>
      right; dsimp only
      rw [recalculate_transactions]
      exact ⟨_, rfl⟩
  | updateStockEntry id unitPrice entryDate notes quantity =>
    exact Or.inl (transactions_updateStockEntry env s id unitPrice entryDate notes quantity)
  | createStockOutput productID quantity outputDate referenceNumber notes =>
    simp only [Op.run, CreateStockOutput]
    cases s.products.find productID with
    | none => exact Or.inl rfl
    | some p =>
      dsimp only
      split
      · exact Or.inl rfl
      · right
        dsimp only
        rw [recalculate_transactions]
        exact ⟨_, rfl⟩

theorem forall₂_right {α β : Type} {R : α → β → Prop} {l₁ : List α} {l₂ : List β}
    (h : List.Forall₂ R l₁ l₂) : ∀ y ∈ l₂, ∃ x ∈ l₁, R x y := by
  induction h with
  | nil => intro y hy; simp at hy
  | cons hab _ ih =>
    intro y hy
    rcases List.mem_cons.1 hy with rfl | hy
    · exact ⟨_, List.mem_cons_self _ _, hab⟩
    · obtain ⟨x, hx, hr⟩ := ih y hy
      exact ⟨x, List.mem_cons_of_mem _ hx, hr⟩

/-- How a successful `CreateStockOutput` changes a stored lot: not at all, or it
lowers the remaining quantity by the quantity of a line that names the lot. -/
theorem createStockOutput_lot {env : Env} {s : InventoryService} (hi : Inv s) {pid : String}
    {q : ℚ} {date : Time} {ref notes : Option String} {out : StockOutput}
    (hok : (CreateStockOutput env s pid q date ref notes).1 = .ok out)
    {k : String} {e : StockEntry} (he : s.stockEntries.find k = some e) :
    (CreateStockOutput env s pid q date ref notes).2.stockEntries.find k = some e ∨
    ∃ l ∈ GetStockOutputLines (CreateStockOutput env s pid q date ref notes).2 (env.uuid 0),
      l.StockEntryID = k ∧ 0 < l.Quantity ∧
      (CreateStockOutput env s pid q date ref notes).2.stockEntries.find k
        = some { e with RemainingQuantity := e.RemainingQuantity - l.Quantity } := by
  obtain ⟨_, hid, _, _, hse, _, hlines⟩ := createStockOutput_ok hok
  have hw := walkable_availableEntries env hi pid
  obtain ⟨new, taken, rest, hL, hl, hdraw, _, hframe, _, _, _⟩ :=
    allocate_spec env (env.uuid 0) (availableEntries env s pid) 0
      { stockEntries := s.stockEntries, remainingToFulfill := q,
        totalCost := 0, outputLines := [] } hw
  have hnew : (allocation env s pid q).outputLines = new := by
    unfold allocation; rw [hl]; rfl
  rw [hid] at hlines
  rw [hse, hlines, hnew]
  unfold allocation
  by_cases hk : k ∈ taken.map (fun e => e.ID)
  · right
    obtain ⟨x, hx, hxk⟩ := List.mem_map.1 hk
    have hxe : x = e := by
      have := hw.stored x (by rw [hL]; exact List.mem_append_left _ hx)
      rw [hxk, he] at this
      exact (Option.some.inj this).symm
    subst hxe
    obtain ⟨l, hl1, hd⟩ := forall₂_right hdraw x hx
    refine ⟨l, hl1, hd.2.1.trans hxk, hd.2.2.2.1, ?_⟩
    rw [← hxk]; exact hd.2.2.2.2.2
  · left
    rw [hframe k hk]; exact he

/-- What a call does to a stored lot, given the invariant and a fresh
identifier. -/
theorem run_lot (env : Env) {s : InventoryService} (hi : Inv s) (hf : env.Fresh s)
    (op : Op) {k : String} {e : StockEntry} (he : s.stockEntries.find k = some e) :
    ∃ e', (op.run env s).2.stockEntries.find k = some e' ∧
      (e'.RemainingQuantity < e.RemainingQuantity →
        (∃ pid q d r n, op = .createStockOutput pid q d r n ∧
          ∃ l ∈ GetStockOutputLines (op.run env s).2 (env.uuid 0), l.StockEntryID = k) ∨
        (∃ price d n q, op = .updateStockEntry k price d n (some q) ∧ q < e.Quantity)) ∧
      (e.RemainingQuantity < e'.RemainingQuantity →
        ∃ price d n q, op = .updateStockEntry k price d n (some q) ∧ e.Quantity < q) := by
  have same : ∀ {s' : InventoryService}, s'.stockEntries = s.stockEntries →
      ∃ e', s'.stockEntries.find k = some e' ∧
        (e'.RemainingQuantity < e.RemainingQuantity →
          (∃ pid q d r n, op = .createStockOutput pid q d r n ∧
            ∃ l ∈ GetStockOutputLines s' (env.uuid 0), l.StockEntryID = k) ∨
          (∃ price d n q, op = .updateStockEntry k price d n (some q) ∧ q < e.Quantity)) ∧
        (e.RemainingQuantity < e'.RemainingQuantity →
          ∃ price d n q, op = .updateStockEntry k price d n (some q) ∧ e.Quantity < q) := by
    intro s' h
    exact ⟨e, by rw [h]; exact he, fun h => absurd h (lt_irrefl _),
      fun h => absurd h (lt_irrefl _)⟩
  cases op with
  | createProduct name sku description units =>
    apply same; simp only [Op.run, CreateProduct]; split <;> rfl
  | updateProduct id name sku description units =>
    apply same; simp only [Op.run, UpdateProduct]
    cases s.products.find id with
    | none => rfl
    | some p => dsimp only; split <;> rfl
  | deleteProduct id =>
    apply same; simp only [Op.run, DeleteProduct]
    cases s.products.find id with
    | none => rfl
    | some p => dsimp only; split <;> rfl
  | addStockEntry productID quantity unitPrice entryDate notes =>
    have hne : env.uuid 0 ≠ k := fun h => hf.2.1 (h ▸ GoMap.mem_keys_of_find he)
    simp only [Op.run, AddStockEntry]
    cases s.products.find productID with
    | none => exact same rfl
    | some p =>
      dsimp only
      refine ⟨e, ?_, fun h => absurd h (lt_irrefl _), fun h => absurd h (lt_irrefl _)⟩
      rw [recalculate_stockEntries]
      show (s.stockEntries.put _ _).find k = some e
      rw [GoMap.find_put_ne _ _ hne]; exact he
  | updateStockEntry id unitPrice entryDate notes quantity =>
    by_cases hk : id = k
    · subst hk
      simp only [Op.run, UpdateStockEntry]
      rw [he]
      cases quantity with
      | none =>
        dsimp only
        rw [recalculate_stockEntries]
        refine ⟨_, GoMap.find_put_self _ _ _, fun h => absurd h (lt_irrefl _),
          fun h => absurd h (lt_irrefl _)⟩
      | some q =>
        dsimp only
        by_cases hq : q < e.Quantity - e.RemainingQuantity
        · rw [if_pos hq]
          exact ⟨e, he, fun h => absurd h (lt_irrefl _), fun h => absurd h (lt_irrefl _)⟩
        · rw [if_neg hq]
          dsimp only
          rw [recalculate_stockEntries]
          refine ⟨_, GoMap.find_put_self _ _ _, ?_, ?_⟩
          · intro h
            dsimp only at h
            exact Or.inr ⟨unitPrice, entryDate, notes, q, rfl, by linarith⟩
          · intro h
            dsimp only at h
            exact ⟨unitPrice, entryDate, notes, q, rfl, by linarith⟩
    · simp only [Op.run, UpdateStockEntry]
      cases s.stockEntries.find id with
      | none => exact ⟨e, he, fun h => absurd h (lt_irrefl _), fun h => absurd h (lt_irrefl _)⟩
      | some e0 =>
        dsimp only
        split
        · exact ⟨e, he, fun h => absurd h (lt_irrefl _), fun h => absurd h (lt_irrefl _)⟩
        · dsimp only
          rw [recalculate_stockEntries]
          refine ⟨e, ?_, fun h => absurd h (lt_irrefl _), fun h => absurd h (lt_irrefl _)⟩
          show (s.stockEntries.put _ _).find k = some e
          rw [GoMap.find_put_ne _ _ hk]; exact he
  | createStockOutput productID quantity outputDate referenceNumber notes =>
    cases hres : (CreateStockOutput env s productID quantity outputDate referenceNumber notes).1 with
    | error err =>
      have : (Op.run env s (.createStockOutput productID quantity outputDate referenceNumber
          notes)).1 ≠ none := by
        simp [Op.run, hres, errorOf]
      rw [run_error env s _ this]
      exact ⟨e, he, fun h => absurd h (lt_irrefl _), fun h => absurd h (lt_irrefl _)⟩
    | ok out =>
      simp only [Op.run]
      rcases createStockOutput_lot hi hres he with h | ⟨l, hl, hlk, hpos, h⟩
      · exact ⟨e, h, fun h => absurd h (lt_irrefl _), fun h => absurd h (lt_irrefl _)⟩
      · refine ⟨_, h, fun _ => Or.inl ⟨_, _, _, _, _, rfl, l, hl, hlk⟩, ?_⟩
        intro hlt
        dsimp only at hlt
        linarith

theorem scenarioT_eq : scenarioT =
    { products := [("P", productP 20 6)], stockEntries := [("A", lotA 10), ("C", lotC 10)],
      stockOutputs := [], outputLines := [],
      transactions := [logEntry "tA" "A" 10 1, logEntry "tC" "C" 10 1] } := by
  rw [scenarioT, scenarioA_eq]
  simp [AddStockEntry, GoMap.find, GoMap.put, envOf, ids, recalculateProductTotals,
    GoMap.vals, productP, lotA, lotC, logEntry]
  norm_num

theorem reachable_scenarioT : Reachable scenarioT :=
  Reachable.step (envOf (ids "C" "tC")) (.addStockEntry "P" 10 7 1 none) reachable_scenarioA
    (by rw [scenarioA_eq]; simp [Env.Fresh, GoMap.keys, envOf, ids])

theorem createStockOutput_scenarioT :
    CreateStockOutput (envOf scenarioIds) scenarioT "P" 5 9 none none =
      (.ok { ID := "W", ProductID := "P", TotalQuantity := 5, TotalCost := 25,
             ReferenceNumber := none, OutputDate := 9, Notes := none },
       { products := [("P", productP 15 (19 / 3))],
         stockEntries := [("A", lotA 5), ("C", lotC 10)],
         stockOutputs := [("W", { ID := "W", ProductID := "P", TotalQuantity := 5,
                                  TotalCost := 25, ReferenceNumber := none,
                                  OutputDate := 9, Notes := none })],
         outputLines := [("W", [lineW "l1" "A" 5 5])],
         transactions :=
           [logEntry "tA" "A" 10 1, logEntry "tC" "C" 10 1, logOutput "l2" "W" 5 9] }) := by
  rw [scenarioT_eq]
  simp [CreateStockOutput, availableEntries, sortSlice, Before, GoMap.find, GoMap.put,
    GoMap.vals, envOf, scenarioIds, recalculateProductTotals, allocate, allocateStep,
    productP, lotA, lotC, logEntry, logOutput, lineW, List.orderedInsert]
  norm_num

theorem createStockOutput_scenarioT_rev :
    CreateStockOutput (envRev scenarioIds) scenarioT "P" 5 9 none none =
      (.ok { ID := "W", ProductID := "P", TotalQuantity := 5, TotalCost := 35,
             ReferenceNumber := none, OutputDate := 9, Notes := none },
       { products := [("P", productP 15 (17 / 3))],
         stockEntries := [("A", lotA 10), ("C", lotC 5)],
         stockOutputs := [("W", { ID := "W", ProductID := "P", TotalQuantity := 5,
                                  TotalCost := 35, ReferenceNumber := none,
                                  OutputDate := 9, Notes := none })],
         outputLines := [("W", [lineW "l1" "C" 5 7])],
         transactions :=
           [logEntry "tA" "A" 10 1, logEntry "tC" "C" 10 1, logOutput "l2" "W" 5 9] }) := by
  rw [scenarioT_eq]
  simp [CreateStockOutput, availableEntries, sortSlice, Before, GoMap.find, GoMap.put,
    GoMap.vals, envRev, scenarioIds, recalculateProductTotals, allocate, allocateStep,
    productP, lotA, lotC, logEntry, logOutput, lineW, List.orderedInsert]
  norm_num

theorem createStockOutput_scenarioT_rev' :
    CreateStockOutput (envRev scenarioIds) scenarioT "P" 5 9 none none =
      (.ok outputT, (CreateStockOutput (envRev scenarioIds) scenarioT "P" 5 9 none none).2) := by
  rw [createStockOutput_scenarioT_rev]; rfl

theorem getStockEntries_scenarioT_rev :
    GetStockEntriesForProduct (envRev scenarioIds) scenarioT "P" = [lotC 10, lotA 10] := by
  rw [scenarioT_eq]
  simp [GetStockEntriesForProduct, sortSlice, Before, GoMap.vals, envRev, lotA, lotC,
    List.orderedInsert]

theorem getStockEntries_scenarioT :
    GetStockEntriesForProduct (envOf scenarioIds) scenarioT "P" = [lotA 10, lotC 10] := by
  rw [scenarioT_eq]
  simp [GetStockEntriesForProduct, sortSlice, Before, GoMap.vals, envOf, lotA, lotC,
    List.orderedInsert]

theorem updateStockEntry_scenarioW_B :
    (Op.run (envOf (ids "X" "tX")) scenarioW
        (.updateStockEntry "B" 7 5 none (some 7))).2.stockEntries.find "B"
      = some { lotB 2 with Quantity := 7 } := by
  rw [scenarioW_eq]
  simp [Op.run, UpdateStockEntry, GoMap.find, GoMap.put, lotB]
  norm_num
  rw [recalculate_stockEntries]
  simp [GoMap.find]

/-! ## the ledger of withdrawals -/

theorem GoMap.put_of_not_mem {V : Type} {m : GoMap V} {k : String} (h : k ∉ m.keys) (v : V) :
    m.put k v = m ++ [(k, v)] := by
  induction m with
  | nil => rfl
  | cons kv m ih =>
    obtain ⟨k', v'⟩ := kv
    simp only [GoMap.keys, List.map_cons, List.mem_cons, not_or] at h
    have hne : ¬ k' = k := fun e => h.1 e.symm
    simp only [GoMap.put, hne, if_false, List.cons_append]
    rw [ih h.2]

theorem linesOf_append (x y : List StockOutputLine) (k : String) :
    linesOf (x ++ y) k = linesOf x k ++ linesOf y k := by
  unfold linesOf; exact List.filter_append _ _

theorem totalQuantity_append (x y : List StockOutputLine) :
    totalQuantity (x ++ y) = totalQuantity x + totalQuantity y := by
  unfold totalQuantity; rw [List.map_append, List.sum_append]

theorem mem_allLines {s : InventoryService} {l : StockOutputLine} :
    l ∈ allLines s ↔ ∃ kv ∈ s.outputLines, l ∈ kv.2 := by
  unfold allLines GoMap.vals
  rw [List.mem_flatten]
  constructor
  · rintro ⟨ls, hls, hl⟩
    obtain ⟨kv, hkv, rfl⟩ := List.mem_map.1 hls
    exact ⟨kv, hkv, hl⟩
  · rintro ⟨kv, hkv, hl⟩
    exact ⟨kv.2, List.mem_map.2 ⟨kv, hkv, rfl⟩, hl⟩

theorem linesOf_eq_nil {lines : List StockOutputLine} {k : String}
    (h : ∀ l ∈ lines, l.StockEntryID ≠ k) : linesOf lines k = [] := by
  unfold linesOf
  rw [List.filter_eq_nil_iff]
  intro l hl
  simp [h l hl]

/-- Through the loop, for every stored lot the remaining quantity plus the
quantities of the lines that name the lot stays the same. -/
theorem allocate_reconcile (env : Env) (oid : String) (L : List StockEntry) (i : Nat)
    (a : Allocation) (hw : Walkable L a.stockEntries) (k : String) (e : StockEntry)
    (he : a.stockEntries.find k = some e) :
    ∃ e', (allocate env oid L i a).stockEntries.find k = some e' ∧
      e' = { e with RemainingQuantity := e'.RemainingQuantity } ∧
      e'.RemainingQuantity + totalQuantity (linesOf (allocate env oid L i a).outputLines k)
        = e.RemainingQuantity + totalQuantity (linesOf a.outputLines k) := by
  induction L generalizing i a e with
  | nil => exact ⟨e, he, rfl, rfl⟩
  | cons e0 L ih =>
    by_cases hr : a.remainingToFulfill ≤ 0
    · rw [allocate_done _ _ _ _ _ hr]
      exact ⟨e, he, rfl, rfl⟩
    · have hpos : 0 < a.remainingToFulfill := not_le.1 hr
      have he0 := hw.stored e0 (List.mem_cons_self _ _)
      have hw' : Walkable L (allocateStep env oid e0 i a).stockEntries := by
        rw [allocateStep_eq]; exact hw.tail _
      rw [allocate_cons _ _ _ _ _ _ hpos]
      by_cases hk : e0.ID = k
      · subst hk
        have hee : e = e0 := by rw [he0] at he; exact (Option.some.inj he).symm
        subst hee
        have h1 : (allocateStep env oid e i a).stockEntries.find e.ID
            = some { e with RemainingQuantity :=
                e.RemainingQuantity - min a.remainingToFulfill e.RemainingQuantity } := by
          rw [allocateStep_eq]; exact GoMap.find_put_self _ _ _
        obtain ⟨e', h2, h3, h4⟩ := ih (i + 1) _ hw' _ h1
        refine ⟨e', h2, ?_, ?_⟩
        · rw [h3]
        · rw [h4, allocateStep_eq]
          simp only
          rw [linesOf_append, totalQuantity_append]
          simp [linesOf, totalQuantity]
      · have h1 : (allocateStep env oid e0 i a).stockEntries.find k = some e := by
          rw [allocateStep_eq]
          show (a.stockEntries.put _ _).find k = some e
          rw [GoMap.find_put_ne _ _ hk]; exact he
        obtain ⟨e', h2, h3, h4⟩ := ih (i + 1) _ hw' _ h1
        refine ⟨e', h2, h3, ?_⟩
        rw [h4, allocateStep_eq]
        simp only
        rw [linesOf_append, totalQuantity_append]
        simp [linesOf, totalQuantity, hk]

theorem ledger_init : Ledger NewInventoryService where
  linesKeys := rfl
  outputID := by intro k o h; simp [NewInventoryService, GoMap.find] at h
  outputLogged := by intro k o h; simp [NewInventoryService, GoMap.find] at h
  entryRef := by intro t h; simp [NewInventoryService] at h
  outputRef := by intro t h; simp [NewInventoryService] at h
  lineRef := by intro kv h; simp [NewInventoryService] at h
  reconciled := by intro k e h; simp [NewInventoryService, GoMap.find] at h

/-- The ledger facts do not depend on the products. -/
theorem ledger_congr {s s' : InventoryService} (h1 : s'.stockEntries = s.stockEntries)
    (h2 : s'.stockOutputs = s.stockOutputs) (h3 : s'.outputLines = s.outputLines)
    (h4 : s'.transactions = s.transactions) (hl : Ledger s) : Ledger s' where
  linesKeys := by rw [h3, h2]; exact hl.linesKeys
  outputID := by rw [h2]; exact hl.outputID
  outputLogged := by rw [h2, h4]; exact hl.outputLogged
  entryRef := by rw [h4, h1]; exact hl.entryRef
  outputRef := by rw [h4, h2]; exact hl.outputRef
  lineRef := by rw [h3, h2, h1]; exact hl.lineRef
  reconciled := by
    rw [h1]
    have : allLines s' = allLines s := by unfold allLines; rw [h3]
    rw [this]; exact hl.reconciled

theorem ledger_recalculate (env : Env) {s : InventoryService} (pid : String)
    (hl : Ledger s) : Ledger (recalculateProductTotals env s pid) :=
  ledger_congr (recalculate_stockEntries _ _ _) (recalculate_stockOutputs _ _ _)
    (recalculate_outputLines _ _ _) (recalculate_transactions _ _ _) hl

/-- Writing a lot and logging receipts of it keeps the ledger facts, when a lot
replaced has the same product and consumed amount, and a new lot has nothing
consumed. -/
theorem ledger_put_lot {s : InventoryService} (hl : Ledger s) (id : String)
    (e' : StockEntry) (extra : List Transaction)
    (hold : ∀ e, s.stockEntries.find id = some e → e'.ProductID = e.ProductID ∧
      e'.Quantity - e'.RemainingQuantity = e.Quantity - e.RemainingQuantity)
    (hnew : s.stockEntries.find id = none → e'.Quantity - e'.RemainingQuantity = 0)
    (hextra : ∀ t ∈ extra, t.Type_ = .TransactionTypeEntry ∧ t.ReferenceID = id) :
    Ledger { s with stockEntries := s.stockEntries.put id e'
                    transactions := s.transactions ++ extra } where
  linesKeys := hl.linesKeys
  outputID := hl.outputID
  outputLogged := by
    intro k o h
    obtain ⟨t, ht, hte⟩ := hl.outputLogged k o h
    exact ⟨t, List.mem_append_left _ ht, hte⟩
  entryRef := by
    intro t ht hty
    show (s.stockEntries.put id e').find t.ReferenceID ≠ none
    by_cases hk : id = t.ReferenceID
    · rw [← hk, GoMap.find_put_self]; simp
    · rw [GoMap.find_put_ne _ _ hk]
      rcases List.mem_append.1 ht with h | h
      · exact hl.entryRef t h hty
      · exact absurd (hextra t h).2.symm hk
  outputRef := by
    intro t ht hty
    rcases List.mem_append.1 ht with h | h
    · exact hl.outputRef t h hty
    · rw [(hextra t h).1] at hty; cases hty
  lineRef := by
    intro kv hkv l hlm
    obtain ⟨h1, o, e, ho, he, hp⟩ := hl.lineRef kv hkv l hlm
    refine ⟨h1, o, ?_⟩
    show ∃ e, s.stockOutputs.find kv.1 = some o ∧
      (s.stockEntries.put id e').find l.StockEntryID = some e ∧ e.ProductID = o.ProductID
    by_cases hk : id = l.StockEntryID
    · refine ⟨e', ho, by rw [← hk, GoMap.find_put_self], ?_⟩
      rw [← hk] at he
      rw [(hold e he).1]; exact hp
    · exact ⟨e, ho, by rw [GoMap.find_put_ne _ _ hk]; exact he, hp⟩
  reconciled := by
    intro k e h
    show e.Quantity - e.RemainingQuantity = totalQuantity (linesOf (allLines s) k)
    rcases GoMap.find_put_cases h with ⟨rfl, rfl⟩ | ⟨_, h'⟩
    · cases hs : s.stockEntries.find k with
      | some e0 => rw [(hold e0 hs).2]; exact hl.reconciled k e0 hs
      | none =>
        rw [hnew hs, linesOf_eq_nil]
        · rfl
        · intro l hlm heq
          obtain ⟨kv, hkv, hlkv⟩ := mem_allLines.1 hlm
          obtain ⟨_, o, e1, _, he1, _⟩ := hl.lineRef kv hkv l hlkv
          rw [heq, hs] at he1
          exact Option.noConfusion he1
    · exact hl.reconciled k e h'

theorem ledger_addStockEntry (env : Env) {s : InventoryService} (hl : Ledger s)
    (hf : env.uuid 0 ∉ s.stockEntries.keys) (productID : String) (quantity unitPrice : ℚ)
    (entryDate : Time) (notes : Option String) :
    Ledger (AddStockEntry env s productID quantity unitPrice entryDate notes).2 := by
  unfold AddStockEntry
  cases s.products.find productID with
  | none => exact hl
  | some p0 =>
    have hnone : s.stockEntries.find (env.uuid 0) = none := (GoMap.find_eq_none_iff _ _).2 hf
    dsimp only
    apply ledger_recalculate
    refine ledger_put_lot hl (env.uuid 0) _ [_] ?_ ?_ ?_
    · intro e he; rw [hnone] at he; exact Option.noConfusion he
    · intro _; exact sub_self _
    · intro t ht; rw [List.mem_singleton.1 ht]; exact ⟨rfl, rfl⟩

theorem ledger_updateStockEntry (env : Env) {s : InventoryService} (hl : Ledger s)
    (id : String) (unitPrice : ℚ) (entryDate : Time) (notes : Option String)
    (quantity : Option ℚ) :
    Ledger (UpdateStockEntry env s id unitPrice entryDate notes quantity).2 := by
  unfold UpdateStockEntry
  cases he : s.stockEntries.find id with
  | none => exact hl
  | some e0 =>
    have key : ∀ e' : StockEntry, e'.ProductID = e0.ProductID →
        e'.Quantity - e'.RemainingQuantity = e0.Quantity - e0.RemainingQuantity →
        Ledger (recalculateProductTotals env
          { s with stockEntries := s.stockEntries.put id e' } e'.ProductID) := by
      intro e' h1 h2
      apply ledger_recalculate
      have := ledger_put_lot hl id e' []
        (fun e h => by rw [he] at h; rw [← Option.some.inj h]; exact ⟨h1, h2⟩)
        (fun h => by rw [he] at h; exact Option.noConfusion h)
        (fun t ht => by simp at ht)
      simpa using this
    cases quantity with
    | none =>
      dsimp only
      exact key _ rfl rfl
    | some q =>
      dsimp only
      split
      · exact hl
      · rename_i e1 hok
        split at hok
        · simp at hok
        · have := Except.ok.inj hok
          subst this
          dsimp only
          exact key _ rfl (by dsimp only; ring)

theorem ledger_createStockOutput (env : Env) {s : InventoryService} (hi : Inv s)
    (hl : Ledger s) (hf : env.uuid 0 ∉ s.stockOutputs.keys) (productID : String)
    (quantity : ℚ) (outputDate : Time) (referenceNumber notes : Option String) :
    Ledger (CreateStockOutput env s productID quantity outputDate referenceNumber notes).2 := by
  unfold CreateStockOutput
  cases hp : s.products.find productID with
  | none => exact hl
  | some p0 =>
    dsimp only
    split
    · exact hl
    · have hw := walkable_availableEntries env hi productID
      have hfind := allocate_find env (env.uuid 0) (availableEntries env s productID) 0
        { stockEntries := s.stockEntries, remainingToFulfill := quantity,
          totalCost := 0, outputLines := [] } hw
      have hrec := allocate_reconcile env (env.uuid 0) (availableEntries env s productID) 0
        { stockEntries := s.stockEntries, remainingToFulfill := quantity,
          totalCost := 0, outputLines := [] } hw
      obtain ⟨new, taken, rest, hL, hlines, hdraw, _, _, _, _, _⟩ :=
        allocate_spec env (env.uuid 0) (availableEntries env s productID) 0
          { stockEntries := s.stockEntries, remainingToFulfill := quantity,
            totalCost := 0, outputLines := [] } hw
      simp only [List.nil_append] at hlines
      generalize allocate env (env.uuid 0) (availableEntries env s productID) 0
        { stockEntries := s.stockEntries, remainingToFulfill := quantity,
          totalCost := 0, outputLines := [] } = fin at hfind hrec hlines hdraw ⊢
      have hwl : env.uuid 0 ∉ s.outputLines.keys := by rw [hl.linesKeys]; exact hf
      have hkeep : ∀ k e, s.stockEntries.find k = some e →
          ∃ e', fin.stockEntries.find k = some e' ∧ e'.ProductID = e.ProductID := by
        intro k e he
        obtain ⟨e', h1, h2, _⟩ := hrec k e he
        exact ⟨e', h1, by rw [h2]⟩
      dsimp only
      apply ledger_recalculate
      exact
        { linesKeys := by
            show (s.outputLines.put _ _).keys = (s.stockOutputs.put _ _).keys
            rw [GoMap.keys_put, GoMap.keys_put, hl.linesKeys]
          outputID := by
            intro k o h
            rcases GoMap.find_put_cases h with ⟨rfl, rfl⟩ | ⟨_, h'⟩
            · rfl
            · exact hl.outputID k o h'
          outputLogged := by
            intro k o h
            rcases GoMap.find_put_cases h with ⟨rfl, rfl⟩ | ⟨_, h'⟩
            · exact ⟨_, List.mem_append_right _ (List.mem_singleton_self _), rfl⟩
            · obtain ⟨t, ht, hte⟩ := hl.outputLogged k o h'
              exact ⟨t, List.mem_append_left _ ht, hte⟩
          entryRef := by
            intro t ht hty
            rcases List.mem_append.1 ht with h | h
            · cases he : s.stockEntries.find t.ReferenceID with
              | none => exact absurd he (hl.entryRef t h hty)
              | some e =>
                obtain ⟨e', h1, _⟩ := hkeep _ e he
                show fin.stockEntries.find t.ReferenceID ≠ none
                rw [h1]; simp
            · rw [List.mem_singleton.1 h] at hty; cases hty
          outputRef := by
            intro t ht hty
            show (s.stockOutputs.put _ _).find t.ReferenceID ≠ none
            by_cases hk : env.uuid 0 = t.ReferenceID
            · rw [← hk, GoMap.find_put_self]; simp
            · rw [GoMap.find_put_ne _ _ hk]
              rcases List.mem_append.1 ht with h | h
              · exact hl.outputRef t h hty
              · rw [List.mem_singleton.1 h] at hk; exact absurd rfl hk
          lineRef := by
            intro kv hkv l hlm
            have hkv' : kv ∈ s.outputLines ++ [(env.uuid 0, fin.outputLines)] := by
              rw [← GoMap.put_of_not_mem hwl]; exact hkv
            rcases List.mem_append.1 hkv' with h | h
            · obtain ⟨h1, o, e, ho, he, hpe⟩ := hl.lineRef kv h l hlm
              obtain ⟨e', he', hpe'⟩ := hkeep _ e he
              have hne : env.uuid 0 ≠ kv.1 := by
                intro heq
                exact hwl (heq ▸ List.mem_map.2 ⟨kv, h, rfl⟩)
              refine ⟨h1, o, e', ?_, he', by rw [hpe', hpe]⟩
              show (s.stockOutputs.put _ _).find kv.1 = some o
              rw [GoMap.find_put_ne _ _ hne]; exact ho
            · rw [List.mem_singleton.1 h] at hlm ⊢
              rw [hlines] at hlm
              obtain ⟨e, he, hd⟩ := forall₂_left hdraw l hlm
              have hem : e ∈ availableEntries env s productID := by
                rw [hL]; exact List.mem_append_left _ he
              refine ⟨hd.1, _,
                { e with RemainingQuantity := e.RemainingQuantity - l.Quantity },
                GoMap.find_put_self _ _ _, ?_, ?_⟩
              · rw [hd.2.1]; exact hd.2.2.2.2.2
              · exact (mem_availableEntries hi hem).2.1
          reconciled := by
            intro k e' h
            obtain ⟨e, h1, h2, _⟩ := hfind k e' h
            obtain ⟨e'', h3, _, h4⟩ := hrec k e h1
            have h5 : (fin.stockEntries.find k) = some e' := h
            rw [h3] at h5
            have := Option.some.inj h5
            subst this
            have hall : allLines
                { products := s.products, stockEntries := fin.stockEntries,
                  stockOutputs := s.stockOutputs.put (env.uuid 0)
                    { ID := env.uuid 0, ProductID := productID, TotalQuantity := quantity,
                      TotalCost := fin.totalCost, ReferenceNumber := referenceNumber,
                      OutputDate := outputDate, Notes := notes },
                  outputLines := s.outputLines.put (env.uuid 0) fin.outputLines,
                  transactions := s.transactions ++
                    [{ ID := env.uuid (fin.outputLines.length + 1),
                       Type_ := .TransactionTypeOutput, ProductID := productID,
                       Quantity := quantity, Date := outputDate,
                       ReferenceID := env.uuid 0, Notes := notes }] }
                = allLines s ++ fin.outputLines := by
              unfold allLines
              show (s.outputLines.put _ _).vals.flatten = _
              rw [GoMap.put_of_not_mem hwl]
              simp [GoMap.vals]
            rw [hall, linesOf_append, totalQuantity_append, ← hl.reconciled k e h1]
            have hq : e''.Quantity = e.Quantity := by rw [h2]
            simp only [linesOf, List.filter_nil, totalQuantity, List.map_nil, List.sum_nil,
              add_zero] at h4
            simp only [totalQuantity, linesOf]
            rw [hq]
            linarith }

/-- Every call keeps the ledger facts, given the invariant and fresh
identifiers. -/
theorem ledger_run (env : Env) (op : Op) {s : InventoryService} (hi : Inv s)
    (hl : Ledger s) (hf : env.Fresh s) : Ledger (op.run env s).2 := by
  cases op with
  | createProduct name sku description units =>
    refine ledger_congr ?_ ?_ ?_ ?_ hl <;>
      (simp only [Op.run, CreateProduct]; split <;> rfl)
  | updateProduct id name sku description units =>
    refine ledger_congr ?_ ?_ ?_ ?_ hl <;>
      (simp only [Op.run, UpdateProduct]
       cases s.products.find id with
       | none => rfl
       | some p => dsimp only; split <;> rfl)
  | deleteProduct id =>
    refine ledger_congr ?_ ?_ ?_ ?_ hl <;>
      (simp only [Op.run, DeleteProduct]
       cases s.products.find id with
       | none => rfl
       | some p => dsimp only; split <;> rfl)
  | addStockEntry productID quantity unitPrice entryDate notes =>
    exact ledger_addStockEntry env hl hf.2.1 productID quantity unitPrice entryDate notes
  | updateStockEntry id unitPrice entryDate notes quantity =>
    exact ledger_updateStockEntry env hl id unitPrice entryDate notes quantity
  | createStockOutput productID quantity outputDate referenceNumber notes =>
    exact ledger_createStockOutput env hi hl hf.2.2 productID quantity outputDate
      referenceNumber notes

/-- The ledger facts hold in every reachable state. -/
theorem ledger_of_reachable {s : InventoryService} (h : Reachable s) : Ledger s := by
  induction h with
  | init => exact ledger_init
  | step env op hr hf ih => exact ledger_run env op (inv_of_reachable hr) ih hf

/-- Referential integrity follows from the invariant and the ledger facts. -/
theorem referentialIntegrity_of {s : InventoryService} (hi : Inv s) (hl : Ledger s) :
    ReferentialIntegrity s := by
  refine ⟨?_, ?_, ?_, ?_⟩
  · intro k e he
    obtain ⟨t, ht, hte⟩ := hi.lotLogged k e he
    rw [← hte]; exact hi.logged t ht
  · intro k o ho
    obtain ⟨t, ht, hte⟩ := hl.outputLogged k o ho
    rw [← hte]; exact hi.logged t ht
  · intro t ht
    exact ⟨hi.logged t ht, hl.entryRef t ht, hl.outputRef t ht⟩
  · intro k lines hk l hlm
    obtain ⟨h1, o, e, ho, he, hp⟩ := hl.lineRef (k, lines) (GoMap.mem_of_find hk) l hlm
    exact ⟨h1, o, e, by rw [h1]; exact ho, he, hp⟩

theorem ledger_deleteProduct {s : InventoryService} (hl : Ledger s) (id : String) :
    Ledger (DeleteProduct s id).2 := by
  refine ledger_congr ?_ ?_ ?_ ?_ hl <;>
    (unfold DeleteProduct
     cases s.products.find id with
     | none => rfl
     | some p => dsimp only; split <;> rfl)

theorem allLines_scenarioW :
    linesOf (allLines scenarioW) "B" = [lineW "l2" "B" 5 7] := by
  rw [scenarioW_eq]
  simp [allLines, linesOf, GoMap.vals, lineW]

/-! ## float64: the laws of rounding -/

theorem halvings_spec (fuel n : Nat) (hn : 0 < n) (hf : n ≤ fuel) :
    2 ^ halvings fuel n ≤ n ∧ n < 2 ^ (halvings fuel n + 1) := by
  induction fuel generalizing n with
  | zero => omega
  | succ fuel ih =>
    unfold halvings
    by_cases h : n < 2
    · rw [if_pos h]
      have : n = 1 := by omega
      subst this
      simp
    · rw [if_neg h]
      obtain ⟨h1, h2⟩ := ih (n / 2) (by omega) (by omega)
      rw [pow_succ] at h2 ⊢
      rw [pow_succ, pow_succ]
      constructor <;> omega

theorem floorLog2_spec (n : Nat) (hn : 0 < n) :
    2 ^ floorLog2 n ≤ n ∧ n < 2 ^ (floorLog2 n + 1) :=
  halvings_spec n n hn le_rfl

theorem abs_eq_natAbs_div (x : ℚ) : |x| = (x.num.natAbs : ℚ) / (x.den : ℚ) := by
  rw [Nat.cast_natAbs, Int.cast_abs]
  conv_lhs => rw [← Rat.num_div_den x]
  rw [abs_div, Nat.abs_cast]

/-- The binary exponent `e` of `x` is the one with `2 ^ e ≤ |x| < 2 ^ (e + 1)`. -/
theorem exponent_spec (x : ℚ) (hx : x ≠ 0) :
    (2 : ℚ) ^ exponent x ≤ |x| ∧ |x| < (2 : ℚ) ^ (exponent x + 1) := by
  have hn : 0 < x.num.natAbs := Int.natAbs_pos.2 (Rat.num_ne_zero.2 hx)
  have hd : 0 < x.den := x.den_pos
  obtain ⟨a1, a2⟩ := floorLog2_spec _ hn
  obtain ⟨b1, b2⟩ := floorLog2_spec _ hd
  have a1' : (2 : ℚ) ^ floorLog2 x.num.natAbs ≤ (x.num.natAbs : ℚ) := by exact_mod_cast a1
  have a2' : (x.num.natAbs : ℚ) < (2 : ℚ) ^ (floorLog2 x.num.natAbs + 1) := by exact_mod_cast a2
  have b1' : (2 : ℚ) ^ floorLog2 x.den ≤ (x.den : ℚ) := by exact_mod_cast b1
  have b2' : (x.den : ℚ) < (2 : ℚ) ^ (floorLog2 x.den + 1) := by exact_mod_cast b2
  have hd' : (0 : ℚ) < x.den := by exact_mod_cast hd
  have h2 : (2 : ℚ) ≠ 0 := by norm_num
  have hk : ∀ j : ℤ, (2 : ℚ) ^ ((floorLog2 x.num.natAbs : ℤ) - (floorLog2 x.den : ℤ) + j)
      = (2 : ℚ) ^ floorLog2 x.num.natAbs / (2 : ℚ) ^ floorLog2 x.den * (2 : ℚ) ^ j := by
    intro j
    rw [zpow_add₀ h2, zpow_sub₀ h2, zpow_natCast, zpow_natCast]
  have hpb : (0 : ℚ) < (2 : ℚ) ^ floorLog2 x.den := by positivity
  have hpa : (0 : ℚ) < (2 : ℚ) ^ floorLog2 x.num.natAbs := by positivity
  unfold exponent
  dsimp only
  rw [abs_eq_natAbs_div]
  split_ifs with h
  · refine ⟨h, ?_⟩
    rw [hk 1, zpow_one, div_lt_iff₀ hd']
    calc (x.num.natAbs : ℚ) < (2 : ℚ) ^ (floorLog2 x.num.natAbs + 1) := a2'
      _ = (2 : ℚ) ^ floorLog2 x.num.natAbs / (2 : ℚ) ^ floorLog2 x.den * 2
            * (2 : ℚ) ^ floorLog2 x.den := by
          rw [pow_succ]; field_simp
      _ ≤ (2 : ℚ) ^ floorLog2 x.num.natAbs / (2 : ℚ) ^ floorLog2 x.den * 2 * (x.den : ℚ) := by
          apply mul_le_mul_of_nonneg_left b1'
          positivity
  · refine ⟨?_, ?_⟩
    · rw [sub_eq_add_neg, hk (-1), le_div_iff₀ hd']
      calc (2 : ℚ) ^ floorLog2 x.num.natAbs / (2 : ℚ) ^ floorLog2 x.den * (2 : ℚ) ^ (-1 : ℤ)
              * (x.den : ℚ)
          ≤ (2 : ℚ) ^ floorLog2 x.num.natAbs / (2 : ℚ) ^ floorLog2 x.den * (2 : ℚ) ^ (-1 : ℤ)
              * (2 : ℚ) ^ (floorLog2 x.den + 1) := by
            apply mul_le_mul_of_nonneg_left (le_of_lt b2')
            positivity
        _ = (2 : ℚ) ^ floorLog2 x.num.natAbs := by
            rw [pow_succ, zpow_neg, zpow_one]; field_simp
        _ ≤ (x.num.natAbs : ℚ) := a1'
    · rw [sub_add_cancel]
      exact not_le.1 h

theorem roundHalfEven_intCast (n : ℤ) : roundHalfEven (n : ℚ) = n := by
  unfold roundHalfEven
  simp

theorem roundHalfEven_cases (y : ℚ) :
    (roundHalfEven y = ⌊y⌋ ∧ (y - ⌊y⌋ < 1 / 2 ∨ (y - ⌊y⌋ = 1 / 2 ∧ ⌊y⌋ % 2 = 0))) ∨
    (roundHalfEven y = ⌊y⌋ + 1 ∧ (1 / 2 < y - ⌊y⌋ ∨ (y - ⌊y⌋ = 1 / 2 ∧ ⌊y⌋ % 2 = 1))) := by
  unfold roundHalfEven
  dsimp only
  split_ifs with h1 h2 h3
  · exact Or.inl ⟨rfl, Or.inl h1⟩
  · exact Or.inr ⟨rfl, Or.inl h2⟩
  · exact Or.inl ⟨rfl, Or.inr ⟨le_antisymm (not_lt.1 h2) (not_lt.1 h1), h3⟩⟩
  · exact Or.inr ⟨rfl, Or.inr ⟨le_antisymm (not_lt.1 h2) (not_lt.1 h1), by omega⟩⟩

theorem roundHalfEven_mono {x y : ℚ} (h : x ≤ y) : roundHalfEven x ≤ roundHalfEven y := by
  have hf : ⌊x⌋ ≤ ⌊y⌋ := Int.floor_mono h
  rcases roundHalfEven_cases x with ⟨hx, cx⟩ | ⟨hx, cx⟩ <;>
    rcases roundHalfEven_cases y with ⟨hy, cy⟩ | ⟨hy, cy⟩ <;> rw [hx, hy]
  · exact hf
  · omega
  · rcases lt_or_eq_of_le hf with hlt | heq
    · omega
    · exfalso
      have hc : (⌊x⌋ : ℚ) = ⌊y⌋ := by rw [heq]
      rcases cx with cx | ⟨cx, px⟩ <;> rcases cy with cy | ⟨cy, py⟩
      · linarith
      · linarith
      · linarith
      · omega
  · omega

theorem roundHalfEven_neg (x : ℚ) : roundHalfEven (-x) = - roundHalfEven x := by
  by_cases hi : (⌊x⌋ : ℚ) = x
  · rw [← hi, ← Int.cast_neg, roundHalfEven_intCast, roundHalfEven_intCast]
  · have hlt : (⌊x⌋ : ℚ) < x := lt_of_le_of_ne (Int.floor_le x) hi
    have hfl : ⌊-x⌋ = -⌊x⌋ - 1 := by
      rw [Int.floor_eq_iff]
      push_cast
      constructor
      · linarith [Int.lt_floor_add_one x]
      · linarith
    have hc : (⌊-x⌋ : ℚ) = -⌊x⌋ - 1 := by rw [hfl]; push_cast; ring
    rcases roundHalfEven_cases x with ⟨hx, cx⟩ | ⟨hx, cx⟩ <;>
      rcases roundHalfEven_cases (-x) with ⟨hy, cy⟩ | ⟨hy, cy⟩ <;> rw [hx, hy, hfl]
    · exfalso
      rw [hc] at cy
      rcases cx with cx | ⟨cx, px⟩ <;> rcases cy with cy | ⟨cy, py⟩
      · linarith
      · linarith
      · linarith
      · omega
    · ring
    · ring
    · exfalso
      rw [hc] at cy
      rcases cx with cx | ⟨cx, px⟩ <;> rcases cy with cy | ⟨cy, py⟩
      · linarith
      · linarith
      · linarith
      · omega

theorem exponent_neg (x : ℚ) : exponent (-x) = exponent x := by
  unfold exponent
  simp only [Rat.neg_num, Rat.neg_den, Int.natAbs_neg, abs_neg]

theorem round64_zero : round64 0 = 0 := by
  unfold round64
  simp

theorem round64_neg (x : ℚ) : round64 (-x) = - round64 x := by
  unfold round64
  by_cases h : x = 0
  · simp [h]
  · rw [if_neg h, if_neg (neg_ne_zero.2 h)]
    dsimp only
    rw [exponent_neg, neg_div, roundHalfEven_neg]
    push_cast
    ring

theorem round64_eq {x : ℚ} (h : x ≠ 0) :
    round64 x = roundHalfEven (x / 2 ^ (max (exponent x) (-1022) - 52))
      * 2 ^ (max (exponent x) (-1022) - 52) := by
  unfold round64
  rw [if_neg h]

theorem two_zpow_pos (j : ℤ) : (0 : ℚ) < 2 ^ j := by positivity

theorem two_zpow_le {m n : ℤ} (h : m ≤ n) : (2 : ℚ) ^ m ≤ 2 ^ n :=
  zpow_le_zpow_right₀ (by norm_num) h

theorem two_zpow_add (k : ℤ) (m : ℕ) : (2 : ℚ) ^ (k + (m : ℤ)) = 2 ^ m * 2 ^ k := by
  rw [zpow_add₀ (by norm_num : (2 : ℚ) ≠ 0), zpow_natCast, mul_comm]

/-- Rounding to a multiple of `2 ^ j` is monotone. -/
theorem roundTo_mono (j : ℤ) {x y : ℚ} (h : x ≤ y) :
    (roundHalfEven (x / 2 ^ j) : ℚ) * 2 ^ j ≤ roundHalfEven (y / 2 ^ j) * 2 ^ j := by
  apply mul_le_mul_of_nonneg_right _ (le_of_lt (two_zpow_pos j))
  exact_mod_cast roundHalfEven_mono (div_le_div_of_nonneg_right h (le_of_lt (two_zpow_pos j)))

/-- Rounding to a multiple of `2 ^ j` keeps the multiples of `2 ^ j`. -/
theorem roundTo_multiple (j : ℤ) (n : ℤ) :
    (roundHalfEven ((n : ℚ) * 2 ^ j / 2 ^ j) : ℚ) * 2 ^ j = n * 2 ^ j := by
  rw [mul_div_assoc, div_self (ne_of_gt (two_zpow_pos j)), mul_one, roundHalfEven_intCast]

theorem roundTo_pow (j : ℤ) (m : ℕ) :
    (roundHalfEven ((2 : ℚ) ^ (j + m) / 2 ^ j) : ℚ) * 2 ^ j = 2 ^ (j + m) := by
  have h : (2 : ℚ) ^ (j + m) = ((2 ^ m : ℤ) : ℚ) * 2 ^ j := by
    rw [zpow_add₀ (by norm_num), zpow_natCast]
    push_cast
    ring
  rw [h, roundTo_multiple]

theorem exponent_mono {x y : ℚ} (hx : 0 < x) (h : x ≤ y) : exponent x ≤ exponent y := by
  have hy : 0 < y := lt_of_lt_of_le hx h
  have h1 := (exponent_spec x (ne_of_gt hx)).1
  have h2 := (exponent_spec y (ne_of_gt hy)).2
  rw [abs_of_pos hx] at h1
  rw [abs_of_pos hy] at h2
  have : (2 : ℚ) ^ exponent x < 2 ^ (exponent y + 1) := lt_of_le_of_lt (le_trans h1 h) h2
  have := (zpow_lt_zpow_iff_right₀ (by norm_num : (1 : ℚ) < 2)).1 this
  omega

/-- A positive number rounds to at most the power of two above it. -/
theorem round64_le_pow {x : ℚ} (hx : 0 < x) :
    round64 x ≤ 2 ^ (max (exponent x) (-1022) + 1) := by
  rw [round64_eq (ne_of_gt hx)]
  have h2 := (exponent_spec x (ne_of_gt hx)).2
  rw [abs_of_pos hx] at h2
  have hle : x ≤ 2 ^ (max (exponent x) (-1022) - 52 + ((53 : ℕ) : ℤ)) := by
    refine le_trans (le_of_lt h2) (two_zpow_le ?_)
    have := le_max_left (exponent x) (-1022)
    push_cast
    omega
  have := roundTo_mono (max (exponent x) (-1022) - 52) hle
  rw [roundTo_pow] at this
  have he : max (exponent x) (-1022) - 52 + ((53 : ℕ) : ℤ) = max (exponent x) (-1022) + 1 := by
    push_cast; ring
  rw [he] at this
  exact this

/-- A positive normal number rounds to at least the power of two below it. -/
theorem pow_le_round64 {x : ℚ} (hx : 0 < x) (hn : -1022 ≤ exponent x) :
    2 ^ exponent x ≤ round64 x := by
  rw [round64_eq (ne_of_gt hx), max_eq_left hn]
  have h1 := (exponent_spec x (ne_of_gt hx)).1
  rw [abs_of_pos hx] at h1
  have he : exponent x - 52 + ((52 : ℕ) : ℤ) = exponent x := by push_cast; ring
  rw [← he] at h1
  have := roundTo_mono (exponent x - 52) h1
  rw [roundTo_pow, he] at this
  exact this

theorem round64_nonneg {x : ℚ} (hx : 0 ≤ x) : 0 ≤ round64 x := by
  rcases eq_or_lt_of_le hx with h | h
  · rw [← h, round64_zero]
  · rw [round64_eq (ne_of_gt h)]
    have := roundTo_mono (max (exponent x) (-1022) - 52) hx
    rw [zero_div] at this
    have h0 : roundHalfEven 0 = 0 := by exact_mod_cast roundHalfEven_intCast 0
    rw [h0] at this
    simpa using this

theorem round64_mono_pos {x y : ℚ} (hx : 0 < x) (h : x ≤ y) : round64 x ≤ round64 y := by
  have hy : 0 < y := lt_of_lt_of_le hx h
  have he := exponent_mono hx h
  rcases lt_or_eq_of_le (max_le_max he (le_refl (-1022 : ℤ))) with hlt | heq
  · have hn : -1022 < exponent y := by
      by_contra hc
      rw [max_eq_right (not_lt.1 hc)] at hlt
      exact absurd (le_max_right (exponent x) (-1022)) (not_le.2 hlt)
    have hmax : max (exponent y) (-1022) = exponent y := max_eq_left (le_of_lt hn)
    rw [hmax] at hlt
    calc round64 x ≤ 2 ^ (max (exponent x) (-1022) + 1) := round64_le_pow hx
      _ ≤ 2 ^ exponent y := two_zpow_le (by omega)
      _ ≤ round64 y := pow_le_round64 hy (le_of_lt hn)
  · rw [round64_eq (ne_of_gt hx), round64_eq (ne_of_gt hy), heq]
    exact roundTo_mono _ h

/-- Rounding to `float64` is monotone. -/
theorem round64_mono {x y : ℚ} (h : x ≤ y) : round64 x ≤ round64 y := by
  rcases lt_trichotomy 0 x with hx | hx | hx
  · exact round64_mono_pos hx h
  · rw [← hx, round64_zero]
    exact round64_nonneg (hx ▸ h)
  · rcases le_or_lt 0 y with hy | hy
    · have h1 : round64 x ≤ 0 := by
        have := round64_nonneg (le_of_lt (neg_pos.2 hx))
        rw [round64_neg] at this
        linarith
      exact le_trans h1 (round64_nonneg hy)
    · have := round64_mono_pos (neg_pos.2 hy) (neg_le_neg h)
      rw [round64_neg, round64_neg] at this
      linarith

/-- Rounding to `float64` keeps the multiples `n * 2 ^ k` with `|n| ≤ 2 ^ 53` and
`-1074 ≤ k`: the `float64` values, were the exponent bounded above. -/
theorem round64_multiple (n k : ℤ) (hn : |n| ≤ 2 ^ 53) (hk : -1074 ≤ k) :
    round64 ((n : ℚ) * 2 ^ k) = n * 2 ^ k := by
  by_cases h0 : (n : ℚ) * 2 ^ k = 0
  · rw [h0, round64_zero]
  · rw [round64_eq h0]
    obtain ⟨h1, -⟩ := exponent_spec _ h0
    rw [abs_mul, abs_of_pos (two_zpow_pos k)] at h1
    have hn' : |(n : ℚ)| ≤ 2 ^ (53 : ℕ) := by
      rw [← Int.cast_abs]
      exact_mod_cast hn
    generalize exponent ((n : ℚ) * 2 ^ k) = e at h1
    have hek : e ≤ k + 53 := by
      have : (2 : ℚ) ^ e < 2 ^ (k + 53 + 1) := by
        calc (2 : ℚ) ^ e ≤ |(n : ℚ)| * 2 ^ k := h1
          _ ≤ 2 ^ (53 : ℕ) * 2 ^ k := mul_le_mul_of_nonneg_right hn' (le_of_lt (two_zpow_pos k))
          _ = 2 ^ (k + 53) := (two_zpow_add k 53).symm
          _ < 2 ^ (k + 53 + 1) := (zpow_lt_zpow_iff_right₀ (by norm_num : (1 : ℚ) < 2)).2 (by omega)
      have := (zpow_lt_zpow_iff_right₀ (by norm_num : (1 : ℚ) < 2)).1 this
      omega
    by_cases hc : max e (-1022) - 52 ≤ k
    · obtain ⟨d, hd⟩ := Int.eq_ofNat_of_zero_le (sub_nonneg.2 hc)
      have hkd : k = max e (-1022) - 52 + (d : ℤ) := by omega
      have hm : (n : ℚ) * 2 ^ k = ((n * 2 ^ d : ℤ) : ℚ) * 2 ^ (max e (-1022) - 52) := by
        conv_lhs => rw [hkd, zpow_add₀ (by norm_num : (2 : ℚ) ≠ 0), zpow_natCast]
        push_cast
        ring
      rw [hm, roundTo_multiple]
    · have hmax : max e (-1022) = e := by
        apply max_eq_left
        by_contra hlt
        rw [max_eq_right (le_of_lt (not_le.1 hlt))] at hc
        omega
      rw [hmax] at hc ⊢
      have he : e = k + 53 := by omega
      subst he
      have hge : (2 : ℚ) ^ (53 : ℕ) ≤ |(n : ℚ)| := by
        have h2 : (2 : ℚ) ^ (k + 53) = 2 ^ (53 : ℕ) * 2 ^ k := two_zpow_add k 53
        rw [h2] at h1
        exact le_of_mul_le_mul_right h1 (two_zpow_pos k)
      have habs : |(n : ℚ)| = 2 ^ (53 : ℕ) := le_antisymm hn' hge
      have hk1 : k + 53 - 52 = k + 1 := by ring
      rw [hk1]
      have hcases : (n : ℚ) = 2 ^ (53 : ℕ) ∨ (n : ℚ) = -2 ^ (53 : ℕ) := by
        rcases abs_cases (n : ℚ) with ⟨h, -⟩ | ⟨h, -⟩
        · left; rw [← h, habs]
        · right; rw [← habs, h, neg_neg]
      have hm : (n : ℚ) * 2 ^ k = ((n / 2 : ℤ) : ℚ) * 2 ^ (k + 1) := by
        have hq : ((n / 2 : ℤ) : ℚ) = (n : ℚ) / 2 := by
          rcases hcases with h | h
          · have : n = 2 ^ 53 := by exact_mod_cast h
            subst this
            norm_num
          · have : n = -2 ^ 53 := by exact_mod_cast h
            subst this
            norm_num
        rw [hq, zpow_add₀ (by norm_num : (2 : ℚ) ≠ 0), zpow_one]
        ring
      rw [hm, roundTo_multiple]

/-- Rounding to `float64` twice is rounding once. -/
theorem round64_idem (x : ℚ) : round64 (round64 x) = round64 x := by
  by_cases h0 : x = 0
  · rw [h0, round64_zero, round64_zero]
  · rw [round64_eq h0]
    apply round64_multiple
    · obtain ⟨-, h2⟩ := exponent_spec x h0
      have hle : |x| ≤ 2 ^ (max (exponent x) (-1022) - 52 + ((53 : ℕ) : ℤ)) := by
        refine le_trans (le_of_lt h2) (two_zpow_le ?_)
        have := le_max_left (exponent x) (-1022)
        push_cast
        omega
      obtain ⟨ha, hb⟩ := abs_le.1 hle
      have hb' := roundTo_mono (max (exponent x) (-1022) - 52) hb
      rw [roundTo_pow] at hb'
      have ha' := roundTo_mono (max (exponent x) (-1022) - 52) ha
      rw [neg_div, roundHalfEven_neg, Int.cast_neg, neg_mul, roundTo_pow] at ha'
      have hp := two_zpow_pos (max (exponent x) (-1022) - 52)
      rw [two_zpow_add] at ha' hb'
      have h1 := le_of_mul_le_mul_right hb' hp
      have h2 : -(2 : ℚ) ^ 53 ≤ roundHalfEven (x / 2 ^ (max (exponent x) (-1022) - 52)) := by
        rw [← neg_mul] at ha'
        exact le_of_mul_le_mul_right ha' hp
      rw [abs_le]
      constructor
      · exact_mod_cast h2
      · exact_mod_cast h1
    · have := le_max_right (exponent x) (-1022)
      omega

theorem roundHalfEven_near (y : ℚ) : |(roundHalfEven y : ℚ) - y| ≤ 1 / 2 := by
  have h1 := Int.floor_le y
  have h2 := Int.lt_floor_add_one y
  rw [abs_le]
  rcases roundHalfEven_cases y with ⟨h, c⟩ | ⟨h, c⟩ <;> rw [h] <;> push_cast <;>
    rcases c with c | ⟨c, -⟩ <;> constructor <;> linarith

/-- Rounding to `float64` moves a number by at most half a unit in the last
place. -/
theorem round64_near (x : ℚ) :
    |round64 x - x| ≤ 2 ^ (max (exponent x) (-1022) - 52) / 2 := by
  by_cases h0 : x = 0
  · rw [h0, round64_zero, sub_zero, abs_zero]
    positivity
  · rw [round64_eq h0]
    have hp := two_zpow_pos (max (exponent x) (-1022) - 52)
    have h := roundHalfEven_near (x / 2 ^ (max (exponent x) (-1022) - 52))
    have he : (roundHalfEven (x / 2 ^ (max (exponent x) (-1022) - 52)) : ℚ)
          * 2 ^ (max (exponent x) (-1022) - 52) - x
        = ((roundHalfEven (x / 2 ^ (max (exponent x) (-1022) - 52)) : ℚ)
            - x / 2 ^ (max (exponent x) (-1022) - 52))
          * 2 ^ (max (exponent x) (-1022) - 52) := by
      field_simp
    rw [he, abs_mul, abs_of_pos hp]
    calc _ ≤ 1 / 2 * (2 : ℚ) ^ (max (exponent x) (-1022) - 52) :=
          mul_le_mul_of_nonneg_right h (le_of_lt hp)
      _ = _ := by ring

/-! ## float64: lemmas on the aggregate recalculation -/

namespace F64

theorem fl_foldl_totals (fl : ℚ → ℚ) (pid : String) (l : List StockEntry) (acc : ℚ × ℚ) :
    l.foldl
      (fun acc entry =>
        if entry.ProductID = pid ∧ entry.RemainingQuantity > 0 then
          (fl (acc.1 + entry.RemainingQuantity),
           fl (acc.2 + fl (entry.RemainingQuantity * entry.UnitPrice)))
        else acc) acc
      = ((l.filter (fun e => e.ProductID = pid ∧ e.RemainingQuantity > 0)).foldl
            (fun a e => fl (a + e.RemainingQuantity)) acc.1,
         (l.filter (fun e => e.ProductID = pid ∧ e.RemainingQuantity > 0)).foldl
            (fun a e => fl (a + fl (e.RemainingQuantity * e.UnitPrice))) acc.2) := by
  induction l generalizing acc with
  | nil => simp
  | cons e l ih =>
    by_cases h : e.ProductID = pid ∧ e.RemainingQuantity > 0
    · simp only [List.foldl_cons, h, and_self, if_true, ih, List.filter_cons, decide_True]
    · simp only [List.foldl_cons, h, if_false, ih, List.filter_cons, decide_False]
      simp

theorem fl_accumulate_map {α : Type} (fl : ℚ → ℚ) (g : α → ℚ) (l : List α) :
    accumulate fl (l.map g) = l.foldl (fun a e => fl (a + g e)) 0 := by
  unfold accumulate
  rw [List.foldl_map]

/-- The positive lots of a product in the order in which a `range` loop visits
them. -/
theorem fl_visited_perm (env : Env) (m : GoMap StockEntry) (pid : String) :
    ((env.visit m.vals).filter
      (fun e => e.ProductID = pid ∧ e.RemainingQuantity > 0)).Perm (positiveLots m pid) :=
  (env.visit_perm _).filter _

/-- The product record `F64.recalculateProductTotals` stores. -/
theorem fl_recalculate_eq (fl : ℚ → ℚ) (env : Env) (s : InventoryService) (pid : String) :
    recalculateProductTotals fl env s pid =
      match s.products.find pid with
      | none => s
      | some p =>
        { s with products :=
            s.products.put pid (withTotals fl p
              ((env.visit s.stockEntries.vals).filter
                (fun e => e.ProductID = pid ∧ e.RemainingQuantity > 0)) env.now) } := by
  unfold recalculateProductTotals
  cases h : s.products.find pid with
  | none => rfl
  | some p => simp [fl_foldl_totals, withTotals, fl_accumulate_map]

theorem fl_recalculate_stockEntries (fl : ℚ → ℚ) (env : Env) (s : InventoryService)
    (pid : String) : (recalculateProductTotals fl env s pid).stockEntries = s.stockEntries := by
  rw [fl_recalculate_eq]; cases s.products.find pid <;> rfl

theorem fl_recalculate_stockOutputs (fl : ℚ → ℚ) (env : Env) (s : InventoryService)
    (pid : String) : (recalculateProductTotals fl env s pid).stockOutputs = s.stockOutputs := by
  rw [fl_recalculate_eq]; cases s.products.find pid <;> rfl

theorem fl_recalculate_outputLines (fl : ℚ → ℚ) (env : Env) (s : InventoryService)
    (pid : String) : (recalculateProductTotals fl env s pid).outputLines = s.outputLines := by
  rw [fl_recalculate_eq]; cases s.products.find pid <;> rfl

theorem fl_recalculate_transactions (fl : ℚ → ℚ) (env : Env) (s : InventoryService)
    (pid : String) : (recalculateProductTotals fl env s pid).transactions = s.transactions := by
  rw [fl_recalculate_eq]; cases s.products.find pid <;> rfl

theorem fl_recalculate_find_ne (fl : ℚ → ℚ) (env : Env) (s : InventoryService) {pid k : String}
    (h : pid ≠ k) :
    (recalculateProductTotals fl env s pid).products.find k = s.products.find k := by
  rw [fl_recalculate_eq]
  cases s.products.find pid with
  | none => rfl
  | some p => exact GoMap.find_put_ne _ _ h

theorem fl_recalculate_find_self (fl : ℚ → ℚ) (env : Env) (s : InventoryService)
    (pid : String) :
    (recalculateProductTotals fl env s pid).products.find pid =
      (s.products.find pid).map fun p =>
        withTotals fl p ((env.visit s.stockEntries.vals).filter
          (fun e => e.ProductID = pid ∧ e.RemainingQuantity > 0)) env.now := by
  rw [fl_recalculate_eq]
  cases h : s.products.find pid with
  | none => simpa using h
  | some p => simpa using GoMap.find_put_self _ _ _

theorem fl_recalculate_keys (fl : ℚ → ℚ) (env : Env) (s : InventoryService) (pid : String) :
    (recalculateProductTotals fl env s pid).products.keys = s.products.keys := by
  rw [fl_recalculate_eq]
  cases h : s.products.find pid with
  | none => rfl
  | some p =>
    show (s.products.put pid _).keys = _
    rw [GoMap.keys_put, if_pos (GoMap.mem_keys_of_find h)]

theorem fl_aggregated_withTotals (fl : ℚ → ℚ) (env : Env) (m : GoMap StockEntry) (p : Product) :
    Aggregated fl m (withTotals fl p ((env.visit m.vals).filter
      (fun e => e.ProductID = p.ID ∧ e.RemainingQuantity > 0)) env.now) :=
  ⟨_, fl_visited_perm env m p.ID, rfl, rfl⟩

/-- Writing a lot of another product leaves the list of a product's positive
lots as it was. -/
theorem fl_positiveLots_put_other (m : GoMap StockEntry) (id : String) (e' : StockEntry)
    (k : String) (hold : ∀ e, m.find id = some e → e.ProductID ≠ k)
    (hnew : e'.ProductID ≠ k) :
    positiveLots (m.put id e') k = positiveLots m k := by
  unfold positiveLots
  induction m with
  | nil => simp [GoMap.put, GoMap.vals, hnew]
  | cons kv m ih =>
    obtain ⟨k', v'⟩ := kv
    by_cases h : k' = id
    · subst h
      have h1 : v'.ProductID ≠ k := hold v' (by simp [GoMap.find])
      simp [GoMap.put, GoMap.vals, List.filter_cons, h1, hnew]
    · have ih' := ih (fun e he => hold e (by simpa [GoMap.find, h] using he))
      simp only [GoMap.vals] at ih'
      simp only [GoMap.put, GoMap.vals, h, if_false, List.map_cons, List.filter_cons, ih']

theorem fl_aggregated_congr (fl : ℚ → ℚ) {m m' : GoMap StockEntry} {p : Product}
    (h : positiveLots m' p.ID = positiveLots m p.ID) (hp : Aggregated fl m p) :
    Aggregated fl m' p := by
  unfold Aggregated at *
  rw [h]; exact hp

end F64

/-! ## float64: lemmas on the allocation loop -/

namespace F64

theorem fl_allocate_nil (fl : ℚ → ℚ) (env : Env) (oid : String) (i : Nat) (a : Allocation) :
    allocate fl env oid [] i a = a := rfl

theorem fl_allocate_done (fl : ℚ → ℚ) (env : Env) (oid : String) (L : List StockEntry) (i : Nat)
    (a : Allocation) (h : a.remainingToFulfill ≤ 0) : allocate fl env oid L i a = a := by
  cases L with
  | nil => rfl
  | cons e L => simp [allocate, h]

theorem fl_allocate_cons (fl : ℚ → ℚ) (env : Env) (oid : String) (e : StockEntry)
    (L : List StockEntry) (i : Nat) (a : Allocation) (h : 0 < a.remainingToFulfill) :
    allocate fl env oid (e :: L) i a
      = allocate fl env oid L (i + 1) (allocateStep fl env oid e i a) := by
  simp [allocate, not_le.2 h]

theorem fl_allocateStep_eq (fl : ℚ → ℚ) (env : Env) (oid : String) (e : StockEntry) (i : Nat)
    (a : Allocation) :
    allocateStep fl env oid e i a =
      { stockEntries := a.stockEntries.put e.ID
          { e with RemainingQuantity :=
              (fl (e.RemainingQuantity - min a.remainingToFulfill e.RemainingQuantity)) }
        remainingToFulfill :=
          (fl (a.remainingToFulfill - min a.remainingToFulfill e.RemainingQuantity))
        totalCost :=
          (fl (a.totalCost + fl (min a.remainingToFulfill e.RemainingQuantity * e.UnitPrice)))
        outputLines := a.outputLines ++
          [{ ID := env.uuid (i + 1), StockOutputID := oid, StockEntryID := e.ID,
             Quantity := min a.remainingToFulfill e.RemainingQuantity,
             UnitPrice := e.UnitPrice }] } := by
  unfold allocateStep
  by_cases h : a.remainingToFulfill > e.RemainingQuantity
  · simp [h, min_eq_right (le_of_lt h)]
  · simp [h, min_eq_left (not_lt.1 h)]

/-- The loop leaves the keys of the ledger as they are. -/
theorem fl_allocate_keys (fl : ℚ → ℚ) (env : Env) (oid : String) (L : List StockEntry) (i : Nat)
    (a : Allocation) (hw : Walkable L a.stockEntries) :
    (allocate fl env oid L i a).stockEntries.keys = a.stockEntries.keys := by
  induction L generalizing i a with
  | nil => rfl
  | cons e L ih =>
    by_cases hr : a.remainingToFulfill ≤ 0
    · rw [fl_allocate_done _ _ _ _ _ _ hr]
    · rw [fl_allocate_cons _ _ _ _ _ _ _ (not_le.1 hr), ih]
      · rw [fl_allocateStep_eq]
        show (a.stockEntries.put e.ID _).keys = _
        rw [GoMap.keys_put,
          if_pos (GoMap.mem_keys_of_find (hw.stored e (List.mem_cons_self _ _)))]
      · rw [fl_allocateStep_eq]; exact hw.tail _

/-- What the allocation loop does in `float64` arithmetic: the lines it adds
draw, in order, on a prefix `taken` of the walked lots; no other stored lot
changes; what remains to fulfil is the request with the quantities of the lines
subtracted one after another, and the loop stops only when that is not
positive or no lot is left; the total cost is accumulated line by line. -/
theorem fl_allocate_spec (fl : ℚ → ℚ) (env : Env) (oid : String) (L : List StockEntry) (i : Nat)
    (a : Allocation) (hw : Walkable L a.stockEntries) :
    ∃ (new : List StockOutputLine) (taken rest : List StockEntry),
      L = taken ++ rest ∧
      (allocate fl env oid L i a).outputLines = a.outputLines ++ new ∧
      List.Forall₂ (Draws fl oid (allocate fl env oid L i a).stockEntries) new taken ∧
      (∀ k, k ∉ taken.map (fun e => e.ID) →
        (allocate fl env oid L i a).stockEntries.find k = a.stockEntries.find k) ∧
      (allocate fl env oid L i a).remainingToFulfill
        = unallocated fl a.remainingToFulfill new ∧
      (allocate fl env oid L i a).totalCost
        = new.foldl (fun c l => fl (c + fl (l.Quantity * l.UnitPrice))) a.totalCost ∧
      (new ≠ [] → 0 < a.remainingToFulfill) ∧
      (rest = [] ∨ (allocate fl env oid L i a).remainingToFulfill ≤ 0) ∧
      Takes fl a.remainingToFulfill new taken ∧
      (∀ (g : StockEntry → ℚ) (c : ℚ),
        (∀ e ∈ L, ∀ r : ℚ,
          g { e with RemainingQuantity := r } = g e - c * (e.RemainingQuantity - r)) →
        (((allocate fl env oid L i a).stockEntries.vals.map g).sum : ℚ)
          = (a.stockEntries.vals.map g).sum
            - c * ((new.zip taken).map (fun p =>
                p.2.RemainingQuantity - fl (p.2.RemainingQuantity - p.1.Quantity))).sum) := by
  induction L generalizing i a with
  | nil =>
    exact ⟨[], [], [], rfl, by simp [fl_allocate_nil], List.Forall₂.nil,
      fun _ _ => rfl, by simp [fl_allocate_nil, unallocated],
      by simp [fl_allocate_nil], fun h => absurd rfl h, Or.inl rfl, by simp [Takes],
      fun _ _ _ => by simp [fl_allocate_nil]⟩
  | cons e L ih =>
    by_cases hr : a.remainingToFulfill ≤ 0
    · rw [fl_allocate_done _ _ _ _ _ _ hr]
      exact ⟨[], [], e :: L, rfl, by simp, List.Forall₂.nil,
        fun _ _ => rfl, by simp [unallocated], by simp,
        fun h => absurd rfl h, Or.inr hr, by simp [Takes], fun _ _ _ => by simp⟩
    · have hpos : 0 < a.remainingToFulfill := not_le.1 hr
      have he := hw.stored e (List.mem_cons_self _ _)
      have hepos := hw.positive e (List.mem_cons_self _ _)
      have hw' : Walkable L (allocateStep fl env oid e i a).stockEntries := by
        rw [fl_allocateStep_eq]; exact hw.tail _
      rw [fl_allocate_cons _ _ _ _ _ _ _ hpos]
      obtain ⟨new, taken, rest, hL, hlines, hdraw, hframe, hqty, hcost, hne, hstop, htakes,
          hsum⟩ :=
        ih (i + 1) (allocateStep fl env oid e i a) hw'
      have hnotin : e.ID ∉ taken.map (fun e => e.ID) := by
        have := hw.distinct
        simp only [List.map_cons, List.nodup_cons, hL, List.map_append, List.mem_append,
          not_or] at this
        exact this.1.1
      have hq0 : 0 < min a.remainingToFulfill e.RemainingQuantity := lt_min hpos hepos
      refine ⟨{ ID := env.uuid (i + 1), StockOutputID := oid, StockEntryID := e.ID,
                Quantity := min a.remainingToFulfill e.RemainingQuantity,
                UnitPrice := e.UnitPrice } :: new, e :: taken, rest, by simp [hL], ?_,
              List.Forall₂.cons ⟨rfl, rfl, rfl, hq0, min_le_right _ _, ?_⟩ hdraw, ?_, ?_,
              ?_, fun _ => hpos, hstop, ?_, ?_⟩
      · rw [hlines, fl_allocateStep_eq]; simp
      · rw [hframe _ hnotin, fl_allocateStep_eq]
        exact GoMap.find_put_self _ _ _
      · intro k hk
        simp only [List.map_cons, List.mem_cons, not_or] at hk
        rw [hframe k hk.2, fl_allocateStep_eq]
        exact GoMap.find_put_ne _ _ (fun h => hk.1 h.symm)
      · rw [hqty, fl_allocateStep_eq]
        simp [unallocated]
      · rw [hcost, fl_allocateStep_eq]
        simp
      · rw [fl_allocateStep_eq] at htakes
        simp only [Takes]
        exact ⟨hpos, trivial, htakes⟩
      · intro g c hg
        rw [hsum g c (fun x hx => hg x (List.mem_cons_of_mem _ hx)), fl_allocateStep_eq]
        simp only
        rw [GoMap.sum_put g hw.keys, he, hg e (List.mem_cons_self _ _)]
        simp only [Option.map_some', Option.getD_some, List.zip_cons_cons, List.map_cons,
          List.sum_cons]
        ring

/-- The loop leaves the list of the positive lots of any other product as it
was. -/
theorem fl_allocate_positiveLots_other (fl : ℚ → ℚ) (env : Env) (oid : String)
    (L : List StockEntry) (i : Nat) (a : Allocation) (hw : Walkable L a.stockEntries)
    {pid k : String} (hL : ∀ e ∈ L, e.ProductID = pid) (hk : pid ≠ k) :
    positiveLots (allocate fl env oid L i a).stockEntries k
      = positiveLots a.stockEntries k := by
  induction L generalizing i a with
  | nil => rfl
  | cons e L ih =>
    by_cases hr : a.remainingToFulfill ≤ 0
    · rw [fl_allocate_done _ _ _ _ _ _ hr]
    · have hw' : Walkable L (allocateStep fl env oid e i a).stockEntries := by
        rw [fl_allocateStep_eq]; exact hw.tail _
      have hek : e.ProductID ≠ k := by rw [hL e (List.mem_cons_self _ _)]; exact hk
      rw [fl_allocate_cons _ _ _ _ _ _ _ (not_le.1 hr),
        ih _ _ hw' (fun x hx => hL x (List.mem_cons_of_mem _ hx)), fl_allocateStep_eq]
      apply fl_positiveLots_put_other
      · intro e0 h0
        rw [hw.stored e (List.mem_cons_self _ _)] at h0
        rw [← Option.some.inj h0]; exact hek
      · exact hek

/-- A lot stored after the loop is a lot stored before it, with at most its
remaining quantity changed. -/
theorem fl_allocate_find (fl : ℚ → ℚ) (env : Env) (oid : String) (L : List StockEntry) (i : Nat)
    (a : Allocation) (hw : Walkable L a.stockEntries) (k : String) (e' : StockEntry)
    (h : (allocate fl env oid L i a).stockEntries.find k = some e') :
    ∃ e, a.stockEntries.find k = some e ∧
      e' = { e with RemainingQuantity := e'.RemainingQuantity } := by
  obtain ⟨new, taken, rest, hL, -, hdraw, hframe, -⟩ := fl_allocate_spec fl env oid L i a hw
  by_cases hk : k ∈ taken.map (fun e => e.ID)
  · obtain ⟨e, he, rfl⟩ := List.mem_map.1 hk
    obtain ⟨l, -, hd⟩ := forall₂_right hdraw e he
    have hst := hw.stored e (by rw [hL]; exact List.mem_append_left _ he)
    rw [hd.2.2.2.2.2] at h
    refine ⟨e, hst, ?_⟩
    rw [← Option.some.inj h]
  · rw [hframe k hk] at h
    exact ⟨e', h, rfl⟩

end F64

/-! ## float64: the invariant -/

namespace F64

theorem fl_inv_init (fl : ℚ → ℚ) : Inv fl NewInventoryService where
  productKeys := List.nodup_nil
  productID := by intro k p h; simp [NewInventoryService, GoMap.find] at h
  lotKeys := List.nodup_nil
  lotID := by intro k p h; simp [NewInventoryService, GoMap.find] at h
  logged := by intro t h; simp [NewInventoryService] at h
  lotLogged := by intro k p h; simp [NewInventoryService, GoMap.find] at h
  aggregate := by intro k p h; simp [NewInventoryService, GoMap.find] at h

/-- Recalculating the totals of `pid` establishes the invariant when all of it
but the aggregate of `pid` holds already. -/
theorem fl_inv_recalculate (fl : ℚ → ℚ) (env : Env) {s : InventoryService} (pid : String)
    (h1 : s.products.keys.Nodup)
    (h2 : ∀ k p, s.products.find k = some p → p.ID = k)
    (h3 : s.stockEntries.keys.Nodup)
    (h4 : ∀ k e, s.stockEntries.find k = some e → e.ID = k)
    (h5 : ∀ t ∈ s.transactions, s.products.find t.ProductID ≠ none)
    (h6 : ∀ k e, s.stockEntries.find k = some e →
      ∃ t ∈ s.transactions, t.ProductID = e.ProductID)
    (h7 : ∀ k p, pid ≠ k → s.products.find k = some p → Aggregated fl s.stockEntries p) :
    Inv fl (recalculateProductTotals fl env s pid) where
  productKeys := by rw [fl_recalculate_keys]; exact h1
  productID := by
    intro k p h
    by_cases hk : pid = k
    · subst hk
      rw [fl_recalculate_find_self] at h
      cases hp : s.products.find pid with
      | none => rw [hp] at h; simp at h
      | some p0 =>
        rw [hp] at h
        simp only [Option.map_some', Option.some.injEq] at h
        rw [← h]
        exact h2 pid p0 hp
    · rw [fl_recalculate_find_ne _ _ _ hk] at h
      exact h2 _ _ h
  lotKeys := by rw [fl_recalculate_stockEntries]; exact h3
  lotID := by rw [fl_recalculate_stockEntries]; exact h4
  logged := by
    rw [fl_recalculate_transactions]
    intro t ht
    by_cases hk : pid = t.ProductID
    · rw [← hk, fl_recalculate_find_self]
      have := h5 t ht
      rw [← hk] at this
      cases hp : s.products.find pid with
      | none => exact absurd hp this
      | some p0 => simp
    · rw [fl_recalculate_find_ne _ _ _ hk]; exact h5 t ht
  lotLogged := by
    rw [fl_recalculate_stockEntries, fl_recalculate_transactions]; exact h6
  aggregate := by
    rw [fl_recalculate_stockEntries]
    intro k p h
    by_cases hk : pid = k
    · subst hk
      rw [fl_recalculate_find_self] at h
      cases hp : s.products.find pid with
      | none => rw [hp] at h; simp at h
      | some p0 =>
        rw [hp] at h
        simp only [Option.map_some', Option.some.injEq] at h
        rw [← h]
        have := fl_aggregated_withTotals fl env s.stockEntries p0
        rw [h2 _ _ hp] at this
        exact this
    · rw [fl_recalculate_find_ne _ _ _ hk] at h
      exact h7 k p hk h

theorem fl_inv_createProduct (fl : ℚ → ℚ) (env : Env) {s : InventoryService} (hi : Inv fl s)
    (hf : env.uuid 0 ∉ s.products.keys) (name sku description : String)
    (units : Option String) :
    Inv fl (StockScribe.CreateProduct env s name sku description units).2 := by
  unfold StockScribe.CreateProduct
  split
  · exact hi
  · have hnone : s.products.find (env.uuid 0) = none := (GoMap.find_eq_none_iff _ _).2 hf
    dsimp only
    exact
      { productKeys := GoMap.nodup_keys_put hi.productKeys _ _
        productID := by
          intro k p h
          rcases GoMap.find_put_cases h with ⟨rfl, rfl⟩ | ⟨_, h'⟩
          · rfl
          · exact hi.productID k p h'
        lotKeys := hi.lotKeys
        lotID := hi.lotID
        logged := by
          intro t ht
          show (s.products.put _ _).find t.ProductID ≠ none
          by_cases hk : env.uuid 0 = t.ProductID
          · rw [← hk, GoMap.find_put_self]; simp
          · rw [GoMap.find_put_ne _ _ hk]; exact hi.logged t ht
        lotLogged := hi.lotLogged
        aggregate := by
          intro k p h
          rcases GoMap.find_put_cases h with ⟨rfl, rfl⟩ | ⟨_, h'⟩
          · have hnil : positiveLots s.stockEntries (env.uuid 0) = [] := by
              apply positiveLots_eq_nil hi.lotKeys
              intro k e hk heq
              obtain ⟨t, ht, hte⟩ := hi.lotLogged k e hk
              apply hi.logged t ht
              rw [hte, heq]; exact hnone
            show Aggregated fl s.stockEntries _
            refine ⟨[], ?_, ?_, ?_⟩
            · show List.Perm [] (positiveLots s.stockEntries (env.uuid 0))
              rw [hnil]
            · simp [accumulate]
            · simp
          · exact hi.aggregate k p h' }

/-- Replacing a product record by one with the same identifier and aggregate
fields keeps the invariant. -/
theorem fl_inv_put_product (fl : ℚ → ℚ) {s : InventoryService} (hi : Inv fl s) {id : String}
    {p0 p' : Product} (hp : s.products.find id = some p0) (h1 : p'.ID = p0.ID)
    (h2 : p'.CurrentStock = p0.CurrentStock) (h3 : p'.AverageCost = p0.AverageCost) :
    Inv fl { s with products := s.products.put id p' } := by
  have hfind : ∀ k p, (s.products.put id p').find k = some p →
      ∃ p1, s.products.find k = some p1 ∧ p.ID = p1.ID ∧
        p.CurrentStock = p1.CurrentStock ∧ p.AverageCost = p1.AverageCost := by
    intro k p h
    rcases GoMap.find_put_cases h with ⟨rfl, rfl⟩ | ⟨_, h'⟩
    · exact ⟨p0, hp, h1, h2, h3⟩
    · exact ⟨p, h', rfl, rfl, rfl⟩
  exact
    { productKeys := GoMap.nodup_keys_put hi.productKeys _ _
      productID := by
        intro k p h
        obtain ⟨p1, h1, h2, _⟩ := hfind k p h
        rw [h2]; exact hi.productID k p1 h1
      lotKeys := hi.lotKeys
      lotID := hi.lotID
      logged := by
        intro t ht
        show (s.products.put _ _).find t.ProductID ≠ none
        by_cases hk : id = t.ProductID
        · rw [← hk, GoMap.find_put_self]; simp
        · rw [GoMap.find_put_ne _ _ hk]; exact hi.logged t ht
      lotLogged := hi.lotLogged
      aggregate := by
        intro k p h
        obtain ⟨p1, h1, h2, h3, h4⟩ := hfind k p h
        have := hi.aggregate k p1 h1
        unfold Aggregated at this ⊢
        rw [h2, h3, h4]; exact this }

theorem fl_inv_updateProduct (fl : ℚ → ℚ) (env : Env) {s : InventoryService} (hi : Inv fl s)
    (id name sku description : String) (units : Option String) :
    Inv fl (StockScribe.UpdateProduct env s id name sku description units).2 := by
  unfold StockScribe.UpdateProduct
  cases hp : s.products.find id with
  | none => exact hi
  | some p0 =>
    simp only
    split
    · exact hi
    · exact fl_inv_put_product fl hi hp rfl rfl rfl

theorem fl_inv_deleteProduct (fl : ℚ → ℚ) {s : InventoryService} (hi : Inv fl s) (id : String) :
    Inv fl (StockScribe.DeleteProduct s id).2 := by
  unfold StockScribe.DeleteProduct
  cases hp : s.products.find id with
  | none => exact hi
  | some p0 =>
    simp only
    split
    · exact hi
    · rename_i hany
      have hfind : ∀ k p, (s.products.del id).find k = some p → s.products.find k = some p := by
        intro k p h
        by_cases hk : id = k
        · subst hk; rw [GoMap.find_del_self] at h; simp at h
        · rwa [GoMap.find_del_ne _ hk] at h
      exact
        { productKeys := GoMap.nodup_keys_del hi.productKeys _
          productID := fun k p h => hi.productID k p (hfind k p h)
          lotKeys := hi.lotKeys
          lotID := hi.lotID
          logged := by
            intro t ht
            show (s.products.del id).find t.ProductID ≠ none
            have hk : id ≠ t.ProductID := by
              intro heq
              apply hany
              rw [List.any_eq_true]
              exact ⟨t, ht, by simp [heq]⟩
            rw [GoMap.find_del_ne _ hk]; exact hi.logged t ht
          lotLogged := hi.lotLogged
          aggregate := fun k p h => hi.aggregate k p (hfind k p h) }

/-- Writing a lot `e'` under `id`, logging `extra` transactions of its product and
recalculating that product keeps the invariant, when `e'` carries `id`, its
product exists and a lot replaced belongs to the same product. -/
theorem fl_inv_put_lot (fl : ℚ → ℚ) (env : Env) {s : InventoryService} (hi : Inv fl s)
    (id : String) (e' : StockEntry) (extra : List Transaction)
    (hp : s.products.find e'.ProductID ≠ none) (hID : e'.ID = id)
    (hold : ∀ e, s.stockEntries.find id = some e → e.ProductID = e'.ProductID)
    (hlog : (∃ e, s.stockEntries.find id = some e) ∨ ∃ t ∈ extra, t.ProductID = e'.ProductID)
    (hextra : ∀ t ∈ extra, t.ProductID = e'.ProductID) :
    Inv fl (recalculateProductTotals fl env
      { s with stockEntries := s.stockEntries.put id e'
               transactions := s.transactions ++ extra } e'.ProductID) := by
  apply fl_inv_recalculate
  · exact hi.productKeys
  · exact hi.productID
  · exact GoMap.nodup_keys_put hi.lotKeys _ _
  · intro k e h
    rcases GoMap.find_put_cases h with ⟨rfl, rfl⟩ | ⟨_, h'⟩
    · exact hID
    · exact hi.lotID k e h'
  · intro t ht
    rcases List.mem_append.1 ht with h | h
    · exact hi.logged t h
    · show s.products.find t.ProductID ≠ none
      rw [hextra t h]; exact hp
  · intro k e h
    rcases GoMap.find_put_cases h with ⟨rfl, rfl⟩ | ⟨_, h'⟩
    · rcases hlog with ⟨e0, h0⟩ | ⟨t, ht, hte⟩
      · obtain ⟨t, ht, hte⟩ := hi.lotLogged k e0 h0
        exact ⟨t, List.mem_append_left _ ht, by rw [hte, hold e0 h0]⟩
      · exact ⟨t, List.mem_append_right _ ht, hte⟩
    · obtain ⟨t, ht, hte⟩ := hi.lotLogged k e h'
      exact ⟨t, List.mem_append_left _ ht, hte⟩
  · intro k p hk h
    have hpk : p.ID = k := hi.productID k p h
    apply fl_aggregated_congr fl _ (hi.aggregate k p h)
    rw [hpk]
    apply fl_positiveLots_put_other
    · intro e he; rw [hold e he]; exact hk
    · exact hk

theorem fl_inv_addStockEntry (fl : ℚ → ℚ) (env : Env) {s : InventoryService} (hi : Inv fl s)
    (hf : env.uuid 0 ∉ s.stockEntries.keys) (productID : String) (quantity unitPrice : ℚ)
    (entryDate : Time) (notes : Option String) :
    Inv fl (AddStockEntry fl env s productID quantity unitPrice entryDate notes).2 := by
  unfold AddStockEntry
  cases hp : s.products.find productID with
  | none => exact hi
  | some p0 =>
    have hnone : s.stockEntries.find (env.uuid 0) = none := (GoMap.find_eq_none_iff _ _).2 hf
    dsimp only
    refine fl_inv_put_lot fl env hi (env.uuid 0) _ [_] ?_ rfl ?_ (Or.inr ⟨_, List.mem_singleton_self _, rfl⟩) ?_
    · show s.products.find productID ≠ none
      rw [hp]; simp
    · intro e he; rw [hnone] at he; simp at he
    · intro t ht; rw [List.mem_singleton.1 ht]

theorem fl_inv_updateStockEntry (fl : ℚ → ℚ) (env : Env) {s : InventoryService} (hi : Inv fl s)
    (id : String) (unitPrice : ℚ) (entryDate : Time) (notes : Option String)
    (quantity : Option ℚ) :
    Inv fl (UpdateStockEntry fl env s id unitPrice entryDate notes quantity).2 := by
  unfold UpdateStockEntry
  cases he : s.stockEntries.find id with
  | none => exact hi
  | some e0 =>
    have hprod : s.products.find e0.ProductID ≠ none := by
      obtain ⟨t, ht, hte⟩ := hi.lotLogged id e0 he
      rw [← hte]; exact hi.logged t ht
    have key : ∀ e' : StockEntry, e'.ID = e0.ID → e'.ProductID = e0.ProductID →
        Inv fl (recalculateProductTotals fl env
          { s with stockEntries := s.stockEntries.put id e' } e'.ProductID) := by
      intro e' h1 h2
      have := fl_inv_put_lot fl env hi id e' [] (by rw [h2]; exact hprod)
        (by rw [h1]; exact hi.lotID id e0 he)
        (fun e h => by rw [he] at h; rw [← Option.some.inj h, h2]) (Or.inl ⟨e0, he⟩)
        (fun t ht => by simp at ht)
      simpa using this
    cases quantity with
    | none =>
      dsimp only
      exact key _ rfl rfl
    | some q =>
      dsimp only
      split
      · rename_i e herr
        split at herr
        · dsimp only; exact hi
        · simp at herr
      · rename_i e1 hok
        split at hok
        · simp at hok
        · have := Except.ok.inj hok
          subst this
          dsimp only
          exact key _ rfl rfl

theorem fl_mem_availableEntries (fl : ℚ → ℚ) {env : Env} {s : InventoryService}
    (hi : Inv fl s) {pid : String} {e : StockEntry} (h : e ∈ availableEntries env s pid) :
    s.stockEntries.find e.ID = some e ∧ e.ProductID = pid ∧ 0 < e.RemainingQuantity :=
  mem_positiveLots hi.lotKeys hi.lotID ((availableEntries_perm env s pid).mem_iff.1 h)

theorem fl_walkable_availableEntries (fl : ℚ → ℚ) (env : Env) {s : InventoryService}
    (hi : Inv fl s) (pid : String) : Walkable (availableEntries env s pid) s.stockEntries where
  stored := fun _ he => (fl_mem_availableEntries fl hi he).1
  distinct := ((availableEntries_perm env s pid).map _).nodup_iff.2
    (positiveLots_nodup hi.lotKeys hi.lotID pid)
  positive := fun _ he => (fl_mem_availableEntries fl hi he).2.2
  keys := hi.lotKeys

theorem fl_inv_createStockOutput (fl : ℚ → ℚ) (env : Env) {s : InventoryService}
    (hi : Inv fl s) (productID : String) (quantity : ℚ) (outputDate : Time)
    (referenceNumber notes : Option String) :
    Inv fl
      (CreateStockOutput fl env s productID quantity outputDate referenceNumber notes).2 := by
  unfold CreateStockOutput
  cases hp : s.products.find productID with
  | none => exact hi
  | some p0 =>
    dsimp only
    split
    · exact hi
    · have hw := fl_walkable_availableEntries fl env hi productID
      have hfind := fl_allocate_find fl env (env.uuid 0) (availableEntries env s productID) 0
        { stockEntries := s.stockEntries, remainingToFulfill := quantity,
          totalCost := 0, outputLines := [] } hw
      dsimp only
      apply fl_inv_recalculate
      · exact hi.productKeys
      · exact hi.productID
      · show (allocate _ _ _ _ _ _).stockEntries.keys.Nodup
        rw [fl_allocate_keys _ _ _ _ _ _ hw]; exact hi.lotKeys
      · intro k e' h
        obtain ⟨e, h1, h2⟩ := hfind k e' h
        rw [h2]; exact hi.lotID k e h1
      · intro t ht
        rcases List.mem_append.1 ht with h | h
        · exact hi.logged t h
        · show s.products.find t.ProductID ≠ none
          rw [List.mem_singleton.1 h, hp]; simp
      · intro k e' h
        obtain ⟨e, h1, h2⟩ := hfind k e' h
        obtain ⟨t, ht, hte⟩ := hi.lotLogged k e h1
        exact ⟨t, List.mem_append_left _ ht, by rw [hte, h2]⟩
      · intro k p hk h
        have hpk : p.ID = k := hi.productID k p h
        apply fl_aggregated_congr fl _ (hi.aggregate k p h)
        rw [hpk]
        exact fl_allocate_positiveLots_other fl env _ _ _ _ hw
          (fun e he => (fl_mem_availableEntries fl hi he).2.1) hk

/-- Every call keeps the invariant, given fresh identifiers. -/
theorem fl_inv_run (fl : ℚ → ℚ) (env : Env) (op : Op) {s : InventoryService} (hi : Inv fl s)
    (hf : env.Fresh s) : Inv fl (run fl env s op).2 := by
  cases op with
  | createProduct name sku description units =>
    exact fl_inv_createProduct fl env hi hf.1 name sku description units
  | updateProduct id name sku description units =>
    exact fl_inv_updateProduct fl env hi id name sku description units
  | deleteProduct id => exact fl_inv_deleteProduct fl hi id
  | addStockEntry productID quantity unitPrice entryDate notes =>
    exact fl_inv_addStockEntry fl env hi hf.2.1 productID quantity unitPrice entryDate notes
  | updateStockEntry id unitPrice entryDate notes quantity =>
    exact fl_inv_updateStockEntry fl env hi id unitPrice entryDate notes quantity
  | createStockOutput productID quantity outputDate referenceNumber notes =>
    exact fl_inv_createStockOutput fl env hi productID quantity outputDate referenceNumber notes

/-- The invariant holds in every state reachable in `float64` arithmetic. -/
theorem fl_inv_of_reachable {fl : ℚ → ℚ} {s : InventoryService} (h : Reachable fl s) :
    Inv fl s := by
  induction h with
  | init => exact fl_inv_init fl
  | step env op _ hf ih => exact fl_inv_run fl env op ih hf

/-- A successful `F64.CreateStockOutput`, spelled out. -/
theorem fl_createStockOutput_ok {fl : ℚ → ℚ} {env : Env} {s : InventoryService} {pid : String}
    {q : ℚ} {date : Time} {ref notes : Option String} {out : StockOutput}
    (h : (CreateStockOutput fl env s pid q date ref notes).1 = .ok out) :
    (∃ p, s.products.find pid = some p ∧ q ≤ p.CurrentStock) ∧
    out.ID = env.uuid 0 ∧ out.TotalQuantity = q ∧
    out.TotalCost = (allocation fl env s pid q).totalCost ∧
    (CreateStockOutput fl env s pid q date ref notes).2.stockEntries
      = (allocation fl env s pid q).stockEntries ∧
    (CreateStockOutput fl env s pid q date ref notes).2.stockOutputs.find out.ID = some out ∧
    GetStockOutputLines (CreateStockOutput fl env s pid q date ref notes).2 out.ID
      = (allocation fl env s pid q).outputLines := by
  unfold CreateStockOutput at h ⊢
  cases hp : s.products.find pid with
  | none => rw [hp] at h; simp at h
  | some p =>
    rw [hp] at h
    dsimp only at h ⊢
    split at h
    · simp at h
    · rename_i hlt
      rw [if_neg hlt]
      have hout := (Except.ok.inj h).symm
      subst hout
      refine ⟨⟨p, rfl, not_lt.1 hlt⟩, rfl, rfl, rfl, ?_, ?_, ?_⟩
      · rw [fl_recalculate_stockEntries]; rfl
      · rw [fl_recalculate_stockOutputs]; exact GoMap.find_put_self _ _ _
      · unfold GetStockOutputLines
        rw [fl_recalculate_outputLines]
        show ((s.outputLines.put _ _).find _).getD [] = _
        rw [GoMap.find_put_self]; rfl

end F64

/-! ## float64: the scenarios, evaluated -/

theorem except_ok_of {α : Type} {r : Except Error α} {a : α} (h : r.toOption = some a) :
    r = .ok a := by
  cases r with
  | error e => simp [Except.toOption] at h
  | ok b => simp [Except.toOption] at h; rw [h]

namespace F64

theorem fl_reachable_scenarioP : Reachable round64 scenarioP :=
  Reachable.step (envOf (ids "P" "")) (.createProduct "Widget" "W-1" "" none) Reachable.init
    (by simp [Env.Fresh, NewInventoryService, GoMap.keys])

theorem fl_reachable_scenarioF1 : Reachable round64 scenarioF1 :=
  Reachable.step (envOf (ids "A" "tA")) (.addStockEntry "P" (tenths 1) 5 1 none)
    fl_reachable_scenarioP (by unfold Env.Fresh; decide!)

theorem fl_reachable_scenarioF12 : Reachable round64 scenarioF12 :=
  Reachable.step (envOf (ids "B" "tB")) (.addStockEntry "P" (tenths 2) 7 5 none)
    fl_reachable_scenarioF1 (by unfold Env.Fresh; decide!)

theorem fl_reachable_scenarioF123 : Reachable round64 scenarioF123 :=
  Reachable.step (envOf (ids "C" "tC")) (.addStockEntry "P" (tenths 3) 7 6 none)
    fl_reachable_scenarioF12 (by unfold Env.Fresh; decide!)

theorem fl_reachable_scenarioF1W : Reachable round64 scenarioF1W :=
  Reachable.step (envOf scenarioIds) (.createStockOutput "P" (tenths 1) 9 none none)
    fl_reachable_scenarioF1 (by unfold Env.Fresh; decide!)

theorem fl_reachable_scenarioF4 : Reachable round64 scenarioF4 :=
  Reachable.step (envOf (ids "A" "tA")) (.addStockEntry "P" (tenths 4) 5 1 none)
    fl_reachable_scenarioP (by unfold Env.Fresh; decide!)

theorem fl_reachable_scenarioF4W : Reachable round64 scenarioF4W :=
  Reachable.step (envOf scenarioIds) (.createStockOutput "P" (tenths 1) 9 none none)
    fl_reachable_scenarioF4 (by unfold Env.Fresh; decide!)

theorem fl_reachable_scenarioF3 : Reachable round64 scenarioF3 :=
  Reachable.step (envOf (ids "A" "tA")) (.addStockEntry "P" (tenths 3) 5 1 none)
    fl_reachable_scenarioP (by unfold Env.Fresh; decide!)

/-- On the whole numbers of the worked scenario `float64` arithmetic is exact:
the operations reach the same states. -/
theorem fl_scenarioA_eq :
    (AddStockEntry round64 (envOf (ids "A" "tA")) scenarioP "P" 10 5 1 none).2 = scenarioA := by
  decide!

theorem fl_scenarioB_eq :
    (AddStockEntry round64 (envOf (ids "B" "tB")) scenarioA "P" 10 7 5 none).2 = scenarioB := by
  decide!

theorem fl_scenarioN_eq :
    (AddStockEntry round64 (envOf (ids "N" "tN")) scenarioA "P" (-5) 7 5 none).2
      = scenarioN := by
  decide!

theorem fl_scenarioW_eq :
    CreateStockOutput round64 (envOf scenarioIds) scenarioB "P" 15 9 none none
      = (.ok outputW, scenarioW) :=
  Prod.ext (except_ok_of (by decide!)) (by decide!)

theorem fl_reachable_scenarioA : Reachable round64 scenarioA := by
  have h := Reachable.step (envOf (ids "A" "tA")) (.addStockEntry "P" 10 5 1 none)
    fl_reachable_scenarioP (by unfold Env.Fresh; decide!)
  rw [← fl_scenarioA_eq]; exact h

theorem fl_reachable_scenarioB : Reachable round64 scenarioB := by
  have h := Reachable.step (envOf (ids "B" "tB")) (.addStockEntry "P" 10 7 5 none)
    fl_reachable_scenarioA (by unfold Env.Fresh; decide!)
  rw [← fl_scenarioB_eq]; exact h

theorem fl_reachable_scenarioN : Reachable round64 scenarioN := by
  have h := Reachable.step (envOf (ids "N" "tN")) (.addStockEntry "P" (-5) 7 5 none)
    fl_reachable_scenarioA (by unfold Env.Fresh; decide!)
  rw [← fl_scenarioN_eq]; exact h

end F64

/-! ## float64: withdrawals without rounding -/

namespace F64

theorem fl_unallocated_cons (fl : ℚ → ℚ) (r : ℚ) (l : StockOutputLine)
    (lines : List StockOutputLine) :
    unallocated fl r (l :: lines) = unallocated fl (fl (r - l.Quantity)) lines := rfl

/-- When no subtraction from what remains to fulfil rounds, the lines take, in
all, the request less what is left of it; what is left is not negative, and
when it is positive every line has taken all its lot had. -/
theorem fl_takes_exact (fl : ℚ → ℚ) (r : ℚ) (lines : List StockOutputLine)
    (lots : List StockEntry) (ht : Takes fl r lines lots) (hx : ExactChain fl r lines)
    (hr : 0 ≤ r) :
    unallocated fl r lines = r - totalQuantity lines ∧ 0 ≤ unallocated fl r lines ∧
    (0 < unallocated fl r lines → totalQuantity lines = totalRemaining lots) := by
  induction lines generalizing r lots with
  | nil =>
    cases lots with
    | nil => simp [unallocated, totalQuantity, totalRemaining, hr]
    | cons e lots => simp [Takes] at ht
  | cons l lines ih =>
    cases lots with
    | nil => simp [Takes] at ht
    | cons e lots =>
      simp only [Takes] at ht
      simp only [ExactChain] at hx
      obtain ⟨hpos, hmin, ht'⟩ := ht
      obtain ⟨hx1, hx2⟩ := hx
      rw [hx1] at ht'
      have hle : l.Quantity ≤ r := by rw [hmin]; exact min_le_left _ _
      obtain ⟨h1, h2, h3⟩ := ih (r - l.Quantity) lots ht' hx2 (sub_nonneg.2 hle)
      rw [fl_unallocated_cons, hx1]
      refine ⟨?_, h2, ?_⟩
      · rw [h1]; simp only [totalQuantity, List.map_cons, List.sum_cons]; ring
      · intro h0
        have hq : l.Quantity = e.RemainingQuantity := by
          rcases min_choice r e.RemainingQuantity with h | h
          · exfalso
            have hz : r - l.Quantity = 0 := by rw [hmin, h]; ring
            rw [hz] at ht' h0
            cases lines with
            | nil =>
              simp [unallocated] at h0
            | cons l2 lines =>
              cases lots with
              | nil => simp [Takes] at ht'
              | cons e2 lots => simp [Takes] at ht'
          · rw [hmin, h]
        simp only [totalQuantity, totalRemaining, List.map_cons, List.sum_cons] at h3 ⊢
        rw [h3 h0, hq]

theorem fl_forall₂_zip {α β : Type} {R : α → β → Prop} {l₁ : List α} {l₂ : List β}
    (h : List.Forall₂ R l₁ l₂) : ∀ p ∈ l₁.zip l₂, R p.1 p.2 := by
  induction h with
  | nil => intro p hp; simp at hp
  | cons hab _ ih =>
    intro p hp
    rw [List.zip_cons_cons] at hp
    rcases List.mem_cons.1 hp with rfl | hp
    · exact hab
    · exact ih p hp

theorem fl_forall₂_right_zip {α β : Type} {R : α → β → Prop} {l₁ : List α} {l₂ : List β}
    (h : List.Forall₂ R l₁ l₂) : ∀ y ∈ l₂, ∃ x, (x, y) ∈ l₁.zip l₂ ∧ R x y := by
  induction h with
  | nil => intro y hy; simp at hy
  | cons hab _ ih =>
    intro y hy
    rw [List.zip_cons_cons]
    rcases List.mem_cons.1 hy with rfl | hy
    · exact ⟨_, List.mem_cons_self _ _, hab⟩
    · obtain ⟨x, hx, hr⟩ := ih y hy
      exact ⟨x, List.mem_cons_of_mem _ hx, hr⟩

theorem fl_zip_append_right {α β : Type} {l₁ : List α} {l₂ r₂ : List β}
    (h : l₁.length = l₂.length) : l₁.zip (l₂ ++ r₂) = l₁.zip l₂ := by
  induction l₁ generalizing l₂ with
  | nil => simp
  | cons a l₁ ih =>
    cases l₂ with
    | nil => simp at h
    | cons b l₂ =>
      simp only [List.length_cons, add_left_inj] at h
      simp [ih h]

/-- When no subtraction from a lot rounds, what the lots lose is what the lines
take. -/
theorem fl_drops_of_exact (fl : ℚ → ℚ) (lines : List StockOutputLine) (lots : List StockEntry)
    (hlen : lines.length = lots.length) (hx : ExactDraws fl lines lots) :
    ((lines.zip lots).map (fun p =>
      p.2.RemainingQuantity - fl (p.2.RemainingQuantity - p.1.Quantity))).sum
      = totalQuantity lines := by
  induction lines generalizing lots with
  | nil => simp [totalQuantity]
  | cons l lines ih =>
    cases lots with
    | nil => simp at hlen
    | cons e lots =>
      simp only [List.length_cons, add_left_inj] at hlen
      have h1 := hx (l, e) (by simp)
      have h2 : ExactDraws fl lines lots := by
        intro p hp
        exact hx p (by rw [List.zip_cons_cons]; exact List.mem_cons_of_mem _ hp)
      simp only [List.zip_cons_cons, List.map_cons, List.sum_cons, totalQuantity, ih lots hlen h2,
        h1]
      simp [totalQuantity]

/-- The lots of the product after a successful withdrawal, one by one: a lot is
as it was, or a line of the withdrawal has drawn on it. -/
theorem fl_allocation_lot (fl : ℚ → ℚ) (env : Env) {s : InventoryService} (hi : Inv fl s)
    (pid : String) (q : ℚ) (k : String) (e' : StockEntry)
    (h : (allocation fl env s pid q).stockEntries.find k = some e') :
    s.stockEntries.find k = some e' ∨
    ∃ l e, (l, e) ∈ (allocation fl env s pid q).outputLines.zip (availableEntries env s pid) ∧
      s.stockEntries.find k = some e ∧ l.StockEntryID = k ∧
      0 < l.Quantity ∧ l.Quantity ≤ e.RemainingQuantity ∧
      e' = { e with RemainingQuantity := fl (e.RemainingQuantity - l.Quantity) } := by
  have hw := fl_walkable_availableEntries fl env hi pid
  unfold allocation at h ⊢
  obtain ⟨new, taken, rest, hL, hlines, hdraw, hframe, -⟩ :=
    fl_allocate_spec fl env (env.uuid 0) (availableEntries env s pid) 0
      { stockEntries := s.stockEntries, remainingToFulfill := q,
        totalCost := 0, outputLines := [] } hw
  simp only [List.nil_append] at hlines
  by_cases hk : k ∈ taken.map (fun e => e.ID)
  · right
    obtain ⟨e, he, rfl⟩ := List.mem_map.1 hk
    obtain ⟨l, hz, hd⟩ := fl_forall₂_right_zip hdraw e he
    have hst := hw.stored e (by rw [hL]; exact List.mem_append_left _ he)
    rw [hd.2.2.2.2.2] at h
    refine ⟨l, e, ?_, hst, hd.2.1, hd.2.2.2.1, hd.2.2.2.2.1, (Option.some.inj h).symm⟩
    rw [hlines, hL, fl_zip_append_right hdraw.length_eq]
    exact hz
  · left
    rw [hframe k hk] at h
    exact h

end F64

/-! ## float64: calls that keep the quantities of lots exact -/

namespace F64

theorem fl_reachable_of_by {fl : ℚ → ℚ} {ok : Env → InventoryService → Op → Prop}
    {s : InventoryService} (h : ReachableBy fl ok s) : Reachable fl s := by
  induction h with
  | init => exact Reachable.init
  | step env op _ hf _ ih => exact Reachable.step env op ih hf

/-- The lots after `F64.CreateStockOutput` are the lots before it, or those the
allocation loop leaves. -/
theorem fl_createStockOutput_stockEntries (fl : ℚ → ℚ) (env : Env) (s : InventoryService)
    (pid : String) (q : ℚ) (date : Time) (ref notes : Option String) :
    (CreateStockOutput fl env s pid q date ref notes).2 = s ∨
    ((CreateStockOutput fl env s pid q date ref notes).2.stockEntries
        = (allocation fl env s pid q).stockEntries ∧
      (CreateStockOutput fl env s pid q date ref notes).2.stockOutputs
        = s.stockOutputs.put (env.uuid 0)
            { ID := env.uuid 0, ProductID := pid, TotalQuantity := q,
              TotalCost := (allocation fl env s pid q).totalCost, ReferenceNumber := ref,
              OutputDate := date, Notes := notes } ∧
      (CreateStockOutput fl env s pid q date ref notes).2.outputLines
        = s.outputLines.put (env.uuid 0) (allocation fl env s pid q).outputLines) := by
  unfold CreateStockOutput
  cases hp : s.products.find pid with
  | none => exact Or.inl rfl
  | some p =>
    dsimp only
    split
    · exact Or.inl rfl
    · right
      rw [fl_recalculate_stockEntries, fl_recalculate_stockOutputs, fl_recalculate_outputLines]
      exact ⟨rfl, rfl, rfl⟩

/-- The three operations on products leave lots, withdrawals and lines as they
are. -/
theorem fl_run_product_frame (fl : ℚ → ℚ) (env : Env) (s : InventoryService) (op : Op)
    (h : (∃ a b c d, op = .createProduct a b c d) ∨ (∃ a b c d e, op = .updateProduct a b c d e) ∨
      ∃ a, op = .deleteProduct a) :
    (run fl env s op).2.stockEntries = s.stockEntries ∧
    (run fl env s op).2.stockOutputs = s.stockOutputs ∧
    (run fl env s op).2.outputLines = s.outputLines := by
  rcases h with ⟨a, b, c, d, rfl⟩ | ⟨a, b, c, d, e, rfl⟩ | ⟨a, rfl⟩
  · simp only [run, StockScribe.CreateProduct]
    split <;> exact ⟨rfl, rfl, rfl⟩
  · simp only [run, StockScribe.UpdateProduct]
    cases s.products.find a with
    | none => exact ⟨rfl, rfl, rfl⟩
    | some p => dsimp only; split <;> exact ⟨rfl, rfl, rfl⟩
  · simp only [run, StockScribe.DeleteProduct]
    cases s.products.find a with
    | none => exact ⟨rfl, rfl, rfl⟩
    | some p => dsimp only; split <;> exact ⟨rfl, rfl, rfl⟩

/-- A call with exact edits keeps every lot within its bounds, with a remaining
quantity that is a `float64` value. -/
theorem fl_bounded_run (fl : ℚ → ℚ) (hfl : Rounding fl) (env : Env) (op : Op)
    {s : InventoryService} (hi : Inv fl s)
    (hb : ∀ k e, s.stockEntries.find k = some e →
      Bounded e ∧ fl e.RemainingQuantity = e.RemainingQuantity)
    (hx : ExactEdit fl env s op) :
    ∀ k e, (run fl env s op).2.stockEntries.find k = some e →
      Bounded e ∧ fl e.RemainingQuantity = e.RemainingQuantity := by
  cases op with
  | createProduct a b c d =>
    rw [(fl_run_product_frame fl env s _ (Or.inl ⟨a, b, c, d, rfl⟩)).1]; exact hb
  | updateProduct a b c d e =>
    rw [(fl_run_product_frame fl env s _ (Or.inr (Or.inl ⟨a, b, c, d, e, rfl⟩))).1]; exact hb
  | deleteProduct a =>
    rw [(fl_run_product_frame fl env s _ (Or.inr (Or.inr ⟨a, rfl⟩))).1]; exact hb
  | addStockEntry productID quantity unitPrice entryDate notes =>
    simp only [run, AddStockEntry]
    cases s.products.find productID with
    | none => exact hb
    | some p0 =>
      dsimp only
      rw [fl_recalculate_stockEntries]
      intro k e h
      rcases GoMap.find_put_cases h with ⟨rfl, rfl⟩ | ⟨_, h'⟩
      · refine ⟨⟨le_refl _, ?_⟩, hx⟩
        by_cases h0 : (0 : ℚ) ≤ quantity
        · exact Or.inl h0
        · exact Or.inr ⟨rfl, not_le.1 h0⟩
      · exact hb k e h'
  | updateStockEntry id unitPrice entryDate notes quantity =>
    simp only [run, UpdateStockEntry]
    cases he : s.stockEntries.find id with
    | none => exact hb
    | some e0 =>
      have hb0 := hb id e0 he
      cases quantity with
      | none =>
        dsimp only
        rw [fl_recalculate_stockEntries]
        intro k e h
        rcases GoMap.find_put_cases h with ⟨rfl, rfl⟩ | ⟨_, h'⟩
        · exact hb0
        · exact hb k e h'
      | some q =>
        simp only [ExactEdit, he] at hx
        obtain ⟨hxq, hx1, hx2⟩ := hx
        dsimp only
        split
        · rename_i e herr
          exact hb
        · rename_i e1 hok
          split at hok
          · simp at hok
          · rename_i hq
            have := Except.ok.inj hok
            subst this
            dsimp only
            rw [fl_recalculate_stockEntries]
            intro k e h
            rcases GoMap.find_put_cases h with ⟨rfl, rfl⟩ | ⟨_, h'⟩
            · rw [hx1] at hq
              have hq' := not_lt.1 hq
              unfold Bounded
              dsimp only
              rw [hx2]
              have hlo : 0 ≤ fl (e0.RemainingQuantity + (q - e0.Quantity)) := by
                have := hfl.mono 0 (e0.RemainingQuantity + (q - e0.Quantity)) (by linarith)
                rwa [hfl.zero] at this
              have hhi : fl (e0.RemainingQuantity + (q - e0.Quantity)) ≤ q := by
                have := hfl.mono (e0.RemainingQuantity + (q - e0.Quantity)) q
                  (by linarith [hb0.1.1])
                rwa [hxq] at this
              exact ⟨⟨hhi, Or.inl hlo⟩, hfl.idem _⟩
            · exact hb k e h'
  | createStockOutput productID quantity outputDate referenceNumber notes =>
    simp only [run]
    rcases fl_createStockOutput_stockEntries fl env s productID quantity outputDate
      referenceNumber notes with h | ⟨h, -⟩
    · rw [h]; exact hb
    · rw [h]
      intro k e' hk
      rcases fl_allocation_lot fl env hi productID quantity k e' hk with
        h1 | ⟨l, e, hz, h1, -, h2, h3, h4⟩
      · exact hb k e' h1
      · have hb0 := hb k e h1
        rw [h4]
        unfold Bounded
        dsimp only
        have hlo : 0 ≤ fl (e.RemainingQuantity - l.Quantity) := by
          have := hfl.mono 0 (e.RemainingQuantity - l.Quantity) (by linarith)
          rwa [hfl.zero] at this
        have hhi : fl (e.RemainingQuantity - l.Quantity) ≤ e.RemainingQuantity := by
          have := hfl.mono (e.RemainingQuantity - l.Quantity) e.RemainingQuantity (by linarith)
          rwa [hb0.2] at this
        exact ⟨⟨le_trans hhi hb0.1.1, Or.inl hlo⟩, hfl.idem _⟩

/-- In every state reached by calls with exact edits, every lot is within its
bounds. -/
theorem fl_bounded_of_reachableBy {fl : ℚ → ℚ} (hfl : Rounding fl) {s : InventoryService}
    (h : ReachableBy fl (ExactEdit fl) s) :
    ∀ k e, s.stockEntries.find k = some e →
      Bounded e ∧ fl e.RemainingQuantity = e.RemainingQuantity := by
  induction h with
  | init => intro k e h; simp [NewInventoryService, GoMap.find] at h
  | step env op hr hf hx ih =>
    exact fl_bounded_run fl hfl env op (fl_inv_of_reachable (fl_reachable_of_by hr)) ih hx

theorem fl_reconciled_init : Reconciled NewInventoryService where
  linesKeys := rfl
  lineRef := by intro kv h; simp [NewInventoryService] at h
  reconciled := by intro k e h; simp [NewInventoryService, GoMap.find] at h

theorem fl_reconciled_congr {s s' : InventoryService} (h1 : s'.stockEntries = s.stockEntries)
    (h2 : s'.stockOutputs = s.stockOutputs) (h3 : s'.outputLines = s.outputLines)
    (hl : Reconciled s) : Reconciled s' where
  linesKeys := by rw [h3, h2]; exact hl.linesKeys
  lineRef := by rw [h3, h1]; exact hl.lineRef
  reconciled := by
    rw [h1]
    have : allLines s' = allLines s := by unfold allLines; rw [h3]
    rw [this]; exact hl.reconciled

/-- Writing a lot keeps the reconciliation, when a lot replaced has the same
consumed amount and a new lot has nothing consumed. -/
theorem fl_reconciled_put_lot {s : InventoryService} (hl : Reconciled s) (id : String)
    (e' : StockEntry) (log : List Transaction)
    (hold : ∀ e, s.stockEntries.find id = some e →
      e'.Quantity - e'.RemainingQuantity = e.Quantity - e.RemainingQuantity)
    (hnew : s.stockEntries.find id = none → e'.Quantity - e'.RemainingQuantity = 0) :
    Reconciled { s with stockEntries := s.stockEntries.put id e', transactions := log } where
  linesKeys := hl.linesKeys
  lineRef := by
    intro kv hkv l hlm
    show (s.stockEntries.put id e').find l.StockEntryID ≠ none
    by_cases hk : id = l.StockEntryID
    · rw [← hk, GoMap.find_put_self]; simp
    · rw [GoMap.find_put_ne _ _ hk]; exact hl.lineRef kv hkv l hlm
  reconciled := by
    intro k e h
    show e.Quantity - e.RemainingQuantity = totalQuantity (linesOf (allLines s) k)
    rcases GoMap.find_put_cases h with ⟨rfl, rfl⟩ | ⟨_, h'⟩
    · cases hs : s.stockEntries.find k with
      | some e0 => rw [hold e0 hs]; exact hl.reconciled k e0 hs
      | none =>
        rw [hnew hs, linesOf_eq_nil]
        · rfl
        · intro l hlm heq
          obtain ⟨kv, hkv, hlkv⟩ := mem_allLines.1 hlm
          have := hl.lineRef kv hkv l hlkv
          rw [heq, hs] at this
          exact this rfl
    · exact hl.reconciled k e h'

/-- The lines that name a lot, among lines that draw one by one on lots with
distinct identifiers. -/
theorem fl_linesOf_drawn {new : List StockOutputLine} {taken : List StockEntry}
    (hdraw : List.Forall₂ (fun l e => l.StockEntryID = e.ID) new taken)
    (hnd : (taken.map (fun e => e.ID)).Nodup) :
    (∀ k, k ∉ taken.map (fun e => e.ID) → linesOf new k = []) ∧
    (∀ p ∈ new.zip taken, linesOf new p.2.ID = [p.1]) := by
  induction hdraw with
  | nil => exact ⟨fun _ _ => rfl, fun p hp => by simp at hp⟩
  | cons hab htl ih =>
    rename_i l e new taken
    simp only [List.map_cons, List.nodup_cons] at hnd
    obtain ⟨ih1, ih2⟩ := ih hnd.2
    constructor
    · intro k hk
      simp only [List.map_cons, List.mem_cons, not_or] at hk
      have hne : ¬ l.StockEntryID = k := by rw [hab]; exact fun h => hk.1 h.symm
      simp only [linesOf, List.filter_cons, hne, decide_False] at ih1 ⊢
      exact ih1 k hk.2
    · intro p hp
      rw [List.zip_cons_cons] at hp
      rcases List.mem_cons.1 hp with rfl | hp
      · have := ih1 e.ID hnd.1
        simp only [linesOf] at this
        simp [linesOf, List.filter_cons, hab, this]
      · have hmem : p.2.ID ∈ taken.map (fun e => e.ID) :=
          List.mem_map.2 ⟨p.2, (List.of_mem_zip hp).2, rfl⟩
        have hne : ¬ l.StockEntryID = p.2.ID := by
          rw [hab]; intro h; rw [h] at hnd; exact hnd.1 hmem
        have := ih2 p hp
        simp only [linesOf] at this
        simp [linesOf, List.filter_cons, hne, this]

/-- Through a withdrawal that subtracts from the lots without rounding, for
every lot the remaining quantity plus the quantities of the new lines that name
the lot stays the same. -/
theorem fl_allocation_reconcile (fl : ℚ → ℚ) (env : Env) {s : InventoryService}
    (hi : Inv fl s) (pid : String) (q : ℚ)
    (hx : ExactDraws fl (allocation fl env s pid q).outputLines (availableEntries env s pid)) :
    (∀ k e', (allocation fl env s pid q).stockEntries.find k = some e' →
      ∃ e, s.stockEntries.find k = some e ∧ e'.Quantity = e.Quantity ∧
        e'.RemainingQuantity + totalQuantity (linesOf (allocation fl env s pid q).outputLines k)
          = e.RemainingQuantity) ∧
    (∀ l ∈ (allocation fl env s pid q).outputLines,
      (allocation fl env s pid q).stockEntries.find l.StockEntryID ≠ none) ∧
    (∀ k, s.stockEntries.find k ≠ none →
      (allocation fl env s pid q).stockEntries.find k ≠ none) := by
  have hw := fl_walkable_availableEntries fl env hi pid
  unfold allocation at hx ⊢
  obtain ⟨new, taken, rest, hL, hlines, hdraw, hframe, -⟩ :=
    fl_allocate_spec fl env (env.uuid 0) (availableEntries env s pid) 0
      { stockEntries := s.stockEntries, remainingToFulfill := q,
        totalCost := 0, outputLines := [] } hw
  simp only [List.nil_append] at hlines
  have hkeys := fl_allocate_keys fl env (env.uuid 0) (availableEntries env s pid) 0
      { stockEntries := s.stockEntries, remainingToFulfill := q,
        totalCost := 0, outputLines := [] } hw
  rw [hlines] at hx ⊢
  generalize allocate fl env (env.uuid 0) (availableEntries env s pid) 0
      { stockEntries := s.stockEntries, remainingToFulfill := q,
        totalCost := 0, outputLines := [] } = fin at hdraw hframe hkeys ⊢
  unfold ExactDraws at hx
  rw [hL, fl_zip_append_right hdraw.length_eq] at hx
  have hnd : (taken.map (fun e => e.ID)).Nodup := by
    have := hw.distinct
    rw [hL, List.map_append] at this
    exact (List.nodup_append.1 this).1
  obtain ⟨hl1, hl2⟩ := fl_linesOf_drawn (forall₂_imp_mem hdraw fun _ _ _ _ h => h.2.1) hnd
  refine ⟨?_, ?_, ?_⟩
  · intro k e' hk
    by_cases hmem : k ∈ taken.map (fun e => e.ID)
    · obtain ⟨e, he, rfl⟩ := List.mem_map.1 hmem
      obtain ⟨l, hz, hd⟩ := fl_forall₂_right_zip hdraw e he
      have hst := hw.stored e (by rw [hL]; exact List.mem_append_left _ he)
      have hex := hx (l, e) hz
      dsimp only at hex
      rw [hd.2.2.2.2.2] at hk
      have := (Option.some.inj hk).symm
      subst this
      refine ⟨e, hst, rfl, ?_⟩
      rw [hl2 (l, e) hz]
      dsimp only
      rw [hex]
      simp [totalQuantity]
    · rw [hframe k hmem] at hk
      refine ⟨e', hk, rfl, ?_⟩
      rw [hl1 k hmem]
      simp [totalQuantity]
  · intro l hl
    obtain ⟨e, _, hd⟩ := forall₂_left hdraw l hl
    rw [hd.2.1, hd.2.2.2.2.2]
    simp
  · intro k hk
    rw [Ne, GoMap.find_eq_none_iff] at hk ⊢
    show ¬ k ∉ fin.stockEntries.keys
    rw [hkeys]
    exact hk

/-- A call that leaves exact remaining quantities keeps the reconciliation,
given the invariant and fresh identifiers. -/
theorem fl_reconciled_run (fl : ℚ → ℚ) (env : Env) (op : Op) {s : InventoryService}
    (hi : Inv fl s) (hl : Reconciled s) (hf : env.Fresh s)
    (hx : ExactRemaining fl env s op) :
    Reconciled (run fl env s op).2 := by
  cases op with
  | createProduct a b c d =>
    obtain ⟨h1, h2, h3⟩ := fl_run_product_frame fl env s _ (Or.inl ⟨a, b, c, d, rfl⟩)
    exact fl_reconciled_congr h1 h2 h3 hl
  | updateProduct a b c d e =>
    obtain ⟨h1, h2, h3⟩ :=
      fl_run_product_frame fl env s _ (Or.inr (Or.inl ⟨a, b, c, d, e, rfl⟩))
    exact fl_reconciled_congr h1 h2 h3 hl
  | deleteProduct a =>
    obtain ⟨h1, h2, h3⟩ := fl_run_product_frame fl env s _ (Or.inr (Or.inr ⟨a, rfl⟩))
    exact fl_reconciled_congr h1 h2 h3 hl
  | addStockEntry productID quantity unitPrice entryDate notes =>
    simp only [run, AddStockEntry]
    cases s.products.find productID with
    | none => exact hl
    | some p0 =>
      have hnone : s.stockEntries.find (env.uuid 0) = none :=
        (GoMap.find_eq_none_iff _ _).2 hf.2.1
      dsimp only
      refine fl_reconciled_congr (fl_recalculate_stockEntries _ _ _ _)
        (fl_recalculate_stockOutputs _ _ _ _) (fl_recalculate_outputLines _ _ _ _)
        (fl_reconciled_put_lot hl (env.uuid 0) _ _ ?_ ?_)
      · intro e he; rw [hnone] at he; exact Option.noConfusion he
      · intro _; exact sub_self _
  | updateStockEntry id unitPrice entryDate notes quantity =>
    simp only [run, UpdateStockEntry]
    cases he : s.stockEntries.find id with
    | none => exact hl
    | some e0 =>
      have key : ∀ e' : StockEntry,
          e'.Quantity - e'.RemainingQuantity = e0.Quantity - e0.RemainingQuantity →
          Reconciled (recalculateProductTotals fl env
            { s with stockEntries := s.stockEntries.put id e' } e'.ProductID) := by
        intro e' h2
        refine fl_reconciled_congr (fl_recalculate_stockEntries _ _ _ _)
          (fl_recalculate_stockOutputs _ _ _ _) (fl_recalculate_outputLines _ _ _ _) ?_
        exact fl_reconciled_put_lot hl id e' s.transactions
          (fun e h => by rw [he] at h; rw [← Option.some.inj h]; exact h2)
          (fun h => by rw [he] at h; exact Option.noConfusion h)
      cases quantity with
      | none =>
        dsimp only
        exact key _ rfl
      | some q =>
        simp only [ExactRemaining, he] at hx
        dsimp only
        split
        · exact hl
        · rename_i e1 hok
          split at hok
          · simp at hok
          · have := Except.ok.inj hok
            subst this
            dsimp only
            exact key _ (by dsimp only; rw [hx]; ring)
  | createStockOutput productID quantity outputDate referenceNumber notes =>
    simp only [run]
    rcases fl_createStockOutput_stockEntries fl env s productID quantity outputDate
      referenceNumber notes with h | ⟨h1, h2, h3⟩
    · rw [h]; exact hl
    · obtain ⟨hr1, hr2, hr3⟩ := fl_allocation_reconcile fl env hi productID quantity hx
      have hwl : env.uuid 0 ∉ s.outputLines.keys := by rw [hl.linesKeys]; exact hf.2.2
      have hall : allLines
          (CreateStockOutput fl env s productID quantity outputDate referenceNumber notes).2
          = allLines s ++ (allocation fl env s productID quantity).outputLines := by
        unfold allLines
        rw [h3, GoMap.put_of_not_mem hwl]
        simp [GoMap.vals]
      exact
        { linesKeys := by rw [h2, h3, GoMap.keys_put, GoMap.keys_put, hl.linesKeys]
          lineRef := by
            intro kv hkv l hlm
            rw [h3, GoMap.put_of_not_mem hwl] at hkv
            rw [h1]
            rcases List.mem_append.1 hkv with h | h
            · exact hr3 _ (hl.lineRef kv h l hlm)
            · rw [List.mem_singleton.1 h] at hlm
              exact hr2 l hlm
          reconciled := by
            intro k e' hk
            rw [h1] at hk
            obtain ⟨e, he, hq, hsum⟩ := hr1 k e' hk
            rw [hall, linesOf_append, totalQuantity_append, ← hl.reconciled k e he, hq]
            linarith }

/-- In every state reached by calls that leave exact remaining quantities, the
reconciliation holds. -/
theorem fl_reconciled_of_reachableBy {fl : ℚ → ℚ} {s : InventoryService}
    (h : ReachableBy fl (ExactRemaining fl) s) : Reconciled s := by
  induction h with
  | init => exact fl_reconciled_init
  | step env op hr hf hx ih =>
    exact fl_reconciled_run fl env op (fl_inv_of_reachable (fl_reachable_of_by hr)) ih
      hf hx

end F64

/-! ## float64: further scenarios, evaluated -/

namespace F64

theorem fl_reachable_scenarioF3E : Reachable round64 scenarioF3E :=
  Reachable.step (envOf (ids "X" "tX")) (.updateStockEntry "A" 5 1 none (some (tenths 9)))
    fl_reachable_scenarioF3 (by unfold Env.Fresh; decide!)

theorem fl_reachable_scenarioG1 : Reachable round64 scenarioG1 :=
  Reachable.step (envOf (ids "A" "tA")) (.addStockEntry "P" 4 5 1 none)
    fl_reachable_scenarioP (by unfold Env.Fresh; decide!)

theorem fl_reachable_scenarioG2 : Reachable round64 scenarioG2 :=
  Reachable.step (envOf (ids "X" "tX")) (.updateStockEntry "A" 5 1 none (some (tenths 78)))
    fl_reachable_scenarioG1 (by unfold Env.Fresh; decide!)

theorem fl_reachable_scenarioG3 : Reachable round64 scenarioG3 :=
  Reachable.step (envOf scenarioIds) (.createStockOutput "P" 4 9 none none)
    fl_reachable_scenarioG2 (by unfold Env.Fresh; decide!)

theorem fl_reachable_scenarioG4 : Reachable round64 scenarioG4 :=
  Reachable.step (envOf (ids "V" "lV")) (.createStockOutput "P" (tenths 36) 9 none none)
    fl_reachable_scenarioG3 (by unfold Env.Fresh; decide!)

theorem fl_reachable_scenarioG5 : Reachable round64 scenarioG5 :=
  Reachable.step (envOf (ids "X" "tX")) (.updateStockEntry "A" 5 1 none (some (tenths 76)))
    fl_reachable_scenarioG4 (by unfold Env.Fresh; decide!)

theorem fl_reachable_scenarioF1E : Reachable round64 scenarioF1E :=
  Reachable.step (envOf (ids "X" "tX")) (.updateStockEntry "A" 5 1 none (some (tenths 4)))
    fl_reachable_scenarioF1W (by unfold Env.Fresh; decide!)

theorem fl_ledger_scenarioP : ReachableBy round64 (ExactRemaining round64) scenarioP :=
  ReachableBy.step (envOf (ids "P" "")) (.createProduct "Widget" "W-1" "" none)
    ReachableBy.init (by simp [Env.Fresh, NewInventoryService, GoMap.keys]) trivial

theorem fl_ledger_scenarioA : ReachableBy round64 (ExactRemaining round64) scenarioA := by
  have h := ReachableBy.step (envOf (ids "A" "tA")) (.addStockEntry "P" 10 5 1 none)
    fl_ledger_scenarioP (by unfold Env.Fresh; decide!) trivial
  rw [← fl_scenarioA_eq]; exact h

theorem fl_ledger_scenarioB : ReachableBy round64 (ExactRemaining round64) scenarioB := by
  have h := ReachableBy.step (envOf (ids "B" "tB")) (.addStockEntry "P" 10 7 5 none)
    fl_ledger_scenarioA (by unfold Env.Fresh; decide!) trivial
  rw [← fl_scenarioB_eq]; exact h

theorem fl_ledger_scenarioW : ReachableBy round64 (ExactRemaining round64) scenarioW := by
  have h := ReachableBy.step (envOf scenarioIds) (.createStockOutput "P" 15 9 none none)
    fl_ledger_scenarioB (by unfold Env.Fresh; decide!) (by decide!)
  have h2 : (run round64 (envOf scenarioIds) scenarioB
      (.createStockOutput "P" 15 9 none none)).2 = scenarioW := by
    show (CreateStockOutput round64 (envOf scenarioIds) scenarioB "P" 15 9 none none).2 = _
    rw [fl_scenarioW_eq]
  rw [← h2]; exact h

theorem fl_ledger_scenarioE : ReachableBy round64 (ExactRemaining round64) scenarioE :=
  ReachableBy.step (envOf (ids "X" "tX")) (.updateStockEntry "B" 8 6 none (some 7))
    fl_ledger_scenarioW (by unfold Env.Fresh; decide!) (by decide!)

theorem fl_edits_scenarioP : ReachableBy round64 (ExactEdit round64) scenarioP :=
  ReachableBy.step (envOf (ids "P" "")) (.createProduct "Widget" "W-1" "" none)
    ReachableBy.init (by simp [Env.Fresh, NewInventoryService, GoMap.keys]) trivial

theorem fl_edits_scenarioF4 : ReachableBy round64 (ExactEdit round64) scenarioF4 :=
  ReachableBy.step (envOf (ids "A" "tA")) (.addStockEntry "P" (tenths 4) 5 1 none)
    fl_edits_scenarioP (by unfold Env.Fresh; decide!) (by decide!)

theorem fl_edits_scenarioF4W : ReachableBy round64 (ExactEdit round64) scenarioF4W :=
  ReachableBy.step (envOf scenarioIds) (.createStockOutput "P" (tenths 1) 9 none none)
    fl_edits_scenarioF4 (by unfold Env.Fresh; decide!) trivial

theorem fl_edits_scenarioF4E : ReachableBy round64 (ExactEdit round64) scenarioF4E :=
  ReachableBy.step (envOf (ids "X" "tX")) (.updateStockEntry "A" 5 1 none (some (tenths 5)))
    fl_edits_scenarioF4W (by unfold Env.Fresh; decide!) (by decide!)

/-- Rounding to `float64` has the laws of rounding. -/
theorem fl_rounding_round64 : Rounding round64 where
  mono := fun _ _ h => round64_mono h
  zero := round64_zero
  idem := round64_idem

end F64

/-! ## the properties -/

/-- C1 (FIFO order). In a reachable state, for a product whose lots with a
positive remaining quantity have pairwise distinct entry dates, a successful
`CreateStockOutput` records allocation lines that draw, in order, on lots `lots`
of the state before the call whose dates ascend strictly; every line but the
last takes all its lot had and leaves that lot at 0; every lot dated later than
the last line's lot is stored unchanged; and no lot of the product with stock
left and dated earlier than the last line's lot is passed over. The state and
the environment are arbitrary, so neither the order in which the lots were added
nor the order in which the map is visited matters. -/
theorem fifo_order (env : Env) (s s' : InventoryService) (pid : String) (q : ℚ)
    (date : Time) (ref notes : Option String) (out : StockOutput) (hr : Reachable s)
    (hd : (positiveLots s.stockEntries pid).Pairwise (fun a b => a.EntryDate ≠ b.EntryDate))
    (hok : CreateStockOutput env s pid q date ref notes = (.ok out, s')) :
    ∃ lots : List StockEntry,
      List.Forall₂ (fun l e => l.StockEntryID = e.ID ∧ s.stockEntries.find e.ID = some e)
        (GetStockOutputLines s' out.ID) lots ∧
      lots.Pairwise (fun a b => a.EntryDate < b.EntryDate) ∧
      List.Forall₂ (fun l e => l.Quantity = e.RemainingQuantity ∧
          s'.stockEntries.find e.ID = some { e with RemainingQuantity := 0 })
        (GetStockOutputLines s' out.ID).dropLast lots.dropLast ∧
      (∀ last ∈ lots.getLast?, ∀ k e, s.stockEntries.find k = some e →
        last.EntryDate < e.EntryDate → s'.stockEntries.find k = some e) ∧
      (∀ last ∈ lots.getLast?, ∀ e ∈ positiveLots s.stockEntries pid,
        e.EntryDate < last.EntryDate → e ∈ lots) := by
  have h1 : (CreateStockOutput env s pid q date ref notes).1 = .ok out := by rw [hok]
  have h2 : (CreateStockOutput env s pid q date ref notes).2 = s' := by rw [hok]
  obtain ⟨_, _, _, _, hse, _, hlines⟩ := createStockOutput_ok h1
  rw [h2] at hse hlines
  have hw := walkable_availableEntries env (inv_of_reachable hr) pid
  have hstrict := availableEntries_strict env s pid hd
  obtain ⟨new, taken, rest, hL, hl, hdraw, hfull, hframe, _, _, _⟩ :=
    allocate_spec env (env.uuid 0) (availableEntries env s pid) 0
      { stockEntries := s.stockEntries, remainingToFulfill := q,
        totalCost := 0, outputLines := [] } hw
  have hnew : (allocation env s pid q).outputLines = new := by
    unfold allocation; rw [hl]; rfl
  have hfin : s'.stockEntries = (allocate env (env.uuid 0) (availableEntries env s pid) 0
      { stockEntries := s.stockEntries, remainingToFulfill := q,
        totalCost := 0, outputLines := [] }).stockEntries := hse
  rw [hL] at hstrict
  have htaken : ∀ e ∈ taken, s.stockEntries.find e.ID = some e := fun e he =>
    hw.stored e (by rw [hL]; exact List.mem_append_left _ he)
  rw [hlines, hnew, hfin]
  refine ⟨taken, ?_, (List.pairwise_append.1 hstrict).1, hfull, ?_, ?_⟩
  · exact forall₂_imp_mem hdraw fun l e _ he h => ⟨h.2.1, htaken e he⟩
  · intro last hlast k e hk hlt
    rw [hframe k]
    · exact hk
    · intro hmem
      obtain ⟨x, hx, hxk⟩ := List.mem_map.1 hmem
      have hxe : x = e := by
        have := htaken x hx
        rw [hxk, hk] at this
        exact (Option.some.inj this).symm
      subst hxe
      rcases pairwise_getLast (List.pairwise_append.1 hstrict).1 hlast x hx with h | h
      · rw [h] at hlt; exact lt_irrefl _ hlt
      · exact lt_asymm h hlt
  · intro last hlast e he hlt
    have hmem : e ∈ taken ++ rest := by
      rw [← hL]; exact (availableEntries_perm env s pid).mem_iff.2 he
    rcases List.mem_append.1 hmem with h | h
    · exact h
    · exact absurd ((List.pairwise_append.1 hstrict).2.2 last
        (List.mem_of_mem_getLast? hlast) e h) (lt_asymm hlt)

/-- Witness of C1: the 15-unit withdrawal of the worked scenario, with the lots
visited newest first. -/
theorem fifo_order_witness :
    Reachable scenarioB ∧
    (positiveLots scenarioB.stockEntries "P").Pairwise
      (fun a b => a.EntryDate ≠ b.EntryDate) ∧
    CreateStockOutput (envRev scenarioIds) scenarioB "P" 15 9 none none
      = (.ok outputW, scenarioW) ∧
    ∃ lots : List StockEntry,
      List.Forall₂
        (fun l e => l.StockEntryID = e.ID ∧ scenarioB.stockEntries.find e.ID = some e)
        (GetStockOutputLines scenarioW outputW.ID) lots ∧
      lots.Pairwise (fun a b => a.EntryDate < b.EntryDate) ∧
      List.Forall₂ (fun l e => l.Quantity = e.RemainingQuantity ∧
          scenarioW.stockEntries.find e.ID = some { e with RemainingQuantity := 0 })
        (GetStockOutputLines scenarioW outputW.ID).dropLast lots.dropLast ∧
      (∀ last ∈ lots.getLast?, ∀ k e, scenarioB.stockEntries.find k = some e →
        last.EntryDate < e.EntryDate → scenarioW.stockEntries.find k = some e) ∧
      (∀ last ∈ lots.getLast?, ∀ e ∈ positiveLots scenarioB.stockEntries "P",
        e.EntryDate < last.EntryDate → e ∈ lots) :=
  ⟨reachable_scenarioB, distinct_scenarioB, createStockOutput_scenarioB_rev,
    fifo_order (envRev scenarioIds) scenarioB scenarioW "P" 15 9 none none outputW
      reachable_scenarioB distinct_scenarioB createStockOutput_scenarioB_rev⟩

/-- C2, amended (conservation up to rounding). In a state reachable in `float64`
arithmetic, the lines of a successful `CreateStockOutput` for a quantity `q > 0`
draw, in order, on a prefix of the available lots of the product: each line
takes the smaller of what remains to fulfil and what its lot holds, which is
positive, and leaves the lot with the `float64` difference as its remaining
quantity; what remains to fulfil is `q` at first and is lowered in `float64`
arithmetic by each quantity taken; the loop stops only when that is not positive
or no available lot is left, and no other lot changes. When none of the
subtractions from what remains to fulfil rounds, the quantities of the lines add
up to `q` less what is left to fulfil, and to `q` when `q` is at most the sum of
the remaining quantities of the available lots. When none of the subtractions
from the lots rounds, the sum of the remaining quantities of the product's lots
goes down by the sum of the quantities of the lines. -/
theorem conservation (fl : ℚ → ℚ) (env : Env) (s s' : InventoryService) (pid : String)
    (q : ℚ) (date : Time) (ref notes : Option String) (out : StockOutput)
    (hr : F64.Reachable fl s) (hq : 0 < q)
    (hok : F64.CreateStockOutput fl env s pid q date ref notes = (.ok out, s')) :
    ∃ taken rest : List StockEntry,
      availableEntries env s pid = taken ++ rest ∧
      F64.Takes fl q (GetStockOutputLines s' out.ID) taken ∧
      List.Forall₂ (F64.Draws fl out.ID s'.stockEntries)
        (GetStockOutputLines s' out.ID) taken ∧
      (∀ k, k ∉ taken.map (fun e => e.ID) →
        s'.stockEntries.find k = s.stockEntries.find k) ∧
      (rest = [] ∨ F64.unallocated fl q (GetStockOutputLines s' out.ID) ≤ 0) ∧
      (F64.ExactChain fl q (GetStockOutputLines s' out.ID) →
        totalQuantity (GetStockOutputLines s' out.ID)
          = q - F64.unallocated fl q (GetStockOutputLines s' out.ID) ∧
        (q ≤ totalRemaining (positiveLots s.stockEntries pid) →
          totalQuantity (GetStockOutputLines s' out.ID) = q)) ∧
      (F64.ExactDraws fl (GetStockOutputLines s' out.ID) taken →
        totalRemaining (lotsOf s.stockEntries pid)
            - totalRemaining (lotsOf s'.stockEntries pid)
          = totalQuantity (GetStockOutputLines s' out.ID)) := by
  have h1 : (F64.CreateStockOutput fl env s pid q date ref notes).1 = .ok out := by rw [hok]
  have h2 : (F64.CreateStockOutput fl env s pid q date ref notes).2 = s' := by rw [hok]
  obtain ⟨_, hid, _, _, hse, _, hlines⟩ := F64.fl_createStockOutput_ok h1
  rw [h2] at hse hlines
  have hi := F64.fl_inv_of_reachable hr
  have hw := F64.fl_walkable_availableEntries fl env hi pid
  obtain ⟨new, taken, rest, hL, hl, hdraw, hframe, hqty, _, _, hstop, htakes, hsum⟩ :=
    F64.fl_allocate_spec fl env (env.uuid 0) (availableEntries env s pid) 0
      { stockEntries := s.stockEntries, remainingToFulfill := q,
        totalCost := 0, outputLines := [] } hw
  have hnew : (F64.allocation fl env s pid q).outputLines = new := by
    unfold F64.allocation; rw [hl]; rfl
  rw [hnew] at hlines
  unfold F64.allocation at hse
  rw [hlines, hse, hid]
  rw [hqty] at hstop
  refine ⟨taken, rest, hL, htakes, hdraw, hframe, hstop, ?_, ?_⟩
  · intro hx
    obtain ⟨e1, e2, e3⟩ := F64.fl_takes_exact fl q new taken htakes hx (le_of_lt hq)
    refine ⟨by rw [e1]; ring, ?_⟩
    intro hle
    have hzero : F64.unallocated fl q new ≤ 0 := by
      rcases hstop with hrest | hstop
      · by_contra hpos
        have hall := e3 (not_le.1 hpos)
        have htot : totalRemaining taken = totalRemaining (positiveLots s.stockEntries pid) := by
          rw [hrest, List.append_nil] at hL
          rw [← hL]
          unfold totalRemaining
          exact ((availableEntries_perm env s pid).map _).sum_eq
        apply hpos
        rw [e1, hall, htot]
        linarith
      · exact hstop
    have := le_antisymm hzero e2
    rw [e1] at this
    linarith
  · intro hx
    have h := hsum (fun e => if e.ProductID = pid then e.RemainingQuantity else 0) 1
      (by
        intro e he r
        have := (F64.fl_mem_availableEntries fl hi he).2.1
        simp [this])
    rw [F64.fl_drops_of_exact fl new taken hdraw.length_eq hx] at h
    unfold lotsOf totalRemaining
    rw [sum_filter_map (fun e => e.ProductID = pid), sum_filter_map (fun e => e.ProductID = pid),
      h]
    simp only
    ring

/-- Witness of C2 as amended: the 15-unit withdrawal of the worked scenario, in
which no subtraction rounds. -/
theorem conservation_witness :
    F64.Reachable round64 scenarioB ∧ (0 : ℚ) < 15 ∧
    F64.CreateStockOutput round64 (envOf scenarioIds) scenarioB "P" 15 9 none none
      = (.ok outputW, scenarioW) ∧
    F64.ExactChain round64 15 (GetStockOutputLines scenarioW outputW.ID) ∧
    (15 : ℚ) ≤ totalRemaining (positiveLots scenarioB.stockEntries "P") ∧
    totalQuantity (GetStockOutputLines scenarioW outputW.ID) = 15 :=
  have hx : F64.ExactChain round64 15 (GetStockOutputLines scenarioW outputW.ID) := by
    decide!
  have hle : (15 : ℚ) ≤ totalRemaining (positiveLots scenarioB.stockEntries "P") := by
    decide!
  ⟨F64.fl_reachable_scenarioB, by norm_num, F64.fl_scenarioW_eq, hx, hle, by
    obtain ⟨_, _, _, _, _, _, _, h, _⟩ :=
      conservation round64 (envOf scenarioIds) scenarioB scenarioW "P" 15 9 none none outputW
        F64.fl_reachable_scenarioB (by norm_num) F64.fl_scenarioW_eq
    exact (h hx).2 hle⟩

/-- Counterexample to C2 as stated: with lots of 0.1 and 0.2 units, a withdrawal
of 0.30000000000000004 units succeeds with lines of 0.1 and 0.2 units, which do
not add up to the requested quantity; and the remaining quantities of the lots
go down by less than the requested quantity. -/
theorem conservation_counterexample :
    F64.Reachable round64 scenarioF12 ∧ 0 < round64 (tenths 1 + tenths 2) ∧
    errorOf (F64.CreateStockOutput round64 (envOf scenarioIds) scenarioF12 "P"
      (round64 (tenths 1 + tenths 2)) 9 none none).1 = none ∧
    (GetStockOutputLines (F64.CreateStockOutput round64 (envOf scenarioIds) scenarioF12 "P"
      (round64 (tenths 1 + tenths 2)) 9 none none).2 "W").map (fun l => l.Quantity)
      = [tenths 1, tenths 2] ∧
    totalQuantity (GetStockOutputLines (F64.CreateStockOutput round64 (envOf scenarioIds)
      scenarioF12 "P" (round64 (tenths 1 + tenths 2)) 9 none none).2 "W")
      ≠ round64 (tenths 1 + tenths 2) ∧
    totalRemaining (lotsOf scenarioF12.stockEntries "P")
        - totalRemaining (lotsOf (F64.CreateStockOutput round64 (envOf scenarioIds)
            scenarioF12 "P" (round64 (tenths 1 + tenths 2)) 9 none none).2.stockEntries "P")
      ≠ round64 (tenths 1 + tenths 2) :=
  ⟨F64.fl_reachable_scenarioF12, by decide!, by decide!, by decide!, by decide!, by decide!⟩

/-- C3 (worked scenario). From the empty service, create product P, receive lot
A (10 units at price 5) and then lot B (10 units at price 7) at a later date:
`CreateStockOutput` of 15 units of P succeeds with total cost 85 and the lines
`(A, 10, 5)`, `(B, 5, 7)` in that order; afterwards P has current stock 5 and
average cost 7, A has 0 left and B has 5. This holds for all identifiers (B's
differing from A's), clocks and visiting orders. -/
theorem worked_scenario (e1 e2 e3 e4 : Env) (name sku description : String)
    (units nA nB ref nW : Option String) (dA dB dW : Time) (hd : dA < dB)
    (hAB : e3.uuid 0 ≠ e2.uuid 0) :
    let P := e1.uuid 0
    let A := e2.uuid 0
    let B := e3.uuid 0
    let s1 := (CreateProduct e1 NewInventoryService name sku description units).2
    let s2 := (AddStockEntry e2 s1 P 10 5 dA nA).2
    let s3 := (AddStockEntry e3 s2 P 10 7 dB nB).2
    let r := CreateStockOutput e4 s3 P 15 dW ref nW
    ∃ out, r.1 = .ok out ∧ out.TotalCost = 85 ∧
      (GetStockOutputLines r.2 out.ID).map
          (fun l => (l.StockEntryID, l.Quantity, l.UnitPrice)) = [(A, 10, 5), (B, 5, 7)] ∧
      (r.2.products.find P).map (fun p => (p.CurrentStock, p.AverageCost)) = some (5, 7) ∧
      (r.2.stockEntries.find A).map (fun e => e.RemainingQuantity) = some 0 ∧
      (r.2.stockEntries.find B).map (fun e => e.RemainingQuantity) = some 5 := by
  intro P A B s1 s2 s3 r
  have hBA : ¬ e2.uuid 0 = e3.uuid 0 := fun h => hAB h.symm
  have h1 : s1 =
      { products := [(P, { ID := P, Name := name, SKU := sku, Description := description,
                           Units := units, CurrentStock := 0, AverageCost := 0,
                           CreatedAt := e1.now, UpdatedAt := e1.now })],
        stockEntries := [], stockOutputs := [], outputLines := [], transactions := [] } := by
    simp [s1, P, CreateProduct, NewInventoryService, GoMap.vals, GoMap.put]
  have h2 : s2 =
      { products := [(P, { ID := P, Name := name, SKU := sku, Description := description,
                           Units := units, CurrentStock := 10, AverageCost := 5,
                           CreatedAt := e1.now, UpdatedAt := e2.now })],
        stockEntries :=
          [(A, { ID := A, ProductID := P, Quantity := 10, RemainingQuantity := 10,
                 UnitPrice := 5, EntryDate := dA, Notes := nA })],
        stockOutputs := [], outputLines := [],
        transactions :=
          [{ ID := e2.uuid 1, Type_ := .TransactionTypeEntry, ProductID := P, Quantity := 10,
             Date := dA, ReferenceID := A, Notes := nA }] } := by
    simp only [s2, h1]
    simp [A, AddStockEntry, GoMap.find, GoMap.put, GoMap.vals, recalculateProductTotals]
  have h3 : s3 =
      { products := [(P, { ID := P, Name := name, SKU := sku, Description := description,
                           Units := units, CurrentStock := 20, AverageCost := 6,
                           CreatedAt := e1.now, UpdatedAt := e3.now })],
        stockEntries :=
          [(A, { ID := A, ProductID := P, Quantity := 10, RemainingQuantity := 10,
                 UnitPrice := 5, EntryDate := dA, Notes := nA }),
           (B, { ID := B, ProductID := P, Quantity := 10, RemainingQuantity := 10,
                 UnitPrice := 7, EntryDate := dB, Notes := nB })],
        stockOutputs := [], outputLines := [],
        transactions :=
          [{ ID := e2.uuid 1, Type_ := .TransactionTypeEntry, ProductID := P, Quantity := 10,
             Date := dA, ReferenceID := A, Notes := nA },
           { ID := e3.uuid 1, Type_ := .TransactionTypeEntry, ProductID := P, Quantity := 10,
             Date := dB, ReferenceID := B, Notes := nB }] } := by
    simp only [s3, h2]
    simp [A, B, AddStockEntry, GoMap.find, GoMap.put, GoMap.vals, recalculateProductTotals, hBA]
    norm_num
  have hav : availableEntries e4 s3 P =
      [{ ID := A, ProductID := P, Quantity := 10, RemainingQuantity := 10,
         UnitPrice := 5, EntryDate := dA, Notes := nA },
       { ID := B, ProductID := P, Quantity := 10, RemainingQuantity := 10,
         UnitPrice := 7, EntryDate := dB, Notes := nB }] := by
    apply availableEntries_eq
    · rw [h3]; simp [positiveLots, GoMap.vals]
    · simp [hd]
  have hr : r =
      (.ok { ID := e4.uuid 0, ProductID := P, TotalQuantity := 15, TotalCost := 85,
             ReferenceNumber := ref, OutputDate := dW, Notes := nW },
       { products := [(P, { ID := P, Name := name, SKU := sku, Description := description,
                            Units := units, CurrentStock := 5, AverageCost := 7,
                            CreatedAt := e1.now, UpdatedAt := e4.now })],
         stockEntries :=
           [(A, { ID := A, ProductID := P, Quantity := 10, RemainingQuantity := 0,
                  UnitPrice := 5, EntryDate := dA, Notes := nA }),
            (B, { ID := B, ProductID := P, Quantity := 10, RemainingQuantity := 5,
                  UnitPrice := 7, EntryDate := dB, Notes := nB })],
         stockOutputs :=
           [(e4.uuid 0, { ID := e4.uuid 0, ProductID := P, TotalQuantity := 15,
                          TotalCost := 85, ReferenceNumber := ref, OutputDate := dW,
                          Notes := nW })],
         outputLines :=
           [(e4.uuid 0,
             [{ ID := e4.uuid 1, StockOutputID := e4.uuid 0, StockEntryID := A,
                Quantity := 10, UnitPrice := 5 },
              { ID := e4.uuid 2, StockOutputID := e4.uuid 0, StockEntryID := B,
                Quantity := 5, UnitPrice := 7 }])],
         transactions :=
           [{ ID := e2.uuid 1, Type_ := .TransactionTypeEntry, ProductID := P,
              Quantity := 10, Date := dA, ReferenceID := A, Notes := nA },
            { ID := e3.uuid 1, Type_ := .TransactionTypeEntry, ProductID := P,
              Quantity := 10, Date := dB, ReferenceID := B, Notes := nB },
            { ID := e4.uuid 3, Type_ := .TransactionTypeOutput, ProductID := P,
              Quantity := 15, Date := dW, ReferenceID := e4.uuid 0, Notes := nW }] }) := by
    simp only [r, CreateStockOutput, hav]
    rw [h3]
    simp [A, B, GoMap.find, GoMap.put, GoMap.vals, recalculateProductTotals, allocate,
      allocateStep, hBA]
    norm_num
  rw [hr]
  refine ⟨_, rfl, rfl, ?_, ?_, ?_, ?_⟩
  · simp [GetStockOutputLines, GoMap.find]
  · simp [GoMap.find]
  · simp [GoMap.find]
  · simp [A, B, GoMap.find, hBA]

/-- Witness of C3: the scenario with dates day 1 and day 5 and the identifiers
"P", "A", "B", "W". -/
theorem worked_scenario_witness :
    (1 : Time) < 5 ∧ "B" ≠ "A" ∧
    ∃ out, (CreateStockOutput (envOf scenarioIds) scenarioB "P" 15 9 none none).1 = .ok out ∧
      out.TotalCost = 85 ∧
      (GetStockOutputLines scenarioW out.ID).map
          (fun l => (l.StockEntryID, l.Quantity, l.UnitPrice)) = [("A", 10, 5), ("B", 5, 7)] ∧
      (scenarioW.products.find "P").map (fun p => (p.CurrentStock, p.AverageCost))
        = some (5, 7) ∧
      (scenarioW.stockEntries.find "A").map (fun e => e.RemainingQuantity) = some 0 ∧
      (scenarioW.stockEntries.find "B").map (fun e => e.RemainingQuantity) = some 5 :=
  ⟨by decide, by decide,
    worked_scenario (envOf (ids "P" "")) (envOf (ids "A" "tA")) (envOf (ids "B" "tB"))
      (envOf scenarioIds) "Widget" "W-1" "" none none none none none 1 5 9 (by decide)
      (by decide)⟩

/-- C5, amended (aggregate consistency). In every state reachable in `float64`
arithmetic, every stored product has as current stock the `float64` sum,
accumulated from 0 in the order of one visit of the map, of the remaining
quantities of its lots with a positive remaining quantity, and as average cost
the `float64` quotient of the value of those lots, accumulated in the same
order from the rounded products of remaining quantity and unit price, by the
current stock when that is positive, and 0 otherwise. -/
theorem aggregate_consistency (fl : ℚ → ℚ) (s : InventoryService)
    (hr : F64.Reachable fl s) (k : String) (p : Product)
    (hp : s.products.find k = some p) :
    ∃ lots : List StockEntry, lots.Perm (positiveLots s.stockEntries p.ID) ∧
      p.CurrentStock = F64.accumulate fl (lots.map (fun e => e.RemainingQuantity)) ∧
      p.AverageCost =
        if p.CurrentStock > 0 then
          fl (F64.accumulate fl (lots.map (fun e => fl (e.RemainingQuantity * e.UnitPrice))) /
            p.CurrentStock)
        else 0 :=
  (F64.fl_inv_of_reachable hr).aggregate k p hp

/-- Witness of C5 as amended: product P with the lots of 0.1 and 0.2 units. -/
theorem aggregate_consistency_witness :
    F64.Reachable round64 scenarioF12 ∧
    scenarioF12.products.find "P" = some (productP (round64 (tenths 1 + tenths 2))
      (round64 (round64 (round64 (tenths 1 * 5) + round64 (tenths 2 * 7)) /
        round64 (tenths 1 + tenths 2)))) ∧
    ∃ lots : List StockEntry, lots.Perm (positiveLots scenarioF12.stockEntries "P") ∧
      round64 (tenths 1 + tenths 2)
        = F64.accumulate round64 (lots.map (fun e => e.RemainingQuantity)) :=
  have hp : scenarioF12.products.find "P" = some (productP (round64 (tenths 1 + tenths 2))
      (round64 (round64 (round64 (tenths 1 * 5) + round64 (tenths 2 * 7)) /
        round64 (tenths 1 + tenths 2)))) := by decide!
  ⟨F64.fl_reachable_scenarioF12, hp,
    (aggregate_consistency round64 scenarioF12 F64.fl_reachable_scenarioF12 "P" _ hp).imp
      fun _ h => ⟨h.1, h.2.1⟩⟩

/-- Counterexample to C5 as stated: with lots of 0.1 and 0.2 units the current
stock of P is 0.30000000000000004, which is not the sum of the two remaining
quantities. -/
theorem aggregate_consistency_counterexample :
    F64.Reachable round64 scenarioF12 ∧
    scenarioF12.products.find "P" = some (productP (1351079888211149 / 4503599627370496)
      (7130699410003285 / 1125899906842624)) ∧
    totalRemaining (positiveLots scenarioF12.stockEntries "P")
      = 10808639105689191 / 36028797018963968 ∧
    (productP (1351079888211149 / 4503599627370496)
        (7130699410003285 / 1125899906842624)).CurrentStock
      ≠ totalRemaining (positiveLots scenarioF12.stockEntries
          (productP (1351079888211149 / 4503599627370496)
            (7130699410003285 / 1125899906842624)).ID) :=
  ⟨F64.fl_reachable_scenarioF12, by decide!, by decide!, by decide!⟩

/-- C7 (atomic failure). In every state, a call of `CreateProduct`,
`UpdateProduct`, `DeleteProduct`, `AddStockEntry`, `UpdateStockEntry` or
`CreateStockOutput` that returns an error leaves the whole service (products,
lots, withdrawals, allocation lines, transaction log) as it was. -/
theorem atomic_failure (env : Env) (s : InventoryService) (op : Op)
    (h : (op.run env s).1 ≠ none) : (op.run env s).2 = s :=
  run_error env s op h

/-- Witness of C7: the failing request for 10 units after the worked scenario. -/
theorem atomic_failure_witness :
    (Op.run (envOf scenarioIds) scenarioW (.createStockOutput "P" 10 9 none none)).1 ≠ none ∧
    (Op.run (envOf scenarioIds) scenarioW (.createStockOutput "P" 10 9 none none)).2
      = scenarioW :=
  have h : (Op.run (envOf scenarioIds) scenarioW
      (.createStockOutput "P" 10 9 none none)).1 ≠ none := by
    simp [Op.run, createStockOutput_scenarioW, errorOf]
  ⟨h, atomic_failure (envOf scenarioIds) scenarioW (.createStockOutput "P" 10 9 none none) h⟩

/-- C9, amended (lot edit arithmetic). For a stored lot, `UpdateStockEntry` with
a new quantity `q` not below the `float64` difference of quantity and remaining
quantity succeeds and stores the lot with `Quantity = q`, with the `float64`
sum of the old remaining quantity and the `float64` difference of `q` and the
old quantity as `RemainingQuantity`, and with the given price, date and notes;
the consumed amount `Quantity - RemainingQuantity` is the same as before when
neither of these two operations rounds. Without a new quantity it succeeds and
stores the lot with the given price, date and notes and with quantity and
remaining quantity as they were. -/
theorem lot_edit_arithmetic (fl : ℚ → ℚ) (env : Env) (s : InventoryService) (id : String)
    (unitPrice : ℚ) (entryDate : Time) (notes : Option String) (q : ℚ) (e : StockEntry)
    (he : s.stockEntries.find id = some e)
    (hq : fl (e.Quantity - e.RemainingQuantity) ≤ q) :
    ((F64.UpdateStockEntry fl env s id unitPrice entryDate notes (some q)).1 =
        .ok { e with
              Quantity := q
              RemainingQuantity := (fl (e.RemainingQuantity + fl (q - e.Quantity)))
              UnitPrice := unitPrice, EntryDate := entryDate, Notes := notes } ∧
      (F64.UpdateStockEntry fl env s id unitPrice entryDate notes
          (some q)).2.stockEntries.find id =
        some { e with
               Quantity := q
               RemainingQuantity := (fl (e.RemainingQuantity + fl (q - e.Quantity)))
               UnitPrice := unitPrice, EntryDate := entryDate, Notes := notes } ∧
      (fl (q - e.Quantity) = q - e.Quantity →
        fl (e.RemainingQuantity + (q - e.Quantity)) = e.RemainingQuantity + (q - e.Quantity) →
        q - fl (e.RemainingQuantity + fl (q - e.Quantity))
          = e.Quantity - e.RemainingQuantity)) ∧
    ((F64.UpdateStockEntry fl env s id unitPrice entryDate notes none).1 =
        .ok { e with UnitPrice := unitPrice, EntryDate := entryDate, Notes := notes } ∧
      (F64.UpdateStockEntry fl env s id unitPrice entryDate notes none).2.stockEntries.find id =
        some { e with UnitPrice := unitPrice, EntryDate := entryDate, Notes := notes }) := by
  refine ⟨⟨?_, ?_, ?_⟩, ?_, ?_⟩
  · unfold F64.UpdateStockEntry
    rw [he]; dsimp only
    rw [if_neg (not_lt.2 hq)]
  · unfold F64.UpdateStockEntry
    rw [he]; dsimp only
    rw [if_neg (not_lt.2 hq)]; dsimp only
    rw [F64.fl_recalculate_stockEntries]
    exact GoMap.find_put_self _ _ _
  · intro h1 h2
    rw [h1, h2]; ring
  · unfold F64.UpdateStockEntry
    rw [he]
  · unfold F64.UpdateStockEntry
    rw [he]; dsimp only
    rw [F64.fl_recalculate_stockEntries]
    exact GoMap.find_put_self _ _ _

/-- Witness of C9 as amended: lot B of the worked scenario (5 of 10 consumed)
edited to quantity 7, and edited without a quantity. -/
theorem lot_edit_arithmetic_witness :
    scenarioW.stockEntries.find "B" = some (lotB 5) ∧
    round64 ((lotB 5).Quantity - (lotB 5).RemainingQuantity) ≤ 7 ∧
    (F64.UpdateStockEntry round64 (envOf scenarioIds) scenarioW "B" 8 6 none
        (some 7)).2.stockEntries.find "B"
      = some { lotB 5 with Quantity := 7, RemainingQuantity := 2, UnitPrice := 8,
                           EntryDate := 6, Notes := none } ∧
    (F64.UpdateStockEntry round64 (envOf scenarioIds) scenarioW "B" 8 6 none
        none).2.stockEntries.find "B"
      = some { lotB 5 with UnitPrice := 8, EntryDate := 6, Notes := none } :=
  have h : round64 ((lotB 5).Quantity - (lotB 5).RemainingQuantity) ≤ 7 := by decide!
  have hc := lot_edit_arithmetic round64 (envOf scenarioIds) scenarioW "B" 8 6 none 7 (lotB 5)
    find_scenarioW_B h
  have h2 : round64 ((lotB 5).RemainingQuantity + round64 (7 - (lotB 5).Quantity)) = 2 := by
    decide!
  ⟨find_scenarioW_B, h, by rw [hc.1.2.1, h2], hc.2.2⟩

/-- Counterexample to C9 as stated: a lot of 0.1 units of which 0.1 units are
consumed is edited to a quantity of 0.4; the edit succeeds and stores a
remaining quantity of 0.30000000000000004, so that the consumed amount is no
longer 0.1 but 0.09999999999999998. -/
theorem lot_edit_arithmetic_counterexample :
    F64.Reachable round64 scenarioF1W ∧
    scenarioF1W.stockEntries.find "A" = some (lotF "A" (tenths 1) 0) ∧
    (F64.UpdateStockEntry round64 (envOf scenarioIds) scenarioF1W "A" 5 1 none
        (some (tenths 4))).2.stockEntries.find "A"
      = some (lotF "A" (tenths 4) (1351079888211149 / 4503599627370496)) ∧
    (lotF "A" (tenths 4) (1351079888211149 / 4503599627370496)).Quantity
        - (lotF "A" (tenths 4) (1351079888211149 / 4503599627370496)).RemainingQuantity
      ≠ (lotF "A" (tenths 1) 0).Quantity - (lotF "A" (tenths 1) 0).RemainingQuantity ∧
    (lotF "A" (tenths 1) 0).Quantity - (lotF "A" (tenths 1) 0).RemainingQuantity
      = 3602879701896397 / 36028797018963968 ∧
    (lotF "A" (tenths 4) (1351079888211149 / 4503599627370496)).Quantity
        - (lotF "A" (tenths 4) (1351079888211149 / 4503599627370496)).RemainingQuantity
      = 900719925474099 / 9007199254740992 :=
  ⟨F64.fl_reachable_scenarioF1W, by decide!, by decide!, by decide!, by decide!, by decide!⟩

/-- C10, amended (lot bounds). Let the rounding of the arithmetic be monotone,
keep zero and keep the values it returns, as rounding to `float64` does. In
every state reached by calls in which the quantity given for a lot is a
`float64` value and a quantity edit of `UpdateStockEntry` computes the consumed
quantity `Quantity - RemainingQuantity` and the difference
`quantity - Quantity` without rounding, every stored lot has
`RemainingQuantity ≤ Quantity`, and `0 ≤ RemainingQuantity` unless the lot has a
negative quantity of which nothing has been consumed
(`RemainingQuantity = Quantity < 0`). Withdrawals may round. -/
theorem lot_bounds (fl : ℚ → ℚ) (hfl : F64.Rounding fl) (s : InventoryService)
    (hr : F64.ReachableBy fl (F64.ExactEdit fl) s)
    (k : String) (e : StockEntry) (he : s.stockEntries.find k = some e) :
    e.RemainingQuantity ≤ e.Quantity ∧
    (0 ≤ e.RemainingQuantity ∨ (e.RemainingQuantity = e.Quantity ∧ e.Quantity < 0)) :=
  (F64.fl_bounded_of_reachableBy hfl hr k e he).1

/-- Witness of C10 as amended, in `float64` arithmetic: of a lot of 0.4 units,
0.1 units are withdrawn, which leaves 0.30000000000000004 units by rounding, and
the lot is edited to a quantity of 0.5 units, of which 0.4 are then left. -/
theorem lot_bounds_witness :
    F64.Rounding round64 ∧ F64.ReachableBy round64 (F64.ExactEdit round64) scenarioF4E ∧
    scenarioF4W.stockEntries.find "A"
      = some (lotF "A" (tenths 4) (1351079888211149 / 4503599627370496)) ∧
    scenarioF4E.stockEntries.find "A" = some (lotF "A" (tenths 5) (tenths 4)) ∧
    tenths 4 ≤ tenths 5 ∧ (0 ≤ tenths 4 ∨ (tenths 4 = tenths 5 ∧ tenths 5 < 0)) :=
  have h : scenarioF4E.stockEntries.find "A" = some (lotF "A" (tenths 5) (tenths 4)) := by
    decide!
  ⟨F64.fl_rounding_round64, F64.fl_edits_scenarioF4E, by decide!, h,
    lot_bounds round64 F64.fl_rounding_round64 scenarioF4E F64.fl_edits_scenarioF4E "A" _ h⟩

/-- Counterexample to C10 as stated. `AddStockEntry` accepts a receipt of minus
5 units, and the lot it stores has a negative remaining quantity. A lot of 0.3
units edited to a quantity of 0.9 has a remaining quantity of
0.9000000000000001, above its quantity: the difference of the quantities is
rounded. And a lot of 4 units, edited to 7.8, drawn on for 4 and for 3.6 units
and edited to 7.6, has a negative remaining quantity: the consumed quantity is
rounded to 7.6. -/
theorem lot_bounds_counterexample :
    (F64.Reachable round64 scenarioN ∧ scenarioN.stockEntries.find "N" = some lotN ∧
      ¬ (0 ≤ lotN.RemainingQuantity ∧ lotN.RemainingQuantity ≤ lotN.Quantity)) ∧
    (F64.Reachable round64 scenarioF3E ∧
      scenarioF3E.stockEntries.find "A"
        = some (lotF "A" (tenths 9) (4053239664633447 / 4503599627370496)) ∧
      ¬ (0 ≤ (lotF "A" (tenths 9) (4053239664633447 / 4503599627370496)).RemainingQuantity ∧
        (lotF "A" (tenths 9) (4053239664633447 / 4503599627370496)).RemainingQuantity
          ≤ (lotF "A" (tenths 9) (4053239664633447 / 4503599627370496)).Quantity)) ∧
    (F64.Reachable round64 scenarioG5 ∧
      scenarioG5.stockEntries.find "A"
        = some (lotF "A" (tenths 76) (-1 / 2251799813685248)) ∧
      ¬ (0 ≤ (lotF "A" (tenths 76) (-1 / 2251799813685248)).RemainingQuantity ∧
        (lotF "A" (tenths 76) (-1 / 2251799813685248)).RemainingQuantity
          ≤ (lotF "A" (tenths 76) (-1 / 2251799813685248)).Quantity)) :=
  ⟨⟨F64.fl_reachable_scenarioN, by decide!, by decide!⟩,
    ⟨F64.fl_reachable_scenarioF3E, by decide!, by decide!⟩,
    ⟨F64.fl_reachable_scenarioG5, by decide!, by decide!⟩⟩

/-- C11, amended (no positivity check). In a reachable state, `CreateStockOutput`
for an existing product and a quantity that is zero or negative returns no
error: it succeeds with a withdrawal of that total quantity and total cost 0,
stores it with an empty list of allocation lines, leaves every lot as it was,
and appends one transaction of type output. -/
theorem nonpositive_quantity (env : Env) (s : InventoryService) (pid : String) (q : ℚ)
    (date : Time) (ref notes : Option String) (p : Product) (hr : Reachable s)
    (hp : s.products.find pid = some p) (hq : q ≤ 0) :
    (CreateStockOutput env s pid q date ref notes).1 =
      .ok { ID := env.uuid 0, ProductID := pid, TotalQuantity := q, TotalCost := 0,
            ReferenceNumber := ref, OutputDate := date, Notes := notes } ∧
    (CreateStockOutput env s pid q date ref notes).2.stockOutputs.find (env.uuid 0) =
      some { ID := env.uuid 0, ProductID := pid, TotalQuantity := q, TotalCost := 0,
             ReferenceNumber := ref, OutputDate := date, Notes := notes } ∧
    GetStockOutputLines (CreateStockOutput env s pid q date ref notes).2 (env.uuid 0) = [] ∧
    (CreateStockOutput env s pid q date ref notes).2.stockEntries = s.stockEntries ∧
    (CreateStockOutput env s pid q date ref notes).2.transactions =
      s.transactions ++
        [{ ID := env.uuid 1, Type_ := .TransactionTypeOutput, ProductID := pid,
           Quantity := q, Date := date, ReferenceID := env.uuid 0, Notes := notes }] :=
  createStockOutput_of_nonpos env s pid q date ref notes p hr hp hq

/-- Witness of C11 as amended: a request for minus 3 units after the worked
scenario. -/
theorem nonpositive_quantity_witness :
    Reachable scenarioW ∧ scenarioW.products.find "P" = some (productP 5 7) ∧ (-3 : ℚ) ≤ 0 ∧
    (CreateStockOutput (envOf (ids "X" "tX")) scenarioW "P" (-3) 9 none none).1 =
      .ok { ID := "X", ProductID := "P", TotalQuantity := -3, TotalCost := 0,
            ReferenceNumber := none, OutputDate := 9, Notes := none } ∧
    GetStockOutputLines
      (CreateStockOutput (envOf (ids "X" "tX")) scenarioW "P" (-3) 9 none none).2 "X" = [] :=
  have h := nonpositive_quantity (envOf (ids "X" "tX")) scenarioW "P" (-3) 9 none none
    (productP 5 7) reachable_scenarioW find_scenarioW_P (by norm_num)
  ⟨reachable_scenarioW, find_scenarioW_P, by norm_num, h.1, h.2.2.1⟩

/-- Counterexample to C11 as stated: after the worked scenario a request for
minus 3 units of P returns no error, the withdrawal is stored and a transaction
is appended to the log. -/
theorem nonpositive_quantity_counterexample :
    Reachable scenarioW ∧ scenarioW.products.find "P" = some (productP 5 7) ∧
    errorOf (CreateStockOutput (envOf (ids "X" "tX")) scenarioW "P" (-3) 9 none none).1 = none ∧
    (CreateStockOutput (envOf (ids "X" "tX")) scenarioW "P" (-3) 9 none none).2.stockOutputs.find
      "X" ≠ none ∧
    (CreateStockOutput (envOf (ids "X" "tX")) scenarioW "P" (-3) 9 none none).2.transactions
      = scenarioW.transactions ++ [logOutput "tX" "X" (-3) 9] := by
  have h := createStockOutput_of_nonpos (envOf (ids "X" "tX")) scenarioW "P" (-3) 9 none none
    (productP 5 7) reachable_scenarioW find_scenarioW_P (by norm_num)
  refine ⟨reachable_scenarioW, find_scenarioW_P, ?_, ?_, ?_⟩
  · rw [h.1]; rfl
  · have h2 := h.2.1
    intro hn
    rw [show (envOf (ids "X" "tX")).uuid 0 = "X" from rfl] at h2
    rw [hn] at h2
    exact Option.noConfusion h2
  · rw [h.2.2.2.2]; rfl

/-- C12, amended (remaining-quantity monotonicity). In a reachable state, for a
call with a fresh identifier, a stored lot is still stored after the call; its
remaining quantity is smaller than before only if the call is a
`CreateStockOutput` that recorded a line naming the lot, or an
`UpdateStockEntry` on the lot that supplied a quantity smaller than the lot's
previous quantity; and it is larger than before only if the call is an
`UpdateStockEntry` on the lot that supplied a quantity greater than the lot's
previous quantity. -/
theorem remaining_monotonicity (env : Env) (s : InventoryService) (op : Op) (k : String)
    (e : StockEntry) (hr : Reachable s) (hf : env.Fresh s)
    (he : s.stockEntries.find k = some e) :
    ∃ e', (op.run env s).2.stockEntries.find k = some e' ∧
      (e'.RemainingQuantity < e.RemainingQuantity →
        (∃ pid q d r n, op = .createStockOutput pid q d r n ∧
          ∃ l ∈ GetStockOutputLines (op.run env s).2 (env.uuid 0), l.StockEntryID = k) ∨
        (∃ price d n q, op = .updateStockEntry k price d n (some q) ∧ q < e.Quantity)) ∧
      (e.RemainingQuantity < e'.RemainingQuantity →
        ∃ price d n q, op = .updateStockEntry k price d n (some q) ∧ e.Quantity < q) :=
  run_lot env (inv_of_reachable hr) hf op he

/-- Witness of C12 as amended: lot B of the worked scenario under a further
withdrawal of 2 units. -/
theorem remaining_monotonicity_witness :
    Reachable scenarioW ∧ (envOf (ids "X" "tX")).Fresh scenarioW ∧
    scenarioW.stockEntries.find "B" = some (lotB 5) ∧
    ∃ e', (Op.run (envOf (ids "X" "tX")) scenarioW
        (.createStockOutput "P" 2 10 none none)).2.stockEntries.find "B" = some e' ∧
      (e'.RemainingQuantity < (lotB 5).RemainingQuantity →
        (∃ pid q d r n, Op.createStockOutput "P" 2 10 none none
            = .createStockOutput pid q d r n ∧
          ∃ l ∈ GetStockOutputLines (Op.run (envOf (ids "X" "tX")) scenarioW
              (.createStockOutput "P" 2 10 none none)).2 ((envOf (ids "X" "tX")).uuid 0),
            l.StockEntryID = "B") ∨
        (∃ price d n q, Op.createStockOutput "P" 2 10 none none
            = .updateStockEntry "B" price d n (some q) ∧ q < (lotB 5).Quantity)) ∧
      ((lotB 5).RemainingQuantity < e'.RemainingQuantity →
        ∃ price d n q, Op.createStockOutput "P" 2 10 none none
          = .updateStockEntry "B" price d n (some q) ∧ (lotB 5).Quantity < q) :=
  ⟨reachable_scenarioW, fresh_scenarioW, find_scenarioW_B,
    remaining_monotonicity (envOf (ids "X" "tX")) scenarioW
      (.createStockOutput "P" 2 10 none none) "B" (lotB 5) reachable_scenarioW
      fresh_scenarioW find_scenarioW_B⟩

/-- Counterexample to C12 as stated: after the worked scenario lot B has 5 of 10
units left; `UpdateStockEntry` with quantity 7, which is not a withdrawal,
succeeds and leaves it 2. -/
theorem remaining_monotonicity_counterexample :
    Reachable scenarioW ∧ scenarioW.stockEntries.find "B" = some (lotB 5) ∧
    (Op.run (envOf (ids "X" "tX")) scenarioW
        (.updateStockEntry "B" 7 5 none (some 7))).2.stockEntries.find "B"
      = some { lotB 2 with Quantity := 7 } ∧
    ({ lotB 2 with Quantity := 7 } : StockEntry).RemainingQuantity
      < (lotB 5).RemainingQuantity := by
  refine ⟨reachable_scenarioW, find_scenarioW_B, updateStockEntry_scenarioW_B, ?_⟩
  norm_num [lotB]

/-- C13 (history is write-once). Whatever the call, given that the identifier it
generates is fresh, a withdrawal stored before the call is stored unchanged
after it (so with the same total quantity and total cost), and its list of
allocation lines is the same list. -/
theorem history_write_once (env : Env) (s : InventoryService) (op : Op) (k : String)
    (o : StockOutput) (hf : env.Fresh s) (ho : s.stockOutputs.find k = some o) :
    (op.run env s).2.stockOutputs.find k = some o ∧
    GetStockOutputLines (op.run env s).2 k = GetStockOutputLines s k := by
  rcases run_outputs env s op with ⟨h1, h2⟩ | ⟨o', lines, h1, h2⟩
  · unfold GetStockOutputLines
    rw [h1, h2]; exact ⟨ho, rfl⟩
  · have hne : env.uuid 0 ≠ k := by
      intro h
      exact hf.2.2 (h ▸ GoMap.mem_keys_of_find ho)
    unfold GetStockOutputLines
    rw [h1, h2, GoMap.find_put_ne _ _ hne, GoMap.find_put_ne _ _ hne]
    exact ⟨ho, rfl⟩

/-- Witness of C13: withdrawal W of the worked scenario under a further
withdrawal of 2 units. -/
theorem history_write_once_witness :
    (envOf (ids "X" "tX")).Fresh scenarioW ∧
    scenarioW.stockOutputs.find "W" = some outputW ∧
    (Op.run (envOf (ids "X" "tX")) scenarioW
        (.createStockOutput "P" 2 10 none none)).2.stockOutputs.find "W" = some outputW ∧
    GetStockOutputLines
        (Op.run (envOf (ids "X" "tX")) scenarioW (.createStockOutput "P" 2 10 none none)).2 "W"
      = GetStockOutputLines scenarioW "W" :=
  ⟨fresh_scenarioW, find_scenarioW_W,
    history_write_once (envOf (ids "X" "tX")) scenarioW (.createStockOutput "P" 2 10 none none)
      "W" outputW fresh_scenarioW find_scenarioW_W⟩

/-- C14, amended (tie-break). `GetStockEntriesForProduct` lists the lots of the
product in non-decreasing date order, and in a reachable state the lines of a
successful `CreateStockOutput` draw, in order, on the first lots of a
non-decreasing date ordering of the product's lots with stock left. Among lots
with one date that ordering is the one in which the map is visited, which is not
fixed. -/
theorem tie_break (env : Env) (s s' : InventoryService) (pid : String) (q : ℚ)
    (date : Time) (ref notes : Option String) (out : StockOutput) (hr : Reachable s)
    (hok : CreateStockOutput env s pid q date ref notes = (.ok out, s')) :
    (GetStockEntriesForProduct env s pid).Perm (lotsOf s.stockEntries pid) ∧
    (GetStockEntriesForProduct env s pid).Sorted (fun a b => a.EntryDate ≤ b.EntryDate) ∧
    ∃ lots rest : List StockEntry,
      (lots ++ rest).Perm (positiveLots s.stockEntries pid) ∧
      (lots ++ rest).Sorted (fun a b => a.EntryDate ≤ b.EntryDate) ∧
      List.Forall₂ (fun l e => l.StockEntryID = e.ID ∧ s.stockEntries.find e.ID = some e)
        (GetStockOutputLines s' out.ID) lots := by
  refine ⟨(sortSlice_perm _ _).trans ((env.visit_perm _).filter _),
    sortSlice_byDate_sorted _, ?_⟩
  have h1 : (CreateStockOutput env s pid q date ref notes).1 = .ok out := by rw [hok]
  have h2 : (CreateStockOutput env s pid q date ref notes).2 = s' := by rw [hok]
  obtain ⟨_, _, _, _, _, _, hlines⟩ := createStockOutput_ok h1
  rw [h2] at hlines
  have hw := walkable_availableEntries env (inv_of_reachable hr) pid
  obtain ⟨new, taken, rest, hL, hl, hdraw, _, _, _, _, _⟩ :=
    allocate_spec env (env.uuid 0) (availableEntries env s pid) 0
      { stockEntries := s.stockEntries, remainingToFulfill := q,
        totalCost := 0, outputLines := [] } hw
  have hnew : (allocation env s pid q).outputLines = new := by
    unfold allocation; rw [hl]; rfl
  refine ⟨taken, rest, ?_, ?_, ?_⟩
  · rw [← hL]; exact availableEntries_perm env s pid
  · rw [← hL]; exact availableEntries_sorted env s pid
  · rw [hlines, hnew]
    exact forall₂_imp_mem hdraw fun l e _ he h =>
      ⟨h.2.1, hw.stored e (by rw [hL]; exact List.mem_append_left _ he)⟩

/-- Witness of C14 as amended: 5 units withdrawn from lots A and C, which have
one date, with lot C visited first. -/
theorem tie_break_witness :
    Reachable scenarioT ∧
    CreateStockOutput (envRev scenarioIds) scenarioT "P" 5 9 none none =
      (.ok outputT, (CreateStockOutput (envRev scenarioIds) scenarioT "P" 5 9 none none).2) ∧
    (GetStockEntriesForProduct (envRev scenarioIds) scenarioT "P").Sorted
      (fun a b => a.EntryDate ≤ b.EntryDate) ∧
    ∃ lots rest : List StockEntry,
      (lots ++ rest).Perm (positiveLots scenarioT.stockEntries "P") ∧
      (lots ++ rest).Sorted (fun a b => a.EntryDate ≤ b.EntryDate) ∧
      List.Forall₂
        (fun l e => l.StockEntryID = e.ID ∧ scenarioT.stockEntries.find e.ID = some e)
        (GetStockOutputLines
          (CreateStockOutput (envRev scenarioIds) scenarioT "P" 5 9 none none).2 outputT.ID)
        lots :=
  have h := tie_break (envRev scenarioIds) scenarioT _ "P" 5 9 none none outputT
    reachable_scenarioT createStockOutput_scenarioT_rev'
  ⟨reachable_scenarioT, createStockOutput_scenarioT_rev', h.2.1, h.2.2⟩

/-- Counterexample to C14 as stated: lot A was created before lot C and both
have date 1 and 10 units left; when the map is visited C first, the withdrawal
of 5 units takes them from lot C and the lots are listed C before A, and when it
is visited A first the withdrawal takes them from lot A. -/
theorem tie_break_counterexample :
    Reachable scenarioT ∧
    scenarioT.stockEntries = [("A", lotA 10), ("C", lotC 10)] ∧
    (lotA 10).EntryDate = (lotC 10).EntryDate ∧
    GetStockOutputLines
        (CreateStockOutput (envRev scenarioIds) scenarioT "P" 5 9 none none).2 "W"
      = [lineW "l1" "C" 5 7] ∧
    GetStockOutputLines
        (CreateStockOutput (envOf scenarioIds) scenarioT "P" 5 9 none none).2 "W"
      = [lineW "l1" "A" 5 5] ∧
    GetStockEntriesForProduct (envRev scenarioIds) scenarioT "P" = [lotC 10, lotA 10] ∧
    GetStockEntriesForProduct (envOf scenarioIds) scenarioT "P" = [lotA 10, lotC 10] := by
  refine ⟨reachable_scenarioT, ?_, rfl, ?_, ?_, getStockEntries_scenarioT_rev,
    getStockEntries_scenarioT⟩
  · rw [scenarioT_eq]
  · rw [createStockOutput_scenarioT_rev]; simp [GetStockOutputLines, GoMap.find]
  · rw [createStockOutput_scenarioT]; simp [GetStockOutputLines, GoMap.find]

/-- C15, amended (recalculation twice). Applying `recalculateProductTotals` a
second time leaves lots, withdrawals, lines and log as the first application
left them. When the second application visits the lots in the order of the
first, it gives every product the same current stock and average cost, and with
the clock unchanged the service is the same altogether. For a product id that is
not stored, one application changes nothing. -/
theorem idempotent_recalculation (fl : ℚ → ℚ) (env env' : Env) (s : InventoryService)
    (pid : String) :
    (F64.recalculateProductTotals fl env' (F64.recalculateProductTotals fl env s pid)
        pid).stockEntries
      = (F64.recalculateProductTotals fl env s pid).stockEntries ∧
    (F64.recalculateProductTotals fl env' (F64.recalculateProductTotals fl env s pid)
        pid).stockOutputs
      = (F64.recalculateProductTotals fl env s pid).stockOutputs ∧
    (F64.recalculateProductTotals fl env' (F64.recalculateProductTotals fl env s pid)
        pid).outputLines
      = (F64.recalculateProductTotals fl env s pid).outputLines ∧
    (F64.recalculateProductTotals fl env' (F64.recalculateProductTotals fl env s pid)
        pid).transactions
      = (F64.recalculateProductTotals fl env s pid).transactions ∧
    (env'.visit s.stockEntries.vals = env.visit s.stockEntries.vals →
      (∀ k,
        ((F64.recalculateProductTotals fl env' (F64.recalculateProductTotals fl env s pid)
            pid).products.find k).map (fun p => (p.CurrentStock, p.AverageCost))
          = ((F64.recalculateProductTotals fl env s pid).products.find k).map
              (fun p => (p.CurrentStock, p.AverageCost))) ∧
      (env'.now = env.now →
        F64.recalculateProductTotals fl env' (F64.recalculateProductTotals fl env s pid) pid
          = F64.recalculateProductTotals fl env s pid)) ∧
    (s.products.find pid = none → F64.recalculateProductTotals fl env s pid = s) := by
  refine ⟨F64.fl_recalculate_stockEntries _ _ _ _, F64.fl_recalculate_stockOutputs _ _ _ _,
    F64.fl_recalculate_outputLines _ _ _ _, F64.fl_recalculate_transactions _ _ _ _, ?_, ?_⟩
  · intro hv
    constructor
    · intro k
      by_cases hk : pid = k
      · subst hk
        rw [F64.fl_recalculate_find_self fl env', F64.fl_recalculate_stockEntries,
          F64.fl_recalculate_find_self fl env, hv]
        cases s.products.find pid with
        | none => rfl
        | some p => rfl
      · rw [F64.fl_recalculate_find_ne _ _ _ hk]
    · intro hnow
      rw [F64.fl_recalculate_eq fl env' (F64.recalculateProductTotals fl env s pid) pid,
        F64.fl_recalculate_find_self fl env, F64.fl_recalculate_stockEntries, hv]
      cases hp : s.products.find pid with
      | none =>
        simp only [Option.map_none']
      | some p =>
        simp only [Option.map_some']
        rw [F64.fl_recalculate_eq fl env s pid, hp]
        simp only
        rw [GoMap.put_put, hnow]
        rfl
  · intro hp
    rw [F64.fl_recalculate_eq, hp]

/-- Witness of C15 as amended: recalculating product P twice, in the same order
of visit, with lots of 0.1, 0.2 and 0.3 units, and recalculating a product id
that is not stored. -/
theorem idempotent_recalculation_witness :
    F64.recalculateProductTotals round64 (envOf scenarioIds)
        (F64.recalculateProductTotals round64 (envOf (ids "X" "tX")) scenarioF123 "P") "P"
      = F64.recalculateProductTotals round64 (envOf (ids "X" "tX")) scenarioF123 "P" ∧
    F64.recalculateProductTotals round64 (envOf scenarioIds) scenarioF123 "Q" = scenarioF123 :=
  ⟨((idempotent_recalculation round64 (envOf (ids "X" "tX")) (envOf scenarioIds) scenarioF123
      "P").2.2.2.2.1 rfl).2 rfl,
    (idempotent_recalculation round64 (envOf scenarioIds) (envOf scenarioIds) scenarioF123
      "Q").2.2.2.2.2 (by decide!)⟩

/-- Counterexample to C15 as stated: with lots of 0.1, 0.2 and 0.3 units, a
recalculation that visits them in this order stores a current stock of
0.6000000000000001, and a second recalculation that visits them in the opposite
order stores 0.6. -/
theorem idempotent_recalculation_counterexample :
    F64.Reachable round64 scenarioF123 ∧
    ((F64.recalculateProductTotals round64 (envOf scenarioIds) scenarioF123
        "P").products.find "P").map (fun p => p.CurrentStock)
      = some (1351079888211149 / 2251799813685248) ∧
    ((F64.recalculateProductTotals round64 (envRev scenarioIds)
        (F64.recalculateProductTotals round64 (envOf scenarioIds) scenarioF123 "P")
        "P").products.find "P").map (fun p => p.CurrentStock)
      = some (5404319552844595 / 9007199254740992) ∧
    ((F64.recalculateProductTotals round64 (envRev scenarioIds)
        (F64.recalculateProductTotals round64 (envOf scenarioIds) scenarioF123 "P")
        "P").products.find "P").map (fun p => p.CurrentStock)
      ≠ ((F64.recalculateProductTotals round64 (envOf scenarioIds) scenarioF123
          "P").products.find "P").map (fun p => p.CurrentStock) :=
  ⟨F64.fl_reachable_scenarioF123, by decide!, by decide!, by decide!⟩

/-- C16 (guarded product deletion). For a stored product, `DeleteProduct` fails
exactly when some transaction of the log has that product: then it returns the
transaction-history error and the service, the product included, is as it was;
otherwise it succeeds, the product is no longer stored, every other product is
stored as before, and lots, withdrawals, lines and log are unchanged. -/
theorem guarded_deletion (s : InventoryService) (id : String) (p : Product)
    (hp : s.products.find id = some p) :
    ((∃ t ∈ s.transactions, t.ProductID = id) →
      (DeleteProduct s id).1 = .error .hasTransactionHistory ∧
      (DeleteProduct s id).2 = s ∧ (DeleteProduct s id).2.products.find id = some p) ∧
    ((¬ ∃ t ∈ s.transactions, t.ProductID = id) →
      (DeleteProduct s id).1 = .ok () ∧
      (DeleteProduct s id).2.products.find id = none ∧
      (∀ k, k ≠ id → (DeleteProduct s id).2.products.find k = s.products.find k) ∧
      (DeleteProduct s id).2.stockEntries = s.stockEntries ∧
      (DeleteProduct s id).2.stockOutputs = s.stockOutputs ∧
      (DeleteProduct s id).2.outputLines = s.outputLines ∧
      (DeleteProduct s id).2.transactions = s.transactions) := by
  have hany : (s.transactions.any fun t => decide (t.ProductID = id)) = true ↔
      ∃ t ∈ s.transactions, t.ProductID = id := by
    rw [List.any_eq_true]
    constructor
    · rintro ⟨t, ht, h⟩; exact ⟨t, ht, by simpa using h⟩
    · rintro ⟨t, ht, h⟩; exact ⟨t, ht, by simpa using h⟩
  constructor
  · intro h
    unfold DeleteProduct
    rw [hp]; dsimp only
    rw [if_pos (hany.2 h)]
    exact ⟨rfl, rfl, hp⟩
  · intro h
    unfold DeleteProduct
    rw [hp]; dsimp only
    rw [if_neg (fun hc => h (hany.1 hc))]
    refine ⟨rfl, GoMap.find_del_self _ _, ?_, rfl, rfl, rfl, rfl⟩
    intro k hk
    exact GoMap.find_del_ne _ (fun e => hk e.symm)

/-- Witness of C16: product P cannot be deleted after the worked scenario, and
can be deleted before its first receipt. -/
theorem guarded_deletion_witness :
    scenarioW.products.find "P" = some (productP 5 7) ∧
    (∃ t ∈ scenarioW.transactions, t.ProductID = "P") ∧
    (DeleteProduct scenarioW "P").1 = .error .hasTransactionHistory ∧
    (DeleteProduct scenarioW "P").2 = scenarioW ∧
    scenarioP.products.find "P" = some (productP 0 0) ∧
    (¬ ∃ t ∈ scenarioP.transactions, t.ProductID = "P") ∧
    (DeleteProduct scenarioP "P").1 = .ok () ∧
    (DeleteProduct scenarioP "P").2.products.find "P" = none :=
  have h1 : ∃ t ∈ scenarioW.transactions, t.ProductID = "P" := by
    rw [scenarioW_eq]; exact ⟨logEntry "tA" "A" 10 1, by simp, rfl⟩
  have h2 : scenarioP.products.find "P" = some (productP 0 0) := by
    rw [scenarioP_eq]; simp [GoMap.find]
  have h3 : ¬ ∃ t ∈ scenarioP.transactions, t.ProductID = "P" := by
    rw [scenarioP_eq]; simp
  have c1 := (guarded_deletion scenarioW "P" (productP 5 7) find_scenarioW_P).1 h1
  have c2 := (guarded_deletion scenarioP "P" (productP 0 0) h2).2 h3
  ⟨find_scenarioW_P, h1, c1.1, c1.2.1, h2, h3, c2.1, c2.2.1⟩

/-- C17 (append-only log). Every call leaves the log as it was or appends to it.
A successful `AddStockEntry` appends exactly one entry, of type entry, with the
product, quantity and date of the call and the id of the lot it stored; a
successful `CreateStockOutput` appends exactly one entry, of type output, with
the product, quantity and date of the call and the id of the withdrawal it
stored; a failing call and every call of `CreateProduct`, `UpdateProduct`,
`DeleteProduct` and `UpdateStockEntry` leaves the log as it was. -/
theorem append_only_log (env : Env) (s : InventoryService) :
    (∀ op, ∃ added, (Op.run env s op).2.transactions = s.transactions ++ added) ∧
    (∀ pid q price d n e, (AddStockEntry env s pid q price d n).1 = .ok e →
      (AddStockEntry env s pid q price d n).2.transactions = s.transactions ++
        [{ ID := env.uuid 1, Type_ := .TransactionTypeEntry, ProductID := pid,
           Quantity := q, Date := d, ReferenceID := e.ID, Notes := n }] ∧
      (AddStockEntry env s pid q price d n).2.stockEntries.find e.ID = some e) ∧
    (∀ pid q d ref n out, (CreateStockOutput env s pid q d ref n).1 = .ok out →
      (∃ tid, (CreateStockOutput env s pid q d ref n).2.transactions = s.transactions ++
        [{ ID := tid, Type_ := .TransactionTypeOutput, ProductID := pid,
           Quantity := q, Date := d, ReferenceID := out.ID, Notes := n }]) ∧
      (CreateStockOutput env s pid q d ref n).2.stockOutputs.find out.ID = some out) ∧
    (∀ op, (Op.run env s op).1 ≠ none → (Op.run env s op).2.transactions = s.transactions) ∧
    (∀ name sku description units,
      (CreateProduct env s name sku description units).2.transactions = s.transactions) ∧
    (∀ id name sku description units,
      (UpdateProduct env s id name sku description units).2.transactions = s.transactions) ∧
    (∀ id, (DeleteProduct s id).2.transactions = s.transactions) ∧
    (∀ id price d n q,
      (UpdateStockEntry env s id price d n q).2.transactions = s.transactions) := by
  refine ⟨?_, ?_, ?_, ?_, ?_, ?_, ?_, ?_⟩
  · intro op
    rcases run_transactions env s op with h | ⟨t, h⟩
    · exact ⟨[], by rw [h, List.append_nil]⟩
    · exact ⟨[t], h⟩
  · intro pid q price d n e h
    unfold AddStockEntry at h ⊢
    cases hp : s.products.find pid with
    | none => rw [hp] at h; simp at h
    | some p =>
      rw [hp] at h
      dsimp only at h ⊢
      have he := (Except.ok.inj h).symm
      subst he
      rw [recalculate_transactions, recalculate_stockEntries]
      exact ⟨rfl, GoMap.find_put_self _ _ _⟩
  · intro pid q d ref n out h
    obtain ⟨_, hid, _, _, _, hst, _⟩ := createStockOutput_ok h
    refine ⟨?_, hst⟩
    unfold CreateStockOutput at h ⊢
    cases hp : s.products.find pid with
    | none => rw [hp] at h; simp at h
    | some p =>
      rw [hp] at h
      dsimp only at h ⊢
      split at h
      · simp at h
      · rename_i hlt
        rw [if_neg hlt]
        dsimp only
        rw [recalculate_transactions, hid]
        exact ⟨_, rfl⟩
  · intro op h
    rw [run_error env s op h]
  · exact transactions_createProduct env s
  · exact transactions_updateProduct env s
  · exact transactions_deleteProduct s
  · exact transactions_updateStockEntry env s

/-- Witness of C17: the receipt of lot A, the withdrawal of the worked scenario,
and the failing request for 10 units after it. -/
theorem append_only_log_witness :
    (AddStockEntry (envOf (ids "A" "tA")) scenarioP "P" 10 5 1 none).1 = .ok (lotA 10) ∧
    (AddStockEntry (envOf (ids "A" "tA")) scenarioP "P" 10 5 1 none).2.transactions
      = scenarioP.transactions ++ [logEntry "tA" "A" 10 1] ∧
    (CreateStockOutput (envOf scenarioIds) scenarioB "P" 15 9 none none).1 = .ok outputW ∧
    (∃ tid, (CreateStockOutput (envOf scenarioIds) scenarioB "P" 15 9 none none).2.transactions
      = scenarioB.transactions ++ [logOutput tid "W" 15 9]) ∧
    (Op.run (envOf scenarioIds) scenarioW (.createStockOutput "P" 10 9 none none)).1 ≠ none ∧
    (Op.run (envOf scenarioIds) scenarioW (.createStockOutput "P" 10 9 none none)).2.transactions
      = scenarioW.transactions :=
  have h1 : (AddStockEntry (envOf (ids "A" "tA")) scenarioP "P" 10 5 1 none).1
      = .ok (lotA 10) := by
    rw [scenarioP_eq]; simp [AddStockEntry, GoMap.find, envOf, ids, lotA]
  have h2 : (CreateStockOutput (envOf scenarioIds) scenarioB "P" 15 9 none none).1
      = .ok outputW := by rw [createStockOutput_scenarioB']
  have h3 : (Op.run (envOf scenarioIds) scenarioW
      (.createStockOutput "P" 10 9 none none)).1 ≠ none := by
    simp [Op.run, createStockOutput_scenarioW, errorOf]
  have c := append_only_log (envOf scenarioIds) scenarioW
  ⟨h1,
    ((append_only_log (envOf (ids "A" "tA")) scenarioP).2.1 "P" 10 5 1 none (lotA 10) h1).1,
    h2,
    ((append_only_log (envOf scenarioIds) scenarioB).2.2.1 "P" 15 9 none none outputW h2).1,
    h3, c.2.2.2.1 _ h3⟩

/-- C18 (log queries). `GetAllTransactions` returns a permutation of the log in
which no entry is dated before a later one in the list, and
`GetTransactionsForProduct` returns such a permutation of the log entries of the
product. Both are functions of the service that sort a list of their own. -/
theorem log_queries (s : InventoryService) (pid : String) :
    (GetAllTransactions s).Perm s.transactions ∧
    (GetAllTransactions s).Sorted (fun a b => b.Date ≤ a.Date) ∧
    (GetTransactionsForProduct s pid).Perm
      (s.transactions.filter (fun t => t.ProductID = pid)) ∧
    (GetTransactionsForProduct s pid).Sorted (fun a b => b.Date ≤ a.Date) :=
  ⟨sortSlice_perm _ _, sortSlice_byDateDesc_sorted _, sortSlice_perm _ _,
    sortSlice_byDateDesc_sorted _⟩

/-- C19, amended (ledger reconciliation). In every state reached in `float64`
arithmetic, with unique generated ids, by calls that leave to every lot the
exact remaining quantity (a quantity edit of `UpdateStockEntry` stores
`RemainingQuantity + (quantity - Quantity)`, and `CreateStockOutput` subtracts
each line quantity from its lot without rounding), for every stored lot the
consumed amount `Quantity - RemainingQuantity` is the sum of the quantities of
all stored allocation lines that name the lot. -/
theorem ledger_reconciliation (fl : ℚ → ℚ) (s : InventoryService)
    (hr : F64.ReachableBy fl (F64.ExactRemaining fl) s) (k : String) (e : StockEntry)
    (he : s.stockEntries.find k = some e) :
    e.Quantity - e.RemainingQuantity = totalQuantity (linesOf (allLines s) k) :=
  (F64.fl_reconciled_of_reachableBy hr).reconciled k e he

/-- Witness of C19 as amended: lot B of the worked scenario after the
withdrawal, which took 5 of its units in one line, and an edit of its quantity
to 7. -/
theorem ledger_reconciliation_witness :
    F64.ReachableBy round64 (F64.ExactRemaining round64) scenarioE ∧
    scenarioE.stockEntries.find "B"
      = some { lotB 2 with Quantity := 7, UnitPrice := 8, EntryDate := 6 } ∧
    linesOf (allLines scenarioE) "B" = [lineW "l2" "B" 5 7] ∧
    (7 : ℚ) - 2 = totalQuantity (linesOf (allLines scenarioE) "B") :=
  have h : scenarioE.stockEntries.find "B"
      = some { lotB 2 with Quantity := 7, UnitPrice := 8, EntryDate := 6 } := by decide!
  ⟨F64.fl_ledger_scenarioE, h, by decide!,
    ledger_reconciliation round64 scenarioE F64.fl_ledger_scenarioE "B" _ h⟩

/-- Counterexample to C19 as stated. Of a lot of 0.4 units, 0.1 units are
withdrawn in one line; the lot is left with 0.30000000000000004 units, so that
its consumed amount is not the quantity of the line. And a lot of 0.1 units, all
withdrawn in one line and then edited to a quantity of 0.4 units, is left with
0.30000000000000004 units, so that its consumed amount is not the quantity of
the line either. -/
theorem ledger_reconciliation_counterexample :
    (F64.Reachable round64 scenarioF4W ∧
      scenarioF4W.stockEntries.find "A"
        = some (lotF "A" (tenths 4) (1351079888211149 / 4503599627370496)) ∧
      (linesOf (allLines scenarioF4W) "A").map (fun l => l.Quantity) = [tenths 1] ∧
      (lotF "A" (tenths 4) (1351079888211149 / 4503599627370496)).Quantity
          - (lotF "A" (tenths 4) (1351079888211149 / 4503599627370496)).RemainingQuantity
        ≠ totalQuantity (linesOf (allLines scenarioF4W) "A")) ∧
    (F64.Reachable round64 scenarioF1E ∧
      scenarioF1E.stockEntries.find "A"
        = some (lotF "A" (tenths 4) (1351079888211149 / 4503599627370496)) ∧
      (linesOf (allLines scenarioF1E) "A").map (fun l => l.Quantity) = [tenths 1] ∧
      (lotF "A" (tenths 4) (1351079888211149 / 4503599627370496)).Quantity
          - (lotF "A" (tenths 4) (1351079888211149 / 4503599627370496)).RemainingQuantity
        ≠ totalQuantity (linesOf (allLines scenarioF1E) "A")) :=
  ⟨⟨F64.fl_reachable_scenarioF4W, by decide!, by decide!, by decide!⟩,
    ⟨F64.fl_reachable_scenarioF1E, by decide!, by decide!, by decide!⟩⟩

/-- C20 (referential integrity). In every reachable state every lot, withdrawal
and transaction has a stored product, every transaction refers to a stored lot
(type entry) or a stored withdrawal (type output), and every allocation line is
stored under the id of its withdrawal, which is stored, and names a stored lot
of that withdrawal's product; and all this still holds after any call of
`DeleteProduct`, which therefore orphans no lot and no withdrawal. -/
theorem referential_integrity (s : InventoryService) (hr : Reachable s) :
    ReferentialIntegrity s ∧ ∀ id, ReferentialIntegrity (DeleteProduct s id).2 :=
  ⟨referentialIntegrity_of (inv_of_reachable hr) (ledger_of_reachable hr),
    fun id => referentialIntegrity_of (inv_deleteProduct (inv_of_reachable hr) id)
      (ledger_deleteProduct (ledger_of_reachable hr) id)⟩

/-- Witness of C20: the service after the withdrawal of the worked scenario. -/
theorem referential_integrity_witness :
    Reachable scenarioW ∧ ReferentialIntegrity scenarioW ∧
    ReferentialIntegrity (DeleteProduct scenarioW "P").2 :=
  ⟨reachable_scenarioW, (referential_integrity scenarioW reachable_scenarioW).1,
    (referential_integrity scenarioW reachable_scenarioW).2 "P"⟩

end StockScribe
